import Mathlib

/-
Verification of the route-planning core of the StreetSprint planner
(planner-engine, surfaced through CompletionSection).

Modelling conventions, used consistently below:

* JS numbers are modelled as exact rationals (ℚ).  Where the source uses
  Infinity (Number.POSITIVE_INFINITY) the model uses WithTop ℚ, with ⊤ for
  Infinity.
* The three geometric primitives of the source that are computed with IEEE
  transcendental functions (haversineKm, distancePointToSegmentMeters, and
  the Math.cos scaling inside isPointInCityBounds) are abstracted into a
  parameter record Geo; every theorem states the properties of them it
  needs (nonnegativity, symmetry, hav p p = 0), each of which holds for the
  source implementation.
* JS Map / Set are modelled as insertion-ordered association lists
  (Js.jset updates in place keeping the position of an existing key and
  appends fresh keys at the end, exactly like Map.prototype.set; iteration
  order of keys/values/entries is list order, i.e. insertion order).
* crypto.randomUUID() is modelled by passing the generated UUID string as
  an explicit oracle argument to buildEfficientCoverageRoute.
* JS while-loops whose bound is not syntactically obvious are given an
  explicit fuel that provably (or by the comment at the definition)
  dominates the number of iterations the source can perform.
-/

set_option maxHeartbeats 1600000

namespace Js

/-- Model of Map.prototype.get on an insertion-ordered association list. -/
def jget {K V : Type} [DecidableEq K] : List (K × V) → K → Option V
  | [], _ => none
  | (k', v) :: rest, k => if k' = k then some v else jget rest k

/-- Model of Map.prototype.set: update in place if the key exists (keeping its
insertion position), otherwise append at the end. -/
def jset {K V : Type} [DecidableEq K] : List (K × V) → K → V → List (K × V)
  | [], k, v => [(k, v)]
  | (k', v') :: rest, k, v =>
    if k' = k then (k', v) :: rest else (k', v') :: jset rest k v

/-- Model of Map.prototype.has. -/
def jhas {K V : Type} [DecidableEq K] (m : List (K × V)) (k : K) : Bool :=
  (jget m k).isSome

/-- Model of Set.prototype.add: append if absent (Set iteration order is
insertion order). -/
def sadd {K : Type} [DecidableEq K] (s : List K) (k : K) : List K :=
  if k ∈ s then s else s ++ [k]

/-- Model of Math.round: round half toward positive infinity. -/
def jsRound (q : ℚ) : ℤ := ⌊q + 1/2⌋

/-- Insert x into l, after every element y with le y x (the placement a stable
sort gives a later-coming equal element). -/
def insertLe {α : Type} (le : α → α → Bool) (x : α) : List α → List α
  | [] => [x]
  | y :: ys => if le y x then y :: insertLe le x ys else x :: y :: ys

/-- Model of Array.prototype.sort with a consistent comparator: ECMAScript
sort is required to be stable, and a stable sort under a total preorder has a
unique result, so a stable insertion sort (kernel-computable, unlike a
well-founded merge sort) produces exactly the array the source computes. -/
def jsSortBy {α : Type} (le : α → α → Bool) (l : List α) : List α :=
  l.foldl (fun acc x => insertLe le x acc) []

end Js

/-- Model of JS Infinity-capable numbers. -/
abbrev NumInf := WithTop ℚ

/-- WGS84 coordinate pair (type LatLng of the source). -/
structure LatLng where
  lat : ℚ
  lon : ℚ
deriving DecidableEq, Repr

/-- Origin tag of a street segment. -/
inductive StreetSource where
  | osm
  | manual
deriving DecidableEq, Repr

/-- Type StreetSegment of the source. -/
structure StreetSegment where
  id : String
  name : String
  path : List LatLng
  startNodeId : Option String := none
  endNodeId : Option String := none
  completed : Bool
  source : StreetSource
deriving DecidableEq, Repr

/-- Type CityBounds of the source. -/
structure CityBounds where
  south : ℚ
  north : ℚ
  west : ℚ
  east : ℚ
deriving DecidableEq, Repr

/-- The geometric primitives of the source that are implemented with IEEE
transcendental functions (Math.sin/cos/atan2/hypot/sqrt): haversineKm,
distancePointToSegmentMeters, and the cosine factor cos(x·π/180) used by
isPointInCityBounds.  They are abstracted as parameters of the development
(JS numbers are modelled as exact rationals, where these transcendentals have
no exact representation); theorems state the properties of them they use. -/
structure Geo where
  hav : LatLng → LatLng → ℚ
  segMeters : LatLng → LatLng → LatLng → ℚ
  cosDeg : ℚ → ℚ

/-- Function polylineDistanceKm of the source: sum of hav over consecutive
pairs, 0 for paths shorter than 2 points (the source loop written as
structural recursion). -/
def polylineDistanceKm (geo : Geo) : List LatLng → ℚ
  | [] => 0
  | [_] => 0
  | a :: b :: rest => geo.hav a b + polylineDistanceKm geo (b :: rest)

/-- Function distancePointToPathMeters of the source: minimum of segMeters
over consecutive pairs, Infinity for paths shorter than 2 points. -/
def distancePointToPathMeters (geo : Geo) (p : LatLng) : List LatLng → NumInf
  | [] => ⊤
  | [_] => ⊤
  | a :: b :: rest =>
    min (geo.segMeters p a b : NumInf) (distancePointToPathMeters geo p (b :: rest))

/-- Constant NODE_CAPTURE_RADIUS_METERS of the source. -/
def NODE_CAPTURE_RADIUS_METERS : ℚ := 6096 / 1000

/-- Whitespace class: the characters matched both by String.prototype.trim and
by the regex class backslash-s that the source uses (ASCII fragment model). -/
def wsChar (c : Char) : Bool :=
  c == ' ' || c == '\t' || c == '\n' || c == '\r' || c == '\x0b' || c == '\x0c'

/-- Model of String.prototype.trim on a character list. -/
def trimList (l : List Char) : List Char :=
  ((l.dropWhile wsChar).reverse.dropWhile wsChar).reverse

/-- Model of String.prototype.toLowerCase (ASCII fragment; street names in the
claims are ASCII). -/
def jsToLower (c : Char) : Char :=
  if 65 ≤ c.toNat ∧ c.toNat ≤ 90 then Char.ofNat (c.toNat + 32) else c

/-- Model of replace(/backslash-period/g, ""): drop every period. -/
def removeDots (l : List Char) : List Char := l.filter (fun c => ¬ (c = '.'))

/-- Model of replace(/backslash-s+/g, " "): each maximal whitespace run becomes
a single space.  The Boolean argument records whether the previous character
was part of a whitespace run whose replacement space was already emitted. -/
def collapseWsAux : Bool → List Char → List Char
  | _, [] => []
  | inRun, c :: cs =>
    if wsChar c then
      if inRun then collapseWsAux true cs else ' ' :: collapseWsAux true cs
    else c :: collapseWsAux false cs

/-- Model of replace(/backslash-s+/g, " ") on a whole list. -/
def collapseWs (l : List Char) : List Char := collapseWsAux false l

/-- Function normalizeStreetName of the source: trim, lowercase, remove
periods, collapse whitespace runs to single spaces. -/
def normalizeStreetName (s : String) : String :=
  String.mk (collapseWs (removeDots ((trimList s.data).map jsToLower)))

/-- Predicate used in the normalizeStreetName analysis: no two adjacent
whitespace characters. -/
def NoWsPair (a b : Char) : Prop := ¬(wsChar a = true ∧ wsChar b = true)

def headNotWs : List Char → Prop
  | [] => True
  | c :: _ => wsChar c = false


/-- Model of String.prototype.trim. -/
def jsTrim (s : String) : String := String.mk (trimList s.data)

/-- Model of String.prototype.toLowerCase (ASCII fragment). -/
def jsLower (s : String) : String := String.mk (s.data.map jsToLower)

/-- Type of the type field of an Overpass element. -/
inductive OverpassElemType where
  | node
  | way
deriving DecidableEq, Repr

/-- Type OverpassWayTags of the source. -/
structure OverpassWayTags where
  name : Option String := none
  ref : Option String := none
  alt_name : Option String := none
  official_name : Option String := none
  highway : Option String := none
  access : Option String := none
  foot : Option String := none
  area : Option String := none
  service : Option String := none
deriving DecidableEq, Repr

/-- One element of an Overpass payload. -/
structure OverpassElement where
  type : OverpassElemType
  id : Int
  lat : Option ℚ := none
  lon : Option ℚ := none
  nodes : Option (List Int) := none
  tags : Option OverpassWayTags := none
deriving DecidableEq, Repr

/-- Type OverpassPayload of the source. -/
structure OverpassPayload where
  elements : Option (List OverpassElement) := none
deriving DecidableEq, Repr

/-- Function isRunnableCityStreet of the source.  JS truthiness of an optional
string (undefined or empty after trim is falsy) is made explicit. -/
def isRunnableCityStreet (tags : Option OverpassWayTags) : Bool :=
  match tags with
  | none => false
  | some tags =>
    let highway := (tags.highway.map (fun h => jsLower (jsTrim h))).getD ""
    if highway = "" then false
    else if ¬ (highway ∈ ["residential", "unclassified", "tertiary", "secondary",
        "primary", "living_street"]) then false
    else
      let access := tags.access.map (fun a => jsLower (jsTrim a))
      if access = some "private" ∨ access = some "no" then false
      else
        let foot := tags.foot.map (fun f => jsLower (jsTrim f))
        if foot = some "private" ∨ foot = some "no" then false
        else if tags.area.map (fun a => jsLower (jsTrim a)) = some "yes" then false
        else (tags.name.map (fun n => jsTrim n != "")).getD false

/-- A retained way of parseOverpassResponse (the shape pushed onto the local
ways array). -/
structure OWay where
  id : Int
  name : String
  nodes : List Int
deriving DecidableEq, Repr

/-- First pass of parseOverpassResponse: collect the node id to coordinate map
(insertion order, Map semantics). -/
def collectNodeMap (elements : List OverpassElement) : List (Int × LatLng) :=
  elements.foldl (fun m e =>
    match e.type, e.lat, e.lon with
    | .node, some la, some lo => Js.jset m e.id ⟨la, lo⟩
    | _, _, _ => m) []

/-- Second pass of parseOverpassResponse: the retained ways, in payload order
(runnable tags, at least 2 node refs, nonempty trimmed name). -/
def collectWays (elements : List OverpassElement) : List OWay :=
  elements.filterMap (fun e =>
    if e.type = .way then
      if isRunnableCityStreet e.tags then
        match e.nodes with
        | none => none
        | some ns =>
          if ns.length < 2 then none
          else
            let name := ((e.tags.bind (·.name)).map jsTrim).getD ""
            if name = "" then none else some ⟨e.id, name, ns⟩
      else none
    else none)

/-- Usage count of every node id across the retained ways; an id occurring
several times inside one way is counted once per occurrence, exactly as the
source loop does. -/
def nodeUsageOf (ways : List OWay) : List (Int × ℕ) :=
  ways.foldl (fun m w =>
    w.nodes.foldl (fun m2 n => Js.jset m2 n ((Js.jget m2 n).getD 0 + 1)) m) []

/-- The splitIndices set of parseOverpassResponse for one way: insertion-order
Set containing 0, the last index, and every interior index whose node has
usage above 1, then sorted ascending (Array.from(set).sort). -/
def orderedSplitsOf (usage : List (Int × ℕ)) (w : OWay) : List ℕ :=
  let base := Js.sadd (Js.sadd [] 0) (w.nodes.length - 1)
  let withInterior := (List.range w.nodes.length).foldl (fun s i =>
    if 1 ≤ i ∧ i + 1 < w.nodes.length ∧ 1 < (Js.jget usage (w.nodes.getD i 0)).getD 0
    then Js.sadd s i else s) base
  Js.jsSortBy (fun a b => a ≤ b) withInterior

/-- Resolve a list of node ids against the node map; none as soon as one id is
missing (the hasMissingNode early exit of the source). -/
def lookupPath (nodeMap : List (Int × LatLng)) : List Int → Option (List LatLng)
  | [] => some []
  | n :: rest =>
    match Js.jget nodeMap n with
    | none => none
    | some p => (lookupPath nodeMap rest).map (p :: ·)

/-- One candidate split segment of a way: the slice of node ids between two
consecutive ordered split indices, turned into a StreetSegment when all nodes
resolve and the slice has at least 2 entries; i is the (1-based) position of
the upper split index inside orderedSplits, used in the generated id. -/
def splitSegment (nodeMap : List (Int × LatLng)) (w : OWay) (i : ℕ)
    (fromIndex toIndex : ℕ) : Option StreetSegment :=
  if toIndex ≤ fromIndex then none
  else
    let segmentNodeIds := (w.nodes.drop fromIndex).take (toIndex - fromIndex + 1)
    if segmentNodeIds.length < 2 then none
    else
      match lookupPath nodeMap segmentNodeIds with
      | none => none
      | some path =>
        if path.length < 2 then none
        else
          let startNodeRaw := segmentNodeIds.headD 0
          let endNodeRaw := segmentNodeIds.getLastD 0
          some
            { id := "osm-" ++ toString w.id ++ "-" ++ toString startNodeRaw ++ "-"
                ++ toString endNodeRaw ++ "-" ++ toString i
              name := w.name
              path := path
              startNodeId := some ("osm-node-" ++ toString startNodeRaw)
              endNodeId := some ("osm-node-" ++ toString endNodeRaw)
              completed := false
              source := .osm }

/-- Walk the consecutive pairs of orderedSplits, keeping the successful slices
(the inner for-loop of the splitting pass, with its running index). -/
def splitWalk (nodeMap : List (Int × LatLng)) (w : OWay) : ℕ → List ℕ → List StreetSegment
  | _, [] => []
  | _, [_] => []
  | i, a :: b :: rest =>
    (splitSegment nodeMap w i a b).toList ++ splitWalk nodeMap w (i + 1) (b :: rest)

/-- All split segments of one retained way. -/
def waySplitSegments (nodeMap : List (Int × LatLng)) (usage : List (Int × ℕ))
    (w : OWay) : List StreetSegment :=
  splitWalk nodeMap w 1 (orderedSplitsOf usage w)

/-- The fallback segment for a whole way (id osm-wayId), when the splitting
pass produced no segments at all. -/
def fallbackSegment (nodeMap : List (Int × LatLng)) (w : OWay) : Option StreetSegment :=
  match lookupPath nodeMap w.nodes with
  | none => none
  | some path =>
    if path.length < 2 then none
    else
      let startNodeRaw := w.nodes.headD 0
      let endNodeRaw := w.nodes.getLastD 0
      some
        { id := "osm-" ++ toString w.id
          name := w.name
          path := path
          startNodeId := some ("osm-node-" ++ toString startNodeRaw)
          endNodeId := some ("osm-node-" ++ toString endNodeRaw)
          completed := false
          source := .osm }

/-- Function parseOverpassResponse of the source. -/
def parseOverpassResponse (payload : OverpassPayload) : List StreetSegment :=
  let elements := payload.elements.getD []
  let nodeMap := collectNodeMap elements
  let ways := collectWays elements
  if ways = [] then []
  else
    let usage := nodeUsageOf ways
    let segments := ways.flatMap (waySplitSegments nodeMap usage)
    if segments = [] then ways.filterMap (fallbackSegment nodeMap)
    else segments

/-- Split positions as the amended specification words them: indices 0 and
last, plus every interior index whose node id occurs at least twice across the
retained ways, occurrences inside a single way counted with multiplicity;
written as a direct ascending filter over all positions of the way. -/
def specSplitIndices (usage : List (Int × ℕ)) (w : OWay) : List ℕ :=
  (List.range w.nodes.length).filter (fun i =>
    i = 0 ∨ i + 1 = w.nodes.length ∨
      (1 ≤ i ∧ i + 1 < w.nodes.length ∧ 1 < (Js.jget usage (w.nodes.getD i 0)).getD 0))

/-- parseOverpassResponse as described by the amended specification: identical
pipeline, with the split positions given by the direct filter
specSplitIndices instead of the Set-plus-sort construction. -/
def specParseOverpassResponse (payload : OverpassPayload) : List StreetSegment :=
  let elements := payload.elements.getD []
  let nodeMap := collectNodeMap elements
  let ways := collectWays elements
  if ways = [] then []
  else
    let usage := nodeUsageOf ways
    let segments := ways.flatMap (fun w => splitWalk nodeMap w 1 (specSplitIndices usage w))
    if segments = [] then ways.filterMap (fallbackSegment nodeMap)
    else segments

/-- Shorthand for a node element of a test payload. -/
def onode (i : Int) (la lo : ℚ) : OverpassElement :=
  { type := .node, id := i, lat := some la, lon := some lo }

/-- Shorthand for a runnable residential way element of a test payload. -/
def oway (i : Int) (nm : String) (ns : List Int) : OverpassElement :=
  { type := .way, id := i, nodes := some ns,
    tags := some { name := some nm, highway := some "residential" } }

/-- Payload with a single retained way whose interior node 2 occurs twice
inside the same way (a lollipop-shaped street). -/
def c6CexPayload : OverpassPayload :=
  { elements := some [onode 1 0 0, onode 2 0 1, onode 3 0 2, onode 4 1 1,
      oway 7 "Main" [1, 2, 3, 2, 4]] }

/-- Payload of the concrete scenario of the claim: way 7 = [1,2,3] whose
interior node 2 is shared with way 8 = [2,4]. -/
def c6ScenarioPayload : OverpassPayload :=
  { elements := some [onode 1 0 0, onode 2 0 1, onode 3 0 2, onode 4 1 1,
      oway 7 "Main" [1, 2, 3], oway 8 "Cross" [2, 4]] }

/-- Expected parse of c6ScenarioPayload: way 7 splits into exactly the two
segments 1 to 2 and 2 to 3, way 8 stays whole. -/
def c6ScenarioExpected : List StreetSegment :=
  [{ id := "osm-7-1-2-1", name := "Main", path := [⟨0, 0⟩, ⟨0, 1⟩],
     startNodeId := some "osm-node-1", endNodeId := some "osm-node-2",
     completed := false, source := .osm },
   { id := "osm-7-2-3-2", name := "Main", path := [⟨0, 1⟩, ⟨0, 2⟩],
     startNodeId := some "osm-node-2", endNodeId := some "osm-node-3",
     completed := false, source := .osm },
   { id := "osm-8-2-4-1", name := "Cross", path := [⟨0, 1⟩, ⟨1, 1⟩],
     startNodeId := some "osm-node-2", endNodeId := some "osm-node-4",
     completed := false, source := .osm }]

namespace Js

/-- Modify the value stored under a key in place (model of mutating the object
returned by Map.prototype.get; no-op when the key is absent, like ?.). -/
def jmodify {K V : Type} [DecidableEq K] (m : List (K × V)) (k : K) (f : V → V) :
    List (K × V) :=
  m.map (fun p => if p.1 = k then (p.1, f p.2) else p)

end Js

/-- Decimal rendering of a nonnegative rational with 5 fixed fraction digits
(model of Number.prototype.toFixed(5): nearest, ties toward the larger
value). -/
def ratToFixed5Pos (q : ℚ) : String :=
  let n := (⌊q * 100000 + 1/2⌋).toNat
  let frac := toString (n % 100000)
  toString (n / 100000) ++ "." ++ String.mk (List.replicate (5 - frac.length) '0') ++ frac

/-- Model of toFixed(5) including the sign handling of the ECMAScript
algorithm (sign extracted first, digits computed on the absolute value). -/
def ratToFixed5 (q : ℚ) : String :=
  if q < 0 then "-" ++ ratToFixed5Pos (-q) else ratToFixed5Pos q

/-- Function quantizePoint of the source. -/
def quantizePoint (p : LatLng) : String :=
  ratToFixed5 p.lat ++ "," ++ ratToFixed5 p.lon

/-- The endpoint selector of nodeIdForStreetEndpoint (the string union
"start" | "end" of the source). -/
inductive Endpoint where
  | start
  | last
deriving DecidableEq, Repr

/-- Function nodeIdForStreetEndpoint of the source. -/
def nodeIdForStreetEndpoint (street : StreetSegment) : Endpoint → String
  | .start => street.startNodeId.getD (quantizePoint (street.path.headD ⟨0, 0⟩))
  | .last => street.endNodeId.getD (quantizePoint (street.path.getLastD ⟨0, 0⟩))

/-- Type GraphNode of the source. -/
structure GraphNode where
  id : String
  point : LatLng
  edgeIds : List String
deriving DecidableEq, Repr

/-- Type GraphEdge of the source; fields from/to are spelled fromId/toId
because from is a Lean keyword. -/
structure GraphEdge where
  id : String
  streetId : String
  streetName : String
  fromId : String
  toId : String
  path : List LatLng
  distanceKm : ℚ
deriving DecidableEq, Repr

/-- Type GraphNeighbor of the source. -/
structure GraphNeighbor where
  edgeId : String
  neighbor : String
deriving DecidableEq, Repr

/-- Type StreetGraph of the source (Maps as insertion-ordered association
lists). -/
structure StreetGraph where
  nodes : List (String × GraphNode)
  edges : List (String × GraphEdge)
  adjacency : List (String × List GraphNeighbor)
deriving DecidableEq, Repr

/-- Register a node if absent (the nodes.has / nodes.set prologue of the
buildStreetGraph loop). -/
def ensureNode (nodes : List (String × GraphNode)) (nid : String) (pt : LatLng) :
    List (String × GraphNode) :=
  if Js.jhas nodes nid then nodes else Js.jset nodes nid ⟨nid, pt, []⟩

/-- Push an edge id onto the edgeIds array of a registered node (mutating the
object held in the map, a no-op when absent like ?.push). -/
def pushEdgeId (nodes : List (String × GraphNode)) (nid eid : String) :
    List (String × GraphNode) :=
  Js.jmodify nodes nid (fun n => { n with edgeIds := n.edgeIds ++ [eid] })

/-- Register an empty adjacency list if absent. -/
def ensureAdj (adj : List (String × List GraphNeighbor)) (nid : String) :
    List (String × List GraphNeighbor) :=
  if Js.jhas adj nid then adj else Js.jset adj nid []

/-- Append a neighbor record to a registered adjacency list (no-op when
absent, like ?.push). -/
def pushNeighbor (adj : List (String × List GraphNeighbor)) (nid : String)
    (nb : GraphNeighbor) : List (String × List GraphNeighbor) :=
  Js.jmodify adj nid (fun l => l ++ [nb])

/-- One iteration of the buildStreetGraph loop: register both endpoint nodes,
create the edge (Map.set, so a duplicate street id overwrites), push the edge
id onto both nodes, and append neighbor records to both adjacency lists. -/
def buildStreetGraphStep (geo : Geo) (g : StreetGraph) (street : StreetSegment) :
    StreetGraph :=
  if street.path.length < 2 then g
  else
    ⟨pushEdgeId
        (pushEdgeId
          (ensureNode
            (ensureNode g.nodes (nodeIdForStreetEndpoint street .start)
              (street.path.headD ⟨0, 0⟩))
            (nodeIdForStreetEndpoint street .last) (street.path.getLastD ⟨0, 0⟩))
          (nodeIdForStreetEndpoint street .start) street.id)
        (nodeIdForStreetEndpoint street .last) street.id,
      Js.jset g.edges street.id
        ⟨street.id, street.id, street.name, nodeIdForStreetEndpoint street .start,
          nodeIdForStreetEndpoint street .last, street.path,
          polylineDistanceKm geo street.path⟩,
      pushNeighbor
        (pushNeighbor
          (ensureAdj (ensureAdj g.adjacency (nodeIdForStreetEndpoint street .start))
            (nodeIdForStreetEndpoint street .last))
          (nodeIdForStreetEndpoint street .start)
          ⟨street.id, nodeIdForStreetEndpoint street .last⟩)
        (nodeIdForStreetEndpoint street .last)
        ⟨street.id, nodeIdForStreetEndpoint street .start⟩⟩

/-- Function buildStreetGraph of the source. -/
def buildStreetGraph (geo : Geo) (streets : List StreetSegment) : StreetGraph :=
  streets.foldl (buildStreetGraphStep geo) ⟨[], [], []⟩

/-- Number of entries with edgeId eid in the adjacency list stored under
nodeId. -/
def adjCountL (adj : List (String × List GraphNeighbor)) (nodeId eid : String) : ℕ :=
  ((Js.jget adj nodeId).getD []).countP (fun nb => nb.edgeId == eid)

/-- Number of adjacency entries of nodeId whose edgeId field is eid (the
multiplicity the claim about adjacency lists speaks about). -/
def adjCount (g : StreetGraph) (nodeId eid : String) : ℕ :=
  adjCountL g.adjacency nodeId eid

/-- The adjacency multiplicity property of the (amended) claim: every stored
edge occurs exactly once in the adjacency list of each of its two distinct
endpoints, and exactly twice in the list of its endpoint when it is a
self-loop. -/
def AdjInv (g : StreetGraph) : Prop :=
  ∀ eid e, Js.jget g.edges eid = some e →
    (e.fromId ≠ e.toId →
      adjCount g e.fromId eid = 1 ∧ adjCount g e.toId eid = 1) ∧
    (e.fromId = e.toId → adjCount g e.fromId eid = 2)

/-- An edge id not yet present anywhere in the graph. -/
def EdgeFresh (g : StreetGraph) (sid : String) : Prop :=
  Js.jget g.edges sid = none ∧ ∀ nodeId, adjCount g nodeId sid = 0

/-- A geometry instance whose abstract primitives are constantly zero (used by
counterexamples whose claims do not depend on geometric values; cosDeg 0 = 1
matches the real cosine at the equator). -/
def zeroGeo : Geo := ⟨fun _ _ => 0, fun _ _ _ => 0, fun _ => 1⟩

/-- A street whose two path points coincide: both endpoints quantize to the
same node id, producing a self-loop edge (the shape OSM closed ways such as
circular residential loops produce after splitting). -/
def c4LoopStreet : StreetSegment :=
  { id := "s", name := "Loop", path := [⟨0, 0⟩, ⟨0, 0⟩],
    completed := false, source := .manual }

/-- Two ordinary streets with distinct ids sharing one endpoint, used to
witness the amended adjacency claim. -/
def c4WitnessStreets : List StreetSegment :=
  [{ id := "a", name := "First", path := [⟨0, 0⟩, ⟨0, 1⟩],
     startNodeId := some "n1", endNodeId := some "n2",
     completed := false, source := .osm },
   { id := "b", name := "Second", path := [⟨0, 1⟩, ⟨0, 2⟩],
     startNodeId := some "n2", endNodeId := some "n3",
     completed := false, source := .osm }]

/-- The edge that buildStreetGraph zeroGeo c4WitnessStreets stores under key
"a" (zeroGeo makes its polyline length 0). -/
def c4WitnessEdgeA : GraphEdge :=
  ⟨"a", "a", "First", "n1", "n2", [⟨0, 0⟩, ⟨0, 1⟩], 0⟩

/-- Extract the finite value of a NumInf (used only where the source has
already checked Number.isFinite, so the default is never taken). -/
def untopQ (x : NumInf) : ℚ := WithTop.untop' 0 x

/-- Function isPointInCityBounds of the source (padding defaults to 40 m). -/
def isPointInCityBounds (geo : Geo) (point : LatLng) (bounds : CityBounds)
    (paddingMeters : ℚ := 40) : Bool :=
  let midLat := (bounds.south + bounds.north) / 2
  let latPadding := paddingMeters / 111320
  let lonScale := max (15/100) (geo.cosDeg midLat)
  let lonPadding := paddingMeters / (111320 * lonScale)
  decide (point.lat ≥ bounds.south - latPadding ∧ point.lat ≤ bounds.north + latPadding ∧
    point.lon ≥ bounds.west - lonPadding ∧ point.lon ≤ bounds.east + lonPadding)

/-- Function isStreetInsideCityBounds of the source. -/
def isStreetInsideCityBounds (geo : Geo) (street : StreetSegment)
    (bounds : CityBounds) : Bool :=
  if street.path.length < 2 then false
  else if ¬ (isPointInCityBounds geo (street.path.headD ⟨0, 0⟩) bounds = true ∧
      isPointInCityBounds geo (street.path.getLastD ⟨0, 0⟩) bounds = true) then false
  else
    let insideCount := street.path.countP (fun p => isPointInCityBounds geo p bounds)
    decide ((insideCount : ℚ) / (street.path.length : ℚ) ≥ 72/100)

/-- Function filterStreetsToCityBounds of the source. -/
def filterStreetsToCityBounds (geo : Geo) (streets : List StreetSegment)
    (bounds : CityBounds) : List StreetSegment :=
  streets.filter (fun street => isStreetInsideCityBounds geo street bounds)

/-- Function findNearestNodeId of the source: first strict improvement over
Infinity wins, iterating node values in insertion order. -/
def findNearestNodeId (geo : Geo) (nodes : List (String × GraphNode))
    (target : LatLng) : Option String :=
  (nodes.foldl
    (fun acc p =>
      if (geo.hav p.2.point target : NumInf) < acc.2 then
        (some p.2.id, (geo.hav p.2.point target : NumInf))
      else acc)
    ((none : Option String), (⊤ : NumInf))).1

/-- Function selectCandidateStreets of the source: score every segment with at
least 2 path points by the haversine entry distance from home, sort ascending
(stable, like Array.prototype.sort), keep a radius-limited prefix, and fall
back to a prefix of all scored segments when too few survive. -/
def selectCandidateStreets (geo : Geo) (streets : List StreetSegment) (home : LatLng)
    (targetKm : ℚ) : List StreetSegment :=
  let normalizedTargetKm := max (8/10) targetKm
  let scored := Js.jsSortBy (fun a b => a.2 ≤ b.2)
    ((streets.filter (fun s => decide (s.path.length ≥ 2))).map (fun s =>
      (s, min (geo.hav home (s.path.headD ⟨0, 0⟩))
        (geo.hav home (s.path.getLastD ⟨0, 0⟩)))))
  if scored.length = 0 then []
  else
    let radius := max (22/10) (min 32 (normalizedTargetKm * (145/100) + 13/10))
    let maxByRadius := (min 4200 (max 320 (Js.jsRound (normalizedTargetKm * 168)))).toNat
    let byRadius := ((scored.filter (fun e => e.2 ≤ radius)).take maxByRadius).map (·.1)
    if (byRadius.length : ℤ) ≥ max 120 (Js.jsRound (normalizedTargetKm * 22)) then byRadius
    else
      let fallbackCount := min scored.length (max 320 (Js.jsRound (normalizedTargetKm * 72))).toNat
      (scored.take fallbackCount).map (·.1)

/-- An entry of the MinHeap the Dijkstra engine uses ({nodeId, distance}). -/
structure HeapEntry where
  nodeId : String
  distance : ℚ
deriving DecidableEq, Repr

/-- Read a heap slot (indices are always in bounds in the source). -/
def hget (d : List HeapEntry) (i : ℕ) : HeapEntry := d.getD i ⟨"", 0⟩

/-- Swap two heap slots. -/
def hswap (d : List HeapEntry) (i j : ℕ) : List HeapEntry :=
  (d.set i (hget d j)).set j (hget d i)

/-- The bubbleUp loop of MinHeap.push with the comparator
(a, b) => a.distance - b.distance.  The index strictly decreases, so fuel
current + 1 makes the fuel case unreachable (fuel keeps the recursion
structural and hence kernel-computable). -/
def bubbleUpF : ℕ → List HeapEntry → ℕ → List HeapEntry
  | 0, d, _ => d
  | fuel + 1, d, current =>
    if current = 0 then d
    else
      let parent := (current - 1) / 2
      if (hget d current).distance - (hget d parent).distance ≥ 0 then d
      else bubbleUpF fuel (hswap d current parent) parent

/-- MinHeap.push of the source. -/
def heapPush (d : List HeapEntry) (x : HeapEntry) : List HeapEntry :=
  bubbleUpF (d.length + 1) (d ++ [x]) d.length

/-- The bubbleDown loop of MinHeap.pop.  The index strictly increases and
stays below the (constant) length, so fuel length + 1 makes the fuel case
unreachable. -/
def bubbleDownF : ℕ → List HeapEntry → ℕ → List HeapEntry
  | 0, d, _ => d
  | fuel + 1, d, current =>
    let left := current * 2 + 1
    let right := left + 1
    let smallest :=
      if left < d.length ∧ (hget d left).distance - (hget d current).distance < 0 then left
      else current
    let smallest2 :=
      if right < d.length ∧ (hget d right).distance - (hget d smallest).distance < 0 then right
      else smallest
    if smallest2 = current then d
    else bubbleDownF fuel (hswap d current smallest2) smallest2

/-- MinHeap.pop of the source: return the root, move the popped last element
to the root and bubble it down. -/
def heapPop (d : List HeapEntry) : Option HeapEntry × List HeapEntry :=
  match d with
  | [] => (none, [])
  | top :: _ =>
    let rest := d.dropLast
    if rest.length = 0 then (some top, [])
    else (some top, bubbleDownF (rest.length + 1) (rest.set 0 (d.getLastD ⟨"", 0⟩)) 0)

/-- A prev entry of DijkstraResult ({nodeId, edgeId}). -/
structure PrevEntry where
  nodeId : String
  edgeId : String
deriving DecidableEq, Repr

/-- Type DijkstraResult of the source. -/
structure DijkstraResult where
  dist : List (String × NumInf)
  prev : List (String × PrevEntry)
deriving DecidableEq, Repr

/-- The full Dijkstra loop state.  dist, prev and heap are the source's
state; lastPopped, popCount, usedRelax, seq and ctr are ghost instrumentation
recording the last popped key, how many pops happened, which (node, adjacency
index) pairs have produced a successful relaxation, and for each node the
global index of its last distance improvement - they influence nothing and
exist only so the drain and shortest-path invariants can be stated. -/
structure DState where
  dist : List (String × NumInf)
  prev : List (String × PrevEntry)
  heap : List HeapEntry
  lastPopped : ℚ
  popCount : ℕ
  usedRelax : List (String × ℕ)
  seq : List (String × ℕ)
  ctr : ℕ
deriving Repr

/-- The relaxation pass over the adjacency list of the popped node u at
(finite) distance d; i is the ghost index of the entry inside the list. -/
def relaxList (graph : StreetGraph) (u : String) (d : ℚ) :
    ℕ → List GraphNeighbor → DState → DState
  | _, [], st => st
  | i, nb :: rest, st =>
    let st2 :=
      match Js.jget graph.edges nb.edgeId with
      | none => st
      | some edge =>
        let nextDistance := d + edge.distanceKm
        if (nextDistance : NumInf) < (Js.jget st.dist nb.neighbor).getD ⊤ then
          { st with
            dist := Js.jset st.dist nb.neighbor (nextDistance : NumInf)
            prev := Js.jset st.prev nb.neighbor ⟨u, nb.edgeId⟩
            heap := heapPush st.heap ⟨nb.neighbor, nextDistance⟩
            usedRelax := st.usedRelax ++ [(u, i)]
            seq := Js.jset st.seq nb.neighbor st.ctr
            ctr := st.ctr + 1 }
        else st
    relaxList graph u d (i + 1) rest st2

/-- One iteration of the Dijkstra while-loop: pop, skip stale entries
(current.distance > best), otherwise relax every neighbor. -/
def dstep (graph : StreetGraph) (st : DState) : DState :=
  match heapPop st.heap with
  | (none, h2) => { st with heap := h2 }
  | (some current, h2) =>
    let st1 := { st with
      heap := h2
      lastPopped := current.distance
      popCount := st.popCount + 1 }
    if (current.distance : NumInf) > (Js.jget st1.dist current.nodeId).getD ⊤ then st1
    else relaxList graph current.nodeId current.distance 0
      ((Js.jget graph.adjacency current.nodeId).getD []) st1

/-- The Dijkstra while-loop with fuel. -/
def dloop (graph : StreetGraph) : ℕ → DState → DState
  | 0, st => st
  | fuel + 1, st => if st.heap.length = 0 then st else dloop graph fuel (dstep graph st)

/-- Fuel that provably drains the heap: every pop consumes a heap entry, and
at most 1 + (total adjacency entries) pushes can ever happen because each
adjacency entry relaxes successfully at most once (each node's distance is
final from its first non-stale pop on, by the min-heap property). -/
def dijkstraFuel (graph : StreetGraph) : ℕ :=
  2 + graph.adjacency.foldl (fun acc p => acc + p.2.length) 0

/-- Initial Dijkstra state: every node at Infinity, the start at 0, the heap
holding the start entry. -/
def dinit (graph : StreetGraph) (startNodeId : String) : DState :=
  { dist := Js.jset (graph.nodes.foldl (fun m p => Js.jset m p.1 (⊤ : NumInf)) [])
      startNodeId ((0 : ℚ) : NumInf)
    prev := []
    heap := heapPush [] ⟨startNodeId, 0⟩
    lastPopped := 0
    popCount := 0
    usedRelax := []
    seq := []
    ctr := 1 }

/-- Function runDijkstra of the source. -/
def runDijkstra (graph : StreetGraph) (startNodeId : String) : DijkstraResult :=
  let final := dloop graph (dijkstraFuel graph) (dinit graph startNodeId)
  ⟨final.dist, final.prev⟩

/-- Function getDijkstraCached of the source; the mutable cache map is passed
and returned explicitly. -/
def getDijkstraCached (cache : List (String × DijkstraResult)) (graph : StreetGraph)
    (startNodeId : String) : DijkstraResult × List (String × DijkstraResult) :=
  match Js.jget cache startNodeId with
  | some cached => (cached, cache)
  | none =>
    let computed := runDijkstra graph startNodeId
    (computed, Js.jset cache startNodeId computed)

/-- The cursor walk of reconstructPathEdges; the source pushes each prev edge
and reverses at the end.  The chain provably reaches the start within
prev.length steps (the prev map is acyclic), so the fuel case is
unreachable. -/
def reconstructGo (prev : List (String × PrevEntry)) (startNodeId : String) :
    ℕ → String → List String → List String
  | 0, _, _ => []
  | fuel + 1, cursor, acc =>
    if cursor = startNodeId then acc.reverse
    else
      match Js.jget prev cursor with
      | none => []
      | some step => reconstructGo prev startNodeId fuel step.nodeId (acc ++ [step.edgeId])

/-- Function reconstructPathEdges of the source. -/
def reconstructPathEdges (result : DijkstraResult) (startNodeId endNodeId : String) :
    List String :=
  if startNodeId = endNodeId then []
  else reconstructGo result.prev startNodeId (result.prev.length + 1) endNodeId []

/-- One traversal step of the planner ({edgeId, from, to}; from/to spelled
fromId/toId because from is a Lean keyword). -/
structure RouteTraversalStep where
  edgeId : String
  fromId : String
  toId : String
deriving DecidableEq, Repr

/-- The cursor walk of orientPathEdges. -/
def orientGo (graph : StreetGraph) : String → List String → Option (List RouteTraversalStep)
  | _, [] => some []
  | cursor, eid :: rest =>
    match Js.jget graph.edges eid with
    | none => none
    | some edge =>
      if edge.fromId = cursor then
        (orientGo graph edge.toId rest).map (⟨eid, edge.fromId, edge.toId⟩ :: ·)
      else if edge.toId = cursor then
        (orientGo graph edge.fromId rest).map (⟨eid, edge.toId, edge.fromId⟩ :: ·)
      else none

/-- Function orientPathEdges of the source (null when the chain cannot be
oriented). -/
def orientPathEdges (graph : StreetGraph) (startNodeId : String)
    (edgeIds : List String) : Option (List RouteTraversalStep) :=
  orientGo graph startNodeId edgeIds

/-- The mutable state of one buildEfficientCoverageRoute call.  joinsExact is
ghost instrumentation: it stays true as long as every appended edge polyline
started exactly at the current end of routePoints (used to state when
distanceKm equals the realized polyline length); it influences nothing. -/
structure PState where
  routePoints : List LatLng
  coveredStreetIds : List String
  coveredStreetNames : List String
  rewardedStreetIds : List String
  coveredNodes : List String
  traversedEdgeCount : List (String × ℕ)
  dijkstraCache : List (String × DijkstraResult)
  currentNodeId : String
  distanceKm : ℚ
  joinsExact : Bool
deriving Repr

/-- The fixed context of one buildEfficientCoverageRoute call. -/
structure PlanCtx where
  geo : Geo
  graph : StreetGraph
  normalizedTargetKm : ℚ
  hardMaxKm : ℚ
  completedByStreetId : List (String × Bool)

/-- Function appendRouteStep of the source: orient the edge polyline, skip its
first point when it is within 18 m of the current end of the route, and append
the rest.  Returns the edge, its length, the new point list, and the ghost
flag telling whether the join was exact (empty route or first point equal to
the current end). -/
def appendRouteStep (geo : Geo) (graph : StreetGraph) (step : RouteTraversalStep)
    (routePoints : List LatLng) : Option (ℚ × GraphEdge × List LatLng × Bool) :=
  match Js.jget graph.edges step.edgeId with
  | none => none
  | some edge =>
    let orientedPath :=
      if edge.fromId = step.fromId ∧ edge.toId = step.toId then edge.path
      else edge.path.reverse
    if orientedPath.length < 2 then none
    else
      let firstPt := orientedPath.headD ⟨0, 0⟩
      let newPoints :=
        if routePoints.length = 0 then routePoints ++ [firstPt] ++ orientedPath.tail
        else if geo.hav (routePoints.getLastD ⟨0, 0⟩) firstPt > 18/1000 then
          routePoints ++ [firstPt] ++ orientedPath.tail
        else routePoints ++ orientedPath.tail
      some (edge.distanceKm, edge, newPoints,
        decide (routePoints.length = 0 ∨ routePoints.getLastD ⟨0, 0⟩ = firstPt))

/-- Function applyTraversalStep of the source.  Every caller immediately
performs distanceKm += applied.distanceKm and currentNodeId =
applied.nextNodeId, so those two identical updates are folded in here. -/
def applyTraversalStep (ctx : PlanCtx) (step : RouteTraversalStep) (st : PState) :
    Option PState :=
  match appendRouteStep ctx.geo ctx.graph step st.routePoints with
  | none => none
  | some (dKm, edge, pts, exact) =>
    some { st with
      routePoints := pts
      coveredStreetIds := Js.sadd st.coveredStreetIds edge.streetId
      coveredStreetNames := Js.sadd st.coveredStreetNames edge.streetName
      coveredNodes := Js.sadd (Js.sadd st.coveredNodes step.fromId) step.toId
      traversedEdgeCount := Js.jset st.traversedEdgeCount edge.id
        ((Js.jget st.traversedEdgeCount edge.id).getD 0 + 1)
      rewardedStreetIds :=
        if (Js.jget ctx.completedByStreetId edge.streetId).getD false then
          st.rewardedStreetIds
        else Js.sadd st.rewardedStreetIds edge.streetId
      currentNodeId := step.toId
      distanceKm := st.distanceKm + dKm
      joinsExact := st.joinsExact && exact }

/-- The forward walk of buildDeadEndForwardChainFromNode (maxDepth 12), which
stops on completed or already-rewarded streets, non-incident edges, or nodes
with branching degree. -/
def forwardChainGo (graph : StreetGraph) (completedBy : List (String × Bool))
    (rewarded : List String) :
    ℕ → String → String → List RouteTraversalStep → List RouteTraversalStep
  | 0, _, _, acc => acc
  | depth + 1, currentNodeId, nextEdgeId, acc =>
    match Js.jget graph.edges nextEdgeId with
    | none => acc
    | some edge =>
      if (Js.jget completedBy edge.streetId).getD false ∨ edge.streetId ∈ rewarded then acc
      else
        match
          (if edge.fromId = currentNodeId then some edge.toId
           else if edge.toId = currentNodeId then some edge.fromId else none) with
        | none => acc
        | some toNodeId =>
          let acc2 := acc ++ [⟨edge.id, currentNodeId, toNodeId⟩]
          let outgoing := ((Js.jget graph.adjacency toNodeId).getD []).filter
            (fun en => en.edgeId != edge.id)
          if outgoing.length = 1 then
            match Js.jget graph.edges (outgoing.headD ⟨"", ""⟩).edgeId with
            | none => acc2
            | some candidateEdge =>
              if (Js.jget completedBy candidateEdge.streetId).getD false ∨
                  candidateEdge.streetId ∈ rewarded then acc2
              else forwardChainGo graph completedBy rewarded depth toNodeId
                (outgoing.headD ⟨"", ""⟩).edgeId acc2
          else acc2

/-- Function buildDeadEndForwardChainFromNode of the source: the forward chain
is a valid spur iff nonempty and ending at a degree-1 node. -/
def buildDeadEndForwardChainFromNode (graph : StreetGraph)
    (completedBy : List (String × Bool)) (rewarded : List String)
    (anchorNodeId firstEdgeId : String) : List RouteTraversalStep :=
  let forward := forwardChainGo graph completedBy rewarded 12 anchorNodeId firstEdgeId []
  if forward.length = 0 then []
  else
    if ((Js.jget graph.adjacency (forward.getLastD ⟨"", "", ""⟩).toId).getD []).length = 1
    then forward
    else []

/-- A spur plan ({steps, totalDistanceKm, score}). -/
structure SpurPlan where
  steps : List RouteTraversalStep
  totalDistanceKm : ℚ
  score : ℚ
deriving Repr

/-- Function findBestDeadEndSpurAtNode of the source. -/
def findBestDeadEndSpurAtNode (graph : StreetGraph) (currentNodeId : String)
    (targetKm currentDistanceKm hardMaxKm : ℚ) (completedBy : List (String × Bool))
    (rewarded coveredStreetIds coveredNodes : List String) : Option SpurPlan :=
  ((Js.jget graph.adjacency currentNodeId).getD []).foldl
    (fun best neighbor =>
      let forward := buildDeadEndForwardChainFromNode graph completedBy rewarded
        currentNodeId neighbor.edgeId
      if forward.length = 0 then best
      else
        let info := forward.foldl
          (fun (acc : ℚ × List String × List String) step =>
            match Js.jget graph.edges step.edgeId with
            | none => acc
            | some edge =>
              (acc.1 + edge.distanceKm, Js.sadd acc.2.1 edge.streetId,
                Js.sadd (Js.sadd acc.2.2 step.fromId) step.toId))
          (0, [], [])
        let oneWayDistanceKm := info.1
        let totalDistanceKm := oneWayDistanceKm * 2
        let nextDistanceKm := currentDistanceKm + totalDistanceKm
        if nextDistanceKm > hardMaxKm ∧ currentDistanceKm ≥ targetKm * (5/10) then best
        else
          let newStreetGain :=
            (info.2.1.filter (fun sid => ¬ sid ∈ coveredStreetIds)).length
          let newNodeGain := (info.2.2.filter (fun nid => ¬ nid ∈ coveredNodes)).length
          let branchLengthBonus := min (14/10) (oneWayDistanceKm * (18/10))
          let budgetFit := 1 - min (15/10)
            (|targetKm - nextDistanceKm| / max (85/100) (targetKm * (55/100)))
          let score :=
            ((newStreetGain : ℚ) * (46/10) + (newNodeGain : ℚ) * (25/10)
                + branchLengthBonus) / (totalDistanceKm + 7/100)
              + budgetFit * (11/10)
          let candidate : SpurPlan :=
            ⟨forward ++ (forward.reverse).map
                (fun stp => ⟨stp.edgeId, stp.toId, stp.fromId⟩),
              totalDistanceKm, score⟩
          match best with
          | none => some candidate
          | some b => if candidate.score > b.score then some candidate else some b)
    none

/-- A planned global move ({connectorSteps, targetStep, additionalDistanceKm,
score}). -/
structure PlannedMove where
  connectorSteps : List RouteTraversalStep
  targetStep : RouteTraversalStep
  additionalDistanceKm : ℚ
  score : ℚ
deriving Repr

/-- Function findBestCoverageMove of the source; the Dijkstra cache is passed
and returned explicitly (getDijkstraCached may extend it). -/
def findBestCoverageMove (graph : StreetGraph) (currentNodeId : String)
    (targetKm currentDistanceKm hardMaxKm : ℚ)
    (cache : List (String × DijkstraResult)) (completedBy : List (String × Bool))
    (rewarded coveredStreetIds coveredNodes : List String)
    (traversedEdgeCount : List (String × ℕ)) :
    Option PlannedMove × List (String × DijkstraResult) :=
  let fromCurrentAndCache := getDijkstraCached cache graph currentNodeId
  let fromCurrent := fromCurrentAndCache.1
  let pendingBranchEdgeIds :=
    ((((Js.jget graph.adjacency currentNodeId).getD []).filter
      (fun entry =>
        match Js.jget graph.edges entry.edgeId with
        | none => false
        | some edge =>
          if (Js.jget completedBy edge.streetId).getD false then false
          else if edge.streetId ∈ rewarded then false
          else decide (((Js.jget graph.adjacency entry.neighbor).getD []).length ≤ 2))).map
      (fun entry => entry.edgeId)).foldl Js.sadd []
  (graph.edges.foldl
    (fun best p =>
      let edge := p.2
      if (Js.jget completedBy edge.streetId).getD false then best
      else if edge.streetId ∈ rewarded then best
      else
        let toFrom := (Js.jget fromCurrent.dist edge.fromId).getD ⊤
        let toTo := (Js.jget fromCurrent.dist edge.toId).getD ⊤
        if toFrom = ⊤ ∧ toTo = ⊤ then best
        else
          let approachFrom := toFrom ≤ toTo
          let connectorNode := if approachFrom then edge.fromId else edge.toId
          let connectorDistanceKm := untopQ (if approachFrom then toFrom else toTo)
          let targetStep : RouteTraversalStep :=
            if approachFrom then ⟨edge.id, edge.fromId, edge.toId⟩
            else ⟨edge.id, edge.toId, edge.fromId⟩
          let additionalDistanceKm := connectorDistanceKm + edge.distanceKm
          let nextDistanceKm := currentDistanceKm + additionalDistanceKm
          if nextDistanceKm > hardMaxKm ∧ currentDistanceKm ≥ targetKm * (45/100) then
            best
          else
            let connectorEdgeIds :=
              reconstructPathEdges fromCurrent currentNodeId connectorNode
            match orientPathEdges graph currentNodeId connectorEdgeIds with
            | none => best
            | some connectorSteps =>
              let connectorRepeatPenalty := connectorEdgeIds.foldl
                (fun acc ceid =>
                  match Js.jget graph.edges ceid with
                  | none => acc
                  | some connectorEdge =>
                    let repeatCount := (Js.jget traversedEdgeCount ceid).getD 0
                    if repeatCount > 0 then
                      acc + connectorEdge.distanceKm * min (24/10) (repeatCount : ℚ)
                    else acc)
                0
              let firstTravelEdgeId := (connectorSteps.headD targetStep).edgeId
              let skipNearbyBranchPenalty :=
                if pendingBranchEdgeIds.length > 0 ∧
                    ¬ firstTravelEdgeId ∈ pendingBranchEdgeIds ∧
                    currentDistanceKm ≤ targetKm * (95/100) then
                  min (36/10) ((pendingBranchEdgeIds.length : ℚ) * (118/100))
                else 0
              let remainingKm := max 0 (targetKm - currentDistanceKm)
              let newStreetGain : ℚ := if edge.streetId ∈ coveredStreetIds then 0 else 1
              let newNodeGain : ℚ :=
                (if targetStep.fromId ∈ coveredNodes then 0 else 1)
                  + (if targetStep.toId ∈ coveredNodes then 0 else 1)
              let fromDegree := ((Js.jget graph.adjacency edge.fromId).getD []).length
              let toDegree := ((Js.jget graph.adjacency edge.toId).getD []).length
              let leafBonus : ℚ := if fromDegree = 1 ∨ toDegree = 1 then 175/100 else 0
              let branchTailBonus : ℚ :=
                if fromDegree ≤ 2 ∨ toDegree ≤ 2 then 35/100 else 0
              let proximityBonus := max 0 (135/100 - connectorDistanceKm) * (7/10)
              let usefulDistanceBonus := min (15/10) (edge.distanceKm * (135/100))
              let budgetFit := 1 - min (14/10)
                (|remainingKm - additionalDistanceKm| / max (7/10) (targetKm * (5/10)))
              let overshootPenalty :=
                if nextDistanceKm > targetKm * (108/100) then
                  (nextDistanceKm - targetKm * (108/100)) * (19/10)
                else 0
              let score :=
                (newStreetGain * (38/10) + newNodeGain * 2 + leafBonus + branchTailBonus
                    + proximityBonus + usefulDistanceBonus)
                  / (additionalDistanceKm + 8/100)
                  + budgetFit * (145/100) - overshootPenalty
                  - connectorRepeatPenalty * (21/10) - skipNearbyBranchPenalty
              let candidate : PlannedMove :=
                ⟨connectorSteps, targetStep, additionalDistanceKm, score⟩
              match best with
              | none => some candidate
              | some b => if candidate.score > b.score then some candidate else some b)
    none, fromCurrentAndCache.2)

/-- Function findBestImmediateBranchStep of the source. -/
def findBestImmediateBranchStep (graph : StreetGraph) (currentNodeId : String)
    (targetKm currentDistanceKm hardMaxKm : ℚ) (completedBy : List (String × Bool))
    (traversedEdgeCount : List (String × ℕ)) (rewarded coveredNodes : List String) :
    Option RouteTraversalStep :=
  let neighbors := (Js.jget graph.adjacency currentNodeId).getD []
  (neighbors.foldl
    (fun (best : Option (RouteTraversalStep × ℚ)) neighbor =>
      match Js.jget graph.edges neighbor.edgeId with
      | none => best
      | some edge =>
        let isCompleted := (Js.jget completedBy edge.streetId).getD false
        if ¬ (¬ isCompleted ∧ ¬ edge.streetId ∈ rewarded) then best
        else if (Js.jget traversedEdgeCount edge.id).getD 0 > 0 then best
        else if ((Js.jget graph.adjacency neighbor.neighbor).getD []).length > 2 then best
        else if edge.distanceKm > 12/10 then best
        else
          let nextDistanceKm := currentDistanceKm + edge.distanceKm
          if nextDistanceKm > hardMaxKm ∧ currentDistanceKm ≥ targetKm * (52/100) then
            best
          else
            let neighborDegree := ((Js.jget graph.adjacency neighbor.neighbor).getD []).length
            let nodeGain : ℚ := if neighbor.neighbor ∈ coveredNodes then 0 else 1
            let culdesacBonus : ℚ := if neighborDegree = 1 then 4 else 225/100
            let branchExitBonus : ℚ := if neighbors.length ≥ 3 then 145/100 else 35/100
            let shortEdgeBonus := max 0 (95/100 - edge.distanceKm) * (125/100)
            let budgetFit := 1 - min (125/100)
              (|targetKm - nextDistanceKm| / max (8/10) (targetKm * (55/100)))
            let score :=
              culdesacBonus + branchExitBonus + shortEdgeBonus + nodeGain * (12/10)
                + budgetFit
            let candidate : RouteTraversalStep := ⟨edge.id, currentNodeId, neighbor.neighbor⟩
            match best with
            | none => some (candidate, score)
            | some b => if score > b.2 then some (candidate, score) else some b)
    none).map (fun b => b.1)

/-- Function findBestLocalExtension of the source. -/
def findBestLocalExtension (graph : StreetGraph) (currentNodeId : String)
    (targetKm currentDistanceKm hardMaxKm : ℚ) (completedBy : List (String × Bool))
    (traversedEdgeCount : List (String × ℕ)) (rewarded coveredNodes : List String) :
    Option RouteTraversalStep :=
  (((Js.jget graph.adjacency currentNodeId).getD []).foldl
    (fun (best : Option (RouteTraversalStep × ℚ)) neighbor =>
      match Js.jget graph.edges neighbor.edgeId with
      | none => best
      | some edge =>
        let nextDistanceKm := currentDistanceKm + edge.distanceKm
        if nextDistanceKm > hardMaxKm ∧ currentDistanceKm ≥ targetKm * (55/100) then best
        else
          let repeatCount := (Js.jget traversedEdgeCount edge.id).getD 0
          let isCompleted := (Js.jget completedBy edge.streetId).getD false
          let isNewReward := ¬ isCompleted ∧ ¬ edge.streetId ∈ rewarded
          let nodeGain : ℚ := if neighbor.neighbor ∈ coveredNodes then 0 else 1
          let neighborDegree := ((Js.jget graph.adjacency neighbor.neighbor).getD []).length
          let culdesacBonus : ℚ :=
            if neighborDegree = 1 then 31/10 else if neighborDegree = 2 then 8/10 else 0
          let score :=
            (if isNewReward then 27/10 else 55/100) + nodeGain * 1 + culdesacBonus
              - (repeatCount : ℚ) * (92/100) - (if isCompleted then 3/10 else 0)
              - |targetKm - nextDistanceKm| * (12/100)
          let candidate : RouteTraversalStep := ⟨edge.id, currentNodeId, neighbor.neighbor⟩
          match best with
          | none => some (candidate, score)
          | some b => if score > b.2 then some (candidate, score) else some b)
    none).map (fun b => b.1)

/-- Apply a list of traversal steps in order, stopping at the first failure
(the failedSpur flag of the source). -/
def applySteps (ctx : PlanCtx) : List RouteTraversalStep → PState → PState × Bool
  | [], st => (st, false)
  | s :: rest, st =>
    match applyTraversalStep ctx s st with
    | none => (st, true)
    | some st2 => applySteps ctx rest st2

/-- The runDeadEndSpurSweeps closure of the source (fuel = remaining sweeps,
exactly the spurSweeps < maxSweeps counter). -/
def runDeadEndSpurSweeps (ctx : PlanCtx) : ℕ → PState → PState
  | 0, st => st
  | maxSweeps + 1, st =>
    if ¬ (st.distanceKm < ctx.hardMaxKm) then st
    else
      match findBestDeadEndSpurAtNode ctx.graph st.currentNodeId ctx.normalizedTargetKm
        st.distanceKm ctx.hardMaxKm ctx.completedByStreetId st.rewardedStreetIds
        st.coveredStreetIds st.coveredNodes with
      | none => st
      | some spur =>
        if st.distanceKm + spur.totalDistanceKm > ctx.hardMaxKm ∧
            st.distanceKm ≥ ctx.normalizedTargetKm * (48/100) then st
        else
          match applySteps ctx spur.steps st with
          | (st2, failed) =>
            if failed ∨ ¬ st2.currentNodeId = st.currentNodeId then st2
            else if st2.distanceKm ≥ ctx.hardMaxKm ∨
                st2.distanceKm ≥ ctx.normalizedTargetKm * (102/100) then st2
            else runDeadEndSpurSweeps ctx maxSweeps st2

/-- The runImmediateBranchSweep closure of the source (fuel = remaining
steps). -/
def runImmediateBranchSweep (ctx : PlanCtx) : ℕ → PState → PState
  | 0, st => st
  | maxSteps + 1, st =>
    if ¬ (st.distanceKm < ctx.hardMaxKm) then st
    else
      match findBestImmediateBranchStep ctx.graph st.currentNodeId
        ctx.normalizedTargetKm st.distanceKm ctx.hardMaxKm ctx.completedByStreetId
        st.traversedEdgeCount st.rewardedStreetIds st.coveredNodes with
      | none => st
      | some branchStep =>
        match applyTraversalStep ctx branchStep st with
        | none => st
        | some st2 =>
          let st3 := runDeadEndSpurSweeps ctx 2 st2
          if st3.distanceKm ≥ ctx.hardMaxKm ∨
              st3.distanceKm ≥ ctx.normalizedTargetKm * (103/100) then st3
          else runImmediateBranchSweep ctx maxSteps st3

/-- The for-loop over move.connectorSteps of the main planner loop; the Bool
result is the aborted flag (a mid-loop distance break exits with aborted
false). -/
def applyConnectorSteps (ctx : PlanCtx) :
    List RouteTraversalStep → PState → PState × Bool
  | [], st => (st, false)
  | cstep :: rest, st =>
    match Js.jget ctx.graph.edges cstep.edgeId with
    | none => (st, true)
    | some connectorEdge =>
      if st.distanceKm + connectorEdge.distanceKm > ctx.hardMaxKm ∧
          st.distanceKm ≥ ctx.normalizedTargetKm * (55/100) then (st, true)
      else
        match applyTraversalStep ctx cstep st with
        | none => (st, true)
        | some st2 =>
          let st3 := runDeadEndSpurSweeps ctx 3 st2
          let st4 := runImmediateBranchSweep ctx 2 st3
          if st4.distanceKm ≥ ctx.hardMaxKm ∨
              st4.distanceKm ≥ ctx.normalizedTargetKm * (104/100) then (st4, false)
          else applyConnectorSteps ctx rest st4

/-- The main while-loop of buildEfficientCoverageRoute (fuel = maxIterations
minus iterations). -/
def mainLoop (ctx : PlanCtx) : ℕ → PState → PState
  | 0, st => st
  | fuel + 1, st =>
    if ¬ (st.distanceKm < ctx.hardMaxKm) then st
    else
      let st2 := runImmediateBranchSweep ctx 6 (runDeadEndSpurSweeps ctx 5 st)
      if st2.distanceKm ≥ ctx.hardMaxKm then st2
      else
        match findBestCoverageMove ctx.graph st2.currentNodeId ctx.normalizedTargetKm
          st2.distanceKm ctx.hardMaxKm st2.dijkstraCache ctx.completedByStreetId
          st2.rewardedStreetIds st2.coveredStreetIds st2.coveredNodes
          st2.traversedEdgeCount with
        | (none, cache2) =>
          let st3 := { st2 with dijkstraCache := cache2 }
          if st3.distanceKm ≥ ctx.normalizedTargetKm * (72/100) ∧
              st3.rewardedStreetIds.length > 0 then st3
          else
            match findBestLocalExtension ctx.graph st3.currentNodeId
              ctx.normalizedTargetKm st3.distanceKm ctx.hardMaxKm
              ctx.completedByStreetId st3.traversedEdgeCount st3.rewardedStreetIds
              st3.coveredNodes with
            | none => st3
            | some localStep =>
              match applyTraversalStep ctx localStep st3 with
              | none => st3
              | some st4 => mainLoop ctx fuel st4
        | (some move, cache2) =>
          let st3 := { st2 with dijkstraCache := cache2 }
          match applyConnectorSteps ctx move.connectorSteps st3 with
          | (st4, aborted) =>
            if aborted then st4
            else
              match Js.jget ctx.graph.edges move.targetStep.edgeId with
              | none => st4
              | some targetEdge =>
                if st4.distanceKm + targetEdge.distanceKm > ctx.hardMaxKm ∧
                    st4.distanceKm ≥ ctx.normalizedTargetKm * (55/100) then st4
                else
                  match applyTraversalStep ctx move.targetStep st4 with
                  | none => st4
                  | some st5 =>
                    let st7 := runImmediateBranchSweep ctx 2
                      (runDeadEndSpurSweeps ctx 3 st5)
                    if st7.distanceKm ≥ ctx.normalizedTargetKm * (103/100) ∧
                        st7.rewardedStreetIds.length > 0 then st7
                    else mainLoop ctx fuel st7

/-- Type RouteNode of the source. -/
structure RouteNode where
  id : String
  point : LatLng
deriving DecidableEq, Repr

/-- Type SuggestedRoute of the source. -/
structure SuggestedRoute where
  id : String
  name : String
  points : List LatLng
  streetIds : List String
  streetNames : List String
  distanceKm : ℚ
  strategy : String
  nodeIdsCovered : List String
  nodePoints : List LatLng
  availableNodes : List RouteNode
deriving DecidableEq, Repr

/-- Function coveredNodeIdsForPath of the source. -/
def coveredNodeIdsForPath (geo : Geo) (points : List LatLng) (nodes : List RouteNode) :
    List String :=
  nodes.foldl
    (fun acc node =>
      if distancePointToPathMeters geo node.point points
          ≤ (NODE_CAPTURE_RADIUS_METERS : NumInf) then acc ++ [node.id]
      else acc)
    []

/-- Decimal rendering with 1 fixed fraction digit (toFixed(1), used in the
route name). -/
def ratToFixed1Pos (q : ℚ) : String :=
  let n := (⌊q * 10 + 1/2⌋).toNat
  toString (n / 10) ++ "." ++ toString (n % 10)

/-- Model of toFixed(1) with sign handling. -/
def ratToFixed1 (q : ℚ) : String :=
  if q < 0 then "-" ++ ratToFixed1Pos (-q) else ratToFixed1Pos q

/-- Everything of buildEfficientCoverageRoute up to and including the main
loop: the early null returns, the context, and the final planner state
(paired with the built graph, which the epilogue needs). -/
def buildEfficientCoverageRouteAux (geo : Geo) (streets : List StreetSegment)
    (home : LatLng) (targetKm : ℚ) (cityBounds : Option CityBounds) :
    Option (PState × StreetGraph) :=
  let normalizedTargetKm := max (8/10) targetKm
  let inCityStreets :=
    match cityBounds with
    | some b => filterStreetsToCityBounds geo streets b
    | none => streets
  let candidates := selectCandidateStreets geo inCityStreets home normalizedTargetKm
  if candidates.length = 0 then none
  else
    let graph := buildStreetGraph geo candidates
    if graph.edges.length = 0 ∨ graph.nodes.length = 0 then none
    else
      match findNearestNodeId geo graph.nodes home with
      | none => none
      | some startNodeId =>
        if (candidates.filter (fun s => ¬ s.completed)).length = 0 then none
        else
          let ctx : PlanCtx :=
            ⟨geo, graph, normalizedTargetKm,
              max (12/10) (normalizedTargetKm * (11/10) + 35/100),
              candidates.foldl (fun m s => Js.jset m s.id s.completed) []⟩
          some (mainLoop ctx (max 140 (Js.jsRound (normalizedTargetKm * 95))).toNat
            ⟨[], [], [], [], [startNodeId], [], [], startNodeId, 0, true⟩, graph)

/-- Function buildEfficientCoverageRoute of the source.  crypto.randomUUID()
is modelled by the explicit uuid oracle argument. -/
def buildEfficientCoverageRoute (geo : Geo) (uuid : String)
    (streets : List StreetSegment) (home : LatLng) (targetKm : ℚ)
    (cityBounds : Option CityBounds) : Option SuggestedRoute :=
  match buildEfficientCoverageRouteAux geo streets home targetKm cityBounds with
  | none => none
  | some (st, graph) =>
    if st.routePoints.length < 2 ∨ st.coveredStreetIds.length = 0 then none
    else
      let availableNodes := graph.nodes.map (fun p => RouteNode.mk p.2.id p.2.point)
      let coveredNodeIds := coveredNodeIdsForPath geo st.routePoints availableNodes
      some
        { id := "route-" ++ uuid
          name := "Efficient Coverage Plan ("
            ++ ratToFixed1 (st.distanceKm * (621371/1000000)) ++ " mi)"
          points := st.routePoints
          streetIds := st.coveredStreetIds
          streetNames := st.coveredStreetNames
          distanceKm := st.distanceKm
          strategy := "efficient_coverage"
          nodeIdsCovered := coveredNodeIds
          nodePoints := coveredNodeIds.filterMap
            (fun nid => (Js.jget graph.nodes nid).map (fun n => n.point))
          availableNodes := availableNodes }

/-- Function buildEulerianRoute of the source: a thin alias that delegates to
buildEfficientCoverageRoute. -/
def buildEulerianRoute (geo : Geo) (uuid : String) (streets : List StreetSegment)
    (home : LatLng) (targetKm : ℚ) (cityBounds : Option CityBounds) :
    Option SuggestedRoute :=
  buildEfficientCoverageRoute geo uuid streets home targetKm cityBounds

/-- A geometry instance whose haversine is the L1 distance on raw
coordinates: symmetric, zero on the diagonal and nonnegative, which is all
the planner relies on (used by concrete planner runs; segMeters 0 makes every
node captured, cosDeg 1 matches the equator). -/
def l1Geo : Geo :=
  ⟨fun a b => |a.lat - b.lat| + |a.lon - b.lon|, fun _ _ _ => 0, fun _ => 1⟩

/-- The home point of the concrete planner runs. -/
def planHome : LatLng := ⟨0, 0⟩

/-- A single 5 km uncompleted street starting at home: the first dead-end
spur sweep walks it out and back (10 km) in one shot, far beyond the 1.23 km
hard ceiling of a 0.8 km target. -/
def planStreets : List StreetSegment :=
  [{ id := "s1", name := "Main Street", path := [⟨0, 0⟩, ⟨0, 5⟩],
     completed := false, source := .manual }]

/-- Two streets whose shared endpoint node id J stands on inconsistent
coordinates ((0,1) on the first street, (0,3) on the second): traversing both
inserts 2 km polyline jumps that distanceKm does not count. -/
def gapStreets : List StreetSegment :=
  [{ id := "g1", name := "North Road", path := [⟨0, 0⟩, ⟨0, 1⟩],
     endNodeId := some "J", completed := false, source := .osm },
   { id := "g2", name := "South Road", path := [⟨0, 3⟩, ⟨0, 4⟩],
     startNodeId := some "J", completed := false, source := .osm }]

/-- All fields of a SuggestedRoute except the id (the only field fed from
crypto.randomUUID()). -/
def stripRouteId (r : SuggestedRoute) :
    String × List LatLng × List String × List String × ℚ × String ×
      List String × List LatLng × List RouteNode :=
  ⟨r.name, r.points, r.streetIds, r.streetNames, r.distanceKm, r.strategy,
    r.nodeIdsCovered, r.nodePoints, r.availableNodes⟩

/-- The candidate street list a buildEfficientCoverageRoute call works with
(the selectCandidateStreets call of the source, after the optional city-bounds
filter and target normalization), named so the early-null conditions can be
stated. -/
def plannerCandidates (geo : Geo) (streets : List StreetSegment) (home : LatLng)
    (targetKm : ℚ) (cityBounds : Option CityBounds) : List StreetSegment :=
  selectCandidateStreets geo
    (match cityBounds with
     | some b => filterStreetsToCityBounds geo streets b
     | none => streets)
    home (max (8/10) targetKm)

/-- The single planner street marked completed (a fully-completed dataset). -/
def compStreets : List StreetSegment :=
  [{ id := "s1", name := "Main Street", path := [⟨0, 0⟩, ⟨0, 5⟩],
     completed := true, source := .manual }]

/-- Fallback SuggestedRoute record (only used as the getD default when
naming the route a concrete planner run is proved to produce). -/
def planRouteFallback : SuggestedRoute :=
  ⟨"", "", [], [], [], 0, "", [], [], []⟩

/-- The route the concrete single-street planner run produces. -/
def planRoute : SuggestedRoute :=
  (buildEfficientCoverageRoute l1Geo "u" planStreets planHome (8/10) none).getD
    planRouteFallback

/-- Fallback PState (getD default when naming the state a concrete run is
proved to end in). -/
def pstateFallback : PState :=
  ⟨[], [], [], [], [], [], [], "", 0, false⟩

/-- The final planner state and graph of the concrete single-street run. -/
def planAuxPair : PState × StreetGraph :=
  (buildEfficientCoverageRouteAux l1Geo planStreets planHome (8/10) none).getD
    (pstateFallback, ⟨[], [], []⟩)

/-- The binary min-heap shape invariant on the entry array (every non-root
slot is at least its parent). -/
def IsHeapL (d : List HeapEntry) : Prop :=
  ∀ i, 0 < i → i < d.length →
    (hget d ((i - 1) / 2)).distance ≤ (hget d i).distance

/-- Heap shape with one upward defect at j: all parent links except the one
into j hold, and the grandparent of j already dominates j's children. -/
def HeapUpAt (d : List HeapEntry) (j : ℕ) : Prop :=
  (∀ i, 0 < i → i < d.length → i ≠ j →
    (hget d ((i - 1) / 2)).distance ≤ (hget d i).distance) ∧
  (0 < j → ∀ c, (c = 2 * j + 1 ∨ c = 2 * j + 2) → c < d.length →
    (hget d ((j - 1) / 2)).distance ≤ (hget d c).distance)

/-- Heap shape with one downward defect at j: all parent links except those
out of j hold, and j's parent already dominates j's children. -/
def HeapDownAt (d : List HeapEntry) (j : ℕ) : Prop :=
  (∀ i, 0 < i → i < d.length → (i - 1) / 2 ≠ j →
    (hget d ((i - 1) / 2)).distance ≤ (hget d i).distance) ∧
  (0 < j → ∀ c, (c = 2 * j + 1 ∨ c = 2 * j + 2) → c < d.length →
    (hget d ((j - 1) / 2)).distance ≤ (hget d c).distance)

/-- Soundness of an adjacency map: every entry points to a stored edge that
connects the list's node to the entry's neighbor. -/
def AdjSound (graph : StreetGraph) : Prop :=
  ∀ u l, Js.jget graph.adjacency u = some l → ∀ nb ∈ l,
    ∃ e, Js.jget graph.edges nb.edgeId = some e ∧
      ((e.fromId = u ∧ e.toId = nb.neighbor) ∨ (e.toId = u ∧ e.fromId = nb.neighbor))

/-- Node u is fully relaxed at value d: every adjacency entry's target is
already at most d plus the edge weight. -/
def dDone (graph : StreetGraph) (dist : List (String × NumInf)) (u : String)
    (d : ℚ) : Prop :=
  ∀ nb ∈ (Js.jget graph.adjacency u).getD [], ∀ e,
    Js.jget graph.edges nb.edgeId = some e →
      (Js.jget dist nb.neighbor).getD ⊤ ≤ ((d + e.distanceKm : ℚ) : NumInf)

/-- The edge id list is a walk from s to t through stored edges (the "edges
form a path in the graph" reading of the Dijkstra contract). -/
def isPathB (graph : StreetGraph) : String → String → List String → Bool
  | s, t, [] => s == t
  | s, t, eid :: rest =>
    match Js.jget graph.edges eid with
    | none => false
    | some e =>
      (e.fromId == s && isPathB graph e.toId t rest) ||
        (e.toId == s && isPathB graph e.fromId t rest)

/-- The ghost acyclicity order on nodes: smaller distance first, ties broken
by the ghost improvement stamp. -/
def keyLt (dist : List (String × NumInf)) (seq : List (String × ℕ))
    (x y : String) : Prop :=
  (Js.jget dist x).getD ⊤ < (Js.jget dist y).getD ⊤ ∨
    ((Js.jget dist x).getD ⊤ = (Js.jget dist y).getD ⊤ ∧
      (Js.jget seq x).getD 0 < (Js.jget seq y).getD 0)

instance keyLtDec (dist : List (String × NumInf)) (seq : List (String × ℕ))
    (x y : String) : Decidable (keyLt dist seq x y) := by
  unfold keyLt
  infer_instance

/-- How many prev keys precede t in the ghost order (a bound for the prev
chain length above t). -/
def countBelow (st : DState) (t : String) : ℕ :=
  ((st.prev.map Prod.fst).filter (fun x => decide (keyLt st.dist st.seq x t))).length

/-- The Dijkstra loop invariant, except the pending clause (all fields are
about one state; graph and the start node s are parameters). -/
structure DCore (graph : StreetGraph) (s : String) (st : DState) : Prop where
  heapOrd : IsHeapL st.heap
  heapDist : ∀ e ∈ st.heap, (Js.jget st.dist e.nodeId).getD ⊤ ≤ (e.distance : NumInf)
  heapLast : ∀ e ∈ st.heap, st.lastPopped ≤ e.distance
  upToDate : ∀ u (d : ℚ), Js.jget st.dist u = some ((d : ℚ) : NumInf) →
    st.heap.count ⟨u, d⟩ ≤ 1
  used : ∀ p ∈ st.usedRelax, ∃ d : ℚ,
    Js.jget st.dist p.1 = some ((d : ℚ) : NumInf) ∧ d ≤ st.lastPopped ∧
      (⟨p.1, d⟩ : HeapEntry) ∉ st.heap
  usedNodup : st.usedRelax.Nodup
  usedIdx : ∀ p ∈ st.usedRelax, p.2 < ((Js.jget graph.adjacency p.1).getD []).length
  conserve : st.popCount + st.heap.length = 1 + st.usedRelax.length
  prevSound : ∀ t pe, Js.jget st.prev t = some pe →
    ∃ nb ∈ (Js.jget graph.adjacency pe.nodeId).getD [],
      nb.edgeId = pe.edgeId ∧ nb.neighbor = t ∧
      ∃ e, Js.jget graph.edges pe.edgeId = some e ∧
        ((e.fromId = pe.nodeId ∧ e.toId = t) ∨ (e.toId = pe.nodeId ∧ e.fromId = t)) ∧
        ∃ du dt : ℚ, Js.jget st.dist pe.nodeId = some ((du : ℚ) : NumInf) ∧
          Js.jget st.dist t = some ((dt : ℚ) : NumInf) ∧
          du + e.distanceKm ≤ dt ∧ keyLt st.dist st.seq pe.nodeId t
  prevAll : ∀ t, t ≠ s → ∀ d : ℚ, Js.jget st.dist t = some ((d : ℚ) : NumInf) →
    Js.jget st.prev t ≠ none
  seqBound : ∀ p ∈ st.seq, p.2 < st.ctr
  ctrPos : 1 ≤ st.ctr
  distKeys : (st.dist.map Prod.fst).Nodup
  prevKeys : (st.prev.map Prod.fst).Nodup
  distS : Js.jget st.dist s = some ((0 : ℚ) : NumInf)
  distNonneg : ∀ u (d : ℚ), Js.jget st.dist u = some ((d : ℚ) : NumInf) → 0 ≤ d
  lastNonneg : 0 ≤ st.lastPopped

/-- The pending clause: every finite node either has its up-to-date heap
entry, or has been fully relaxed at a value at most the last pop. -/
def DPending (graph : StreetGraph) (st : DState) (x : String) : Prop :=
  ∀ d : ℚ, Js.jget st.dist x = some ((d : ℚ) : NumInf) →
    (⟨x, d⟩ : HeapEntry) ∈ st.heap ∨ (d ≤ st.lastPopped ∧ dDone graph st.dist x d)

/-- The full Dijkstra invariant. -/
def DInv (graph : StreetGraph) (s : String) (st : DState) : Prop :=
  DCore graph s st ∧ ∀ x, DPending graph st x

/-- The invariant of the relaxation pass of one non-stale pop of u at d: the
core holds, pending holds away from u, u sits exactly at the last popped
value with no remaining heap entry, and all of u's relaxation indices so far
are below i. -/
def RelaxPre (graph : StreetGraph) (s u : String) (d : ℚ) (i : ℕ)
    (st : DState) : Prop :=
  DCore graph s st ∧ (∀ x, x ≠ u → DPending graph st x) ∧
    Js.jget st.dist u = some ((d : ℚ) : NumInf) ∧ st.lastPopped = d ∧
    (⟨u, d⟩ : HeapEntry) ∉ st.heap ∧
    (∀ j, (u, j) ∈ st.usedRelax → j < i)

/-- Sum of distanceKm over stored edges looked up by id (the quantity the
Dijkstra contract equates with dist; absent ids contribute 0 like a stale
lookup would). -/
def pathWeight (graph : StreetGraph) (es : List String) : ℚ :=
  (es.map (fun eid => ((Js.jget graph.edges eid).map GraphEdge.distanceKm).getD 0)).sum

/-- A two-street chain n1 - n2 - n3 with explicit node ids, for exercising the
Dijkstra contract on a concrete graph. -/
def c2Streets : List StreetSegment :=
  [{ id := "a", name := "First Street", path := [⟨0, 0⟩, ⟨0, 1⟩],
     startNodeId := some "n1", endNodeId := some "n2",
     completed := false, source := .osm },
   { id := "b", name := "Second Street", path := [⟨0, 1⟩, ⟨0, 3⟩],
     startNodeId := some "n2", endNodeId := some "n3",
     completed := false, source := .osm }]

/-- The graph of the two-street chain under the taxicab geometry. -/
def c2Graph : StreetGraph := buildStreetGraph l1Geo c2Streets

/-- Two far-apart streets sharing the id x: the second Map.set overwrites the
first edge record while the first pair of adjacency entries survives, so the
adjacency of n1 references an edge stored between n3 and n4. -/
def c2DupStreets : List StreetSegment :=
  [{ id := "x", name := "First Street", path := [⟨0, 0⟩, ⟨0, 1⟩],
     startNodeId := some "n1", endNodeId := some "n2",
     completed := false, source := .osm },
   { id := "x", name := "Far Street", path := [⟨5, 5⟩, ⟨5, 6⟩],
     startNodeId := some "n3", endNodeId := some "n4",
     completed := false, source := .osm }]

/-- The graph of the duplicated-id pair under the taxicab geometry. -/
def c2DupGraph : StreetGraph := buildStreetGraph l1Geo c2DupStreets

/- ===================== DEFINITIONS CONTINUE ABOVE THIS LINE ================== -/

/- ===================== THEOREMS ===================== -/

theorem toNat_ofNat_lower {n : ℕ} (h1 : 65 ≤ n) (h2 : n ≤ 90) :
    (Char.ofNat (n + 32)).toNat = n + 32 := by
  have hv : (n + 32).isValidChar := Or.inl (by omega)
  simp only [Char.ofNat, hv, dite_true, Char.ofNatAux]
  exact rfl

theorem wsChar_toNat_le {c : Char} (h : wsChar c = true) : c.toNat ≤ 32 := by
  simp only [wsChar, Bool.or_eq_true, beq_iff_eq] at h
  rcases h with ((((h | h) | h) | h) | h) | h <;> subst h <;> decide

theorem wsChar_eq_false_of_toNat {c : Char} (h65 : 65 ≤ c.toNat) : wsChar c = false := by
  by_contra h
  have := wsChar_toNat_le (by simpa using h)
  omega

theorem jsToLower_idem (c : Char) : jsToLower (jsToLower c) = jsToLower c := by
  by_cases h : 65 ≤ c.toNat ∧ c.toNat ≤ 90
  · have h1 : jsToLower c = Char.ofNat (c.toNat + 32) := by rw [jsToLower, if_pos h]
    rw [h1, jsToLower, if_neg]
    rw [toNat_ofNat_lower h.1 h.2]
    omega
  · have h1 : jsToLower c = c := by rw [jsToLower, if_neg h]
    rw [h1]
    exact h1

theorem wsChar_jsToLower (c : Char) : wsChar (jsToLower c) = wsChar c := by
  by_cases h : 65 ≤ c.toNat ∧ c.toNat ≤ 90
  · rw [jsToLower, if_pos h]
    rw [wsChar_eq_false_of_toNat, wsChar_eq_false_of_toNat]
    · omega
    · rw [toNat_ofNat_lower h.1 h.2]; omega
  · have h1 : jsToLower c = c := by rw [jsToLower, if_neg h]
    rw [h1]

theorem mem_collapseWsAux {c : Char} :
    ∀ {b : Bool} {l : List Char}, c ∈ collapseWsAux b l → c = ' ' ∨ c ∈ l := by
  intro b l
  induction l generalizing b with
  | nil => intro h; simp [collapseWsAux] at h
  | cons x xs ih =>
    intro h
    simp only [collapseWsAux] at h
    cases hx : wsChar x <;> rw [hx] at h
    · simp only [if_false, Bool.false_eq_true] at h
      rcases List.mem_cons.mp h with h | h
      · exact Or.inr (h ▸ List.mem_cons_self _ _)
      · rcases ih h with h' | h'
        · exact Or.inl h'
        · exact Or.inr (List.mem_cons_of_mem _ h')
    · simp only [if_true] at h
      cases b with
      | true =>
        simp only [if_true] at h
        rcases ih h with h' | h'
        · exact Or.inl h'
        · exact Or.inr (List.mem_cons_of_mem _ h')
      | false =>
        simp only [Bool.false_eq_true, if_false] at h
        rcases List.mem_cons.mp h with h | h
        · exact Or.inl h
        · rcases ih h with h' | h'
          · exact Or.inl h'
          · exact Or.inr (List.mem_cons_of_mem _ h')

theorem allWsSpace_collapseWsAux {c : Char} :
    ∀ {b : Bool} {l : List Char}, c ∈ collapseWsAux b l → wsChar c = true → c = ' ' := by
  intro b l
  induction l generalizing b with
  | nil => intro h; simp [collapseWsAux] at h
  | cons x xs ih =>
    intro h hws
    simp only [collapseWsAux] at h
    cases hx : wsChar x <;> rw [hx] at h
    · simp only [if_false, Bool.false_eq_true] at h
      rcases List.mem_cons.mp h with h | h
      · subst h; rw [hws] at hx; exact absurd hx (by simp)
      · exact ih h hws
    · simp only [if_true] at h
      cases b with
      | true => simp only [if_true] at h; exact ih h hws
      | false =>
        simp only [Bool.false_eq_true, if_false] at h
        rcases List.mem_cons.mp h with h | h
        · exact h
        · exact ih h hws

theorem headNotWs_collapseWsAux_true :
    ∀ (l : List Char), headNotWs (collapseWsAux true l) := by
  intro l
  induction l with
  | nil => trivial
  | cons x xs ih =>
    simp only [collapseWsAux]
    cases hx : wsChar x
    · simpa [headNotWs] using hx
    · simpa using ih

theorem chain'_collapseWsAux :
    ∀ (b : Bool) (l : List Char), List.Chain' NoWsPair (collapseWsAux b l) := by
  intro b l
  induction l generalizing b with
  | nil => simp [collapseWsAux]
  | cons x xs ih =>
    simp only [collapseWsAux]
    cases hx : wsChar x
    · simp only [if_false, Bool.false_eq_true]
      refine List.chain'_cons'.mpr ⟨?_, ih false⟩
      intro y _ hcon
      rw [hx] at hcon
      exact absurd hcon.1 (by simp)
    · simp only [if_true]
      cases b with
      | true => exact ih true
      | false =>
        simp only [Bool.false_eq_true, if_false]
        refine List.chain'_cons'.mpr ⟨?_, ih true⟩
        intro y hy hcon
        have hh := headNotWs_collapseWsAux_true xs
        cases hcol : collapseWsAux true xs with
        | nil => rw [hcol] at hy; simp at hy
        | cons z zs =>
          rw [hcol] at hy hh
          simp only [List.head?_cons, Option.mem_def, Option.some.injEq] at hy
          subst hy
          simp only [headNotWs] at hh
          rw [hh] at hcon
          exact absurd hcon.2 (by simp)

theorem collapseWsAux_fixed :
    ∀ (l : List Char) (b : Bool), List.Chain' NoWsPair l →
      (∀ c ∈ l, wsChar c = true → c = ' ') →
      (b = true → headNotWs l) →
      collapseWsAux b l = l := by
  intro l
  induction l with
  | nil => intro b _ _ _; simp [collapseWsAux]
  | cons x xs ih =>
    intro b hchain hspace hb
    simp only [collapseWsAux]
    cases hx : wsChar x
    · simp only [if_false, Bool.false_eq_true]
      rw [ih false hchain.tail (fun c hc => hspace c (List.mem_cons_of_mem _ hc)) (by simp)]
    · have hxsp : x = ' ' := hspace x (List.mem_cons_self _ _) hx
      have hbf : b = false := by
        cases b with
        | false => rfl
        | true =>
          have := hb rfl
          simp only [headNotWs] at this
          rw [hx] at this
          exact absurd this (by simp)
      subst hbf
      simp only [if_true, Bool.false_eq_true, if_false]
      have hrest : collapseWsAux true xs = xs := by
        refine ih true hchain.tail (fun c hc => hspace c (List.mem_cons_of_mem _ hc)) ?_
        intro _
        cases xs with
        | nil => trivial
        | cons y ys =>
          have hcc := (List.chain'_cons.mp hchain).1
          simp only [headNotWs]
          cases hy : wsChar y
          · rfl
          · exact absurd ⟨hx, hy⟩ hcc
      rw [hrest, hxsp]

theorem dropWhile_head_false {p : Char → Bool} :
    ∀ (l : List Char) (c : Char) (r : List Char), l.dropWhile p = c :: r → p c = false := by
  intro l
  induction l with
  | nil => intro c r h; simp [List.dropWhile] at h
  | cons x xs ih =>
    intro c r h
    by_cases hx : p x
    · rw [List.dropWhile_cons_of_pos hx] at h; exact ih c r h
    · rw [List.dropWhile_cons_of_neg hx] at h
      cases h
      simpa using hx

theorem trimList_prefix_dropWhile (l : List Char) :
    trimList l <+: l.dropWhile wsChar := by
  unfold trimList
  have h : ((l.dropWhile wsChar).reverse).dropWhile wsChar <:+
      (l.dropWhile wsChar).reverse := List.dropWhile_suffix wsChar
  have h2 := List.reverse_prefix.mpr h
  simpa using h2

theorem trimList_isInfix (l : List Char) : trimList l <:+: l :=
  (trimList_prefix_dropWhile l).isInfix.trans (List.dropWhile_suffix wsChar).isInfix

theorem headNotWs_trimList (l : List Char) : headNotWs (trimList l) := by
  cases htl : trimList l with
  | nil => trivial
  | cons c cs =>
    have hpre := trimList_prefix_dropWhile l
    rw [htl] at hpre
    obtain ⟨t, ht⟩ := hpre
    cases hdw : l.dropWhile wsChar with
    | nil => rw [hdw] at ht; simp at ht
    | cons d ds =>
      rw [hdw] at ht
      have hcd : c = d := by
        have := congrArg List.head? ht
        simpa using this
      subst hcd
      simpa [headNotWs] using dropWhile_head_false l c ds hdw

theorem map_jsToLower_fixed {l : List Char} (h : ∀ c ∈ l, jsToLower c = c) :
    l.map jsToLower = l := by
  rw [List.map_congr_left h]
  exact List.map_id l

/-- Claim C8 (amended): normalizeStreetName is idempotent up to a final trim:
normalizing a normalized name returns it with leading/trailing whitespace
removed; full idempotence fails only when removing periods exposes outer
whitespace. -/
theorem claim_C8_theorem (s : String) :
    normalizeStreetName (normalizeStreetName s) =
      String.mk (trimList (normalizeStreetName s).data) := by
  have hdata : (normalizeStreetName s).data
      = collapseWs (removeDots ((trimList s.data).map jsToLower)) := rfl
  set t := collapseWs (removeDots ((trimList s.data).map jsToLower)) with ht
  have hlower : ∀ c ∈ t, jsToLower c = c := by
    intro c hc
    rcases mem_collapseWsAux hc with h | h
    · subst h; decide
    · have hf := List.mem_filter.mp h
      obtain ⟨c0, _, hc0⟩ := List.mem_map.mp hf.1
      rw [← hc0]; exact jsToLower_idem c0
  have hnodot : ∀ c ∈ t, ¬(c = '.') := by
    intro c hc
    rcases mem_collapseWsAux hc with h | h
    · subst h; decide
    · have hf := List.mem_filter.mp h
      simpa using hf.2
  have hspace : ∀ c ∈ t, wsChar c = true → c = ' ' :=
    fun c hc => allWsSpace_collapseWsAux hc
  have hchain : List.Chain' NoWsPair t := chain'_collapseWsAux false _
  have hsub : ∀ c ∈ trimList t, c ∈ t := fun c hc => (trimList_isInfix t).subset hc
  show String.mk (collapseWs (removeDots ((trimList t).map jsToLower))) = String.mk (trimList t)
  rw [map_jsToLower_fixed (fun c hc => hlower c (hsub c hc))]
  have hfilter : removeDots (trimList t) = trimList t := by
    unfold removeDots
    rw [List.filter_eq_self.mpr]
    intro c hc
    simpa using hnodot c (hsub c hc)
  rw [hfilter]
  have hch2 := List.Chain'.infix hchain (trimList_isInfix t)
  have hfix : collapseWs (trimList t) = trimList t :=
    collapseWsAux_fixed (trimList t) false hch2
      (fun c hc => hspace c (hsub c hc)) (by simp)
  rw [hfix]

/-- Claim C8 counterexample: the literal claim (idempotence for every string)
fails on the string period-space-a, whose normalization keeps a leading space
exposed by period removal. -/
theorem claim_C8_counterexample :
    normalizeStreetName (normalizeStreetName ". a") ≠ normalizeStreetName ". a" := by decide

theorem sadd_of_not_mem {K : Type} [DecidableEq K] {s : List K} {k : K} (h : k ∉ s) :
    Js.sadd s k = s ++ [k] := by
  simp [Js.sadd, h]

theorem foldl_sadd_filter (p : ℕ → Prop) [DecidablePred p] :
    ∀ (l : List ℕ) (s0 : List ℕ), l.Nodup → (∀ i ∈ l, p i → i ∉ s0) →
      l.foldl (fun s i => if p i then Js.sadd s i else s) s0
        = s0 ++ l.filter (fun i => decide (p i)) := by
  intro l
  induction l with
  | nil => intro s0 _ _; simp
  | cons x xs ih =>
    intro s0 hnd hfresh
    simp only [List.foldl_cons, List.filter_cons]
    by_cases hx : p x
    · rw [if_pos hx, sadd_of_not_mem (hfresh x (List.mem_cons_self _ _) hx)]
      rw [ih (s0 ++ [x]) hnd.of_cons ?_]
      · simp [hx]
      · intro i hi hpi
        rw [List.mem_append]
        push_neg
        refine ⟨hfresh i (List.mem_cons_of_mem _ hi) hpi, ?_⟩
        simp only [List.mem_singleton]
        intro hix
        exact (List.nodup_cons.mp hnd).1 (hix ▸ hi)
    · rw [if_neg hx,
        ih s0 hnd.of_cons (fun i hi hpi => hfresh i (List.mem_cons_of_mem _ hi) hpi)]
      simp [hx]


theorem insertLe_perm {α : Type} (le : α → α → Bool) (x : α) :
    ∀ (l : List α), (Js.insertLe le x l).Perm (x :: l) := by
  intro l
  induction l with
  | nil => exact List.Perm.refl _
  | cons y ys ih =>
    unfold Js.insertLe
    by_cases h : le y x = true
    · rw [if_pos h]
      exact (ih.cons y).trans (List.Perm.swap x y ys)
    · rw [if_neg h]

theorem jsSortBy_perm_aux {α : Type} (le : α → α → Bool) :
    ∀ (l acc : List α),
      (l.foldl (fun acc x => Js.insertLe le x acc) acc).Perm (acc ++ l) := by
  intro l
  induction l with
  | nil => intro acc; simp
  | cons x xs ih =>
    intro acc
    simp only [List.foldl_cons]
    refine (ih (Js.insertLe le x acc)).trans ?_
    refine (List.Perm.append_right xs (insertLe_perm le x acc)).trans ?_
    exact List.perm_middle.symm

theorem jsSortBy_perm {α : Type} (le : α → α → Bool) (l : List α) :
    (Js.jsSortBy le l).Perm l := by
  simpa using jsSortBy_perm_aux le l []

theorem insertLe_sorted {α : Type} {le : α → α → Bool}
    (htrans : ∀ a b c, le a b = true → le b c = true → le a c = true)
    (htot : ∀ a b, le a b = true ∨ le b a = true)
    (x : α) : ∀ {l : List α}, List.Pairwise (fun a b => le a b = true) l →
      List.Pairwise (fun a b => le a b = true) (Js.insertLe le x l) := by
  intro l
  induction l with
  | nil => intro _; simp [Js.insertLe]
  | cons y ys ih =>
    intro hl
    have hys := List.pairwise_cons.mp hl
    unfold Js.insertLe
    by_cases h : le y x = true
    · rw [if_pos h]
      refine List.pairwise_cons.mpr ⟨?_, ih hys.2⟩
      intro z hz
      rcases List.mem_cons.mp ((insertLe_perm le x ys).subset hz) with hzx | hz'
      · exact hzx ▸ h
      · exact hys.1 z hz'
    · rw [if_neg h]
      have hxy : le x y = true := (htot x y).resolve_right h
      refine List.pairwise_cons.mpr ⟨?_, hl⟩
      intro z hz
      rcases List.mem_cons.mp hz with hzy | hz'
      · exact hzy ▸ hxy
      · exact htrans x y z hxy (hys.1 z hz')

theorem jsSortBy_sorted {α : Type} {le : α → α → Bool}
    (htrans : ∀ a b c, le a b = true → le b c = true → le a c = true)
    (htot : ∀ a b, le a b = true ∨ le b a = true) :
    ∀ (l acc : List α), List.Pairwise (fun a b => le a b = true) acc →
      List.Pairwise (fun a b => le a b = true)
        (l.foldl (fun acc x => Js.insertLe le x acc) acc) := by
  intro l
  induction l with
  | nil => intro acc h; simpa using h
  | cons x xs ih =>
    intro acc h
    simp only [List.foldl_cons]
    exact ih _ (insertLe_sorted htrans htot x h)

theorem orderedSplits_eq_spec (usage : List (Int × ℕ)) (w : OWay)
    (h2 : 2 ≤ w.nodes.length) :
    orderedSplitsOf usage w = specSplitIndices usage w := by
  have hlast : w.nodes.length - 1 ≠ 0 := by omega
  have hbase : Js.sadd (Js.sadd ([] : List ℕ) 0) (w.nodes.length - 1)
      = [0, w.nodes.length - 1] := by
    have h0 : Js.sadd ([] : List ℕ) 0 = [0] := by simp [Js.sadd]
    rw [h0, sadd_of_not_mem (by simp [hlast])]
    rfl
  have hfresh : ∀ i ∈ List.range w.nodes.length,
      (1 ≤ i ∧ i + 1 < w.nodes.length ∧ 1 < (Js.jget usage (w.nodes.getD i 0)).getD 0)
        → i ∉ [0, w.nodes.length - 1] := by
    intro i _ hpi
    simp only [List.mem_cons, List.not_mem_nil, or_false]
    push_neg
    omega
  have hfold := foldl_sadd_filter
    (fun i => 1 ≤ i ∧ i + 1 < w.nodes.length ∧ 1 < (Js.jget usage (w.nodes.getD i 0)).getD 0)
    (List.range w.nodes.length) [0, w.nodes.length - 1] (List.nodup_range _) hfresh
  have hunf : orderedSplitsOf usage w
      = Js.jsSortBy (fun a b => a ≤ b)
          ([0, w.nodes.length - 1] ++ (List.range w.nodes.length).filter
            (fun i => decide (1 ≤ i ∧ i + 1 < w.nodes.length
              ∧ 1 < (Js.jget usage (w.nodes.getD i 0)).getD 0))) := by
    unfold orderedSplitsOf
    simp only [hbase, hfold]
  rw [hunf]
  have hA_nodup : ([0, w.nodes.length - 1]
      ++ (List.range w.nodes.length).filter
        (fun i => decide (1 ≤ i ∧ i + 1 < w.nodes.length
          ∧ 1 < (Js.jget usage (w.nodes.getD i 0)).getD 0))).Nodup := by
    refine List.Nodup.append ?_ ((List.nodup_range _).filter _) ?_
    · refine List.nodup_cons.mpr ⟨?_, List.nodup_singleton _⟩
      simp only [List.mem_singleton]
      omega
    · rw [List.disjoint_left]
      intro a ha hmem
      have hpa := of_decide_eq_true ((List.mem_filter.mp hmem).2)
      simp only [List.mem_cons, List.not_mem_nil, or_false] at ha
      rcases ha with h | h
      · omega
      · omega
  have hperm := jsSortBy_perm (fun a b : ℕ => a ≤ b)
    ([0, w.nodes.length - 1] ++ (List.range w.nodes.length).filter
      (fun i => decide (1 ≤ i ∧ i + 1 < w.nodes.length
        ∧ 1 < (Js.jget usage (w.nodes.getD i 0)).getD 0)))
  have hnodup_merged := (hperm.nodup_iff).mpr hA_nodup
  have hsorted_merged : List.Sorted (· ≤ ·)
      (Js.jsSortBy (fun a b : ℕ => a ≤ b)
        ([0, w.nodes.length - 1] ++ (List.range w.nodes.length).filter
          (fun i => decide (1 ≤ i ∧ i + 1 < w.nodes.length
            ∧ 1 < (Js.jget usage (w.nodes.getD i 0)).getD 0)))) := by
    have hs := @jsSortBy_sorted ℕ (fun a b : ℕ => decide (a ≤ b))
      (by intro a b c hab hbc; simp only [decide_eq_true_eq] at *; omega)
      (by intro a b; rcases Nat.le_total a b with h | h
          · exact Or.inl (decide_eq_true h)
          · exact Or.inr (decide_eq_true h))
      ([0, w.nodes.length - 1] ++ (List.range w.nodes.length).filter
        (fun i => decide (1 ≤ i ∧ i + 1 < w.nodes.length
          ∧ 1 < (Js.jget usage (w.nodes.getD i 0)).getD 0))) [] (by simp)
    refine hs.imp ?_
    intro a b hab
    simpa using hab
  have hsorted_spec : List.Sorted (· ≤ ·) (specSplitIndices usage w) := by
    unfold specSplitIndices
    exact ((List.pairwise_lt_range _).filter _).imp (fun h => le_of_lt h)
  have hnodup_spec : (specSplitIndices usage w).Nodup := by
    unfold specSplitIndices
    exact (List.nodup_range _).filter _
  refine List.eq_of_perm_of_sorted ?_ hsorted_merged hsorted_spec
  rw [List.perm_ext_iff_of_nodup hnodup_merged hnodup_spec]
  intro a
  rw [hperm.mem_iff]
  unfold specSplitIndices
  simp only [List.mem_append, List.mem_cons, List.not_mem_nil, or_false,
    List.mem_filter, List.mem_range, decide_eq_true_eq]
  constructor
  · rintro ((h | h) | h)
    · subst h; exact ⟨by omega, Or.inl rfl⟩
    · subst h; exact ⟨by omega, Or.inr (Or.inl (by omega))⟩
    · exact ⟨h.1, Or.inr (Or.inr h.2)⟩
  · rintro ⟨hr, h | h | h⟩
    · exact Or.inl (Or.inl h)
    · exact Or.inl (Or.inr (by omega))
    · exact Or.inr ⟨hr, h⟩

theorem collectWays_nodes_len {es : List OverpassElement} {w : OWay}
    (hw : w ∈ collectWays es) : 2 ≤ w.nodes.length := by
  unfold collectWays at hw
  obtain ⟨e, -, he⟩ := List.mem_filterMap.mp hw
  by_cases h1 : e.type = OverpassElemType.way
  · rw [if_pos h1] at he
    by_cases h2 : isRunnableCityStreet e.tags = true
    · rw [if_pos h2] at he
      cases hn : e.nodes with
      | none => rw [hn] at he; exact absurd he (by simp)
      | some ns =>
        rw [hn] at he
        simp only at he
        by_cases h3 : ns.length < 2
        · rw [if_pos h3] at he; exact absurd he (by simp)
        · rw [if_neg h3] at he
          by_cases h4 : ((e.tags.bind (fun t => t.name)).map jsTrim).getD "" = ""
          · rw [if_pos h4] at he; exact absurd he (by simp)
          · rw [if_neg h4] at he
            injection he with he2
            rw [← he2]
            simpa using Nat.le_of_not_lt h3
    · rw [if_neg h2] at he; exact absurd he (by simp)
  · rw [if_neg h1] at he; exact absurd he (by simp)

/-- Claim C6 (amended): parseOverpassResponse splits each retained way at
position 0, the last position, and exactly those interior positions whose node
id is used at least twice across retained ways, occurrences within a single
way counted with multiplicity (the source counts per occurrence, not per way);
each slice yields one StreetSegment with id osm-wayId-start-end-splitIndex,
with a one-segment-per-way fallback (id osm-wayId) when splitting yields
nothing.  Stated as: the parser equals the specification-shaped parser built
on the direct filter specSplitIndices, and the shared-interior-node scenario
of the claim produces exactly the two expected segments. -/
theorem claim_C6_theorem :
    (∀ payload, parseOverpassResponse payload = specParseOverpassResponse payload) ∧
      parseOverpassResponse c6ScenarioPayload = c6ScenarioExpected := by
  constructor
  · intro payload
    have hflat : ∀ (nm : List (Int × LatLng)) (ws : List OWay),
        (∀ w ∈ ws, 2 ≤ w.nodes.length) →
        ws.flatMap (waySplitSegments nm (nodeUsageOf ws))
          = ws.flatMap (fun w => splitWalk nm w 1 (specSplitIndices (nodeUsageOf ws) w)) := by
      intro nm ws hlen
      refine List.flatMap_congr (fun w hw => ?_)
      unfold waySplitSegments
      rw [orderedSplits_eq_spec _ _ (hlen w hw)]
    unfold parseOverpassResponse specParseOverpassResponse
    simp only [hflat (collectNodeMap (payload.elements.getD []))
      (collectWays (payload.elements.getD []))
      (fun w hw => collectWays_nodes_len hw)]
  · decide

/-- Claim C6 counterexample: a single retained way with node 2 occurring twice
inside it is split at its interior occurrences of node 2 (three segments, one
of them the loop 2-3-2), although no interior node is used by 2 or more
retained ways (there is only one retained way), contradicting the claimed
split rule. -/
theorem claim_C6_counterexample :
    (parseOverpassResponse c6CexPayload).map StreetSegment.id
        = ["osm-7-1-2-1", "osm-7-2-2-2", "osm-7-2-4-3"] ∧
      (collectWays (c6CexPayload.elements.getD [])).length = 1 := by decide

theorem jget_jset_self {K V : Type} [DecidableEq K] (m : List (K × V)) (k : K) (v : V) :
    Js.jget (Js.jset m k v) k = some v := by
  induction m with
  | nil => simp [Js.jset, Js.jget]
  | cons p rest ih =>
    obtain ⟨a, b⟩ := p
    by_cases h : a = k
    · subst h; simp [Js.jset, Js.jget]
    · simp [Js.jset, Js.jget, h, ih]

theorem jget_jset_ne {K V : Type} [DecidableEq K] (m : List (K × V)) (k k' : K) (v : V)
    (h : k' ≠ k) : Js.jget (Js.jset m k v) k' = Js.jget m k' := by
  have h2 : ¬ (k = k') := fun he => h he.symm
  induction m with
  | nil => simp [Js.jset, Js.jget, h2]
  | cons p rest ih =>
    obtain ⟨a, b⟩ := p
    by_cases hp : a = k
    · subst hp; simp [Js.jset, Js.jget, h2]
    · by_cases hk : a = k'
      · simp [Js.jset, Js.jget, hp, hk, h]
      · simp [Js.jset, Js.jget, hp, hk, ih]

theorem jget_jmodify_self {K V : Type} [DecidableEq K] (m : List (K × V)) (k : K)
    (f : V → V) : Js.jget (Js.jmodify m k f) k = (Js.jget m k).map f := by
  induction m with
  | nil => simp [Js.jmodify, Js.jget]
  | cons p rest ih =>
    obtain ⟨a, b⟩ := p
    simp only [Js.jmodify, List.map_cons] at ih ⊢
    by_cases h : a = k
    · subst h
      rw [if_pos rfl]
      simp [Js.jget]
    · rw [if_neg h]
      simp only [Js.jget]
      rw [if_neg h, if_neg h]
      exact ih

theorem jget_jmodify_ne {K V : Type} [DecidableEq K] (m : List (K × V)) (k k' : K)
    (f : V → V) (h : k' ≠ k) : Js.jget (Js.jmodify m k f) k' = Js.jget m k' := by
  have h2 : ¬ (k = k') := fun he => h he.symm
  induction m with
  | nil => simp [Js.jmodify, Js.jget]
  | cons p rest ih =>
    obtain ⟨a, b⟩ := p
    simp only [Js.jmodify, List.map_cons] at ih ⊢
    by_cases hp : a = k
    · subst hp
      rw [if_pos rfl]
      simp only [Js.jget]
      rw [if_neg h2, if_neg h2]
      exact ih
    · rw [if_neg hp]
      by_cases hk : a = k'
      · subst hk
        simp [Js.jget]
      · simp only [Js.jget]
        rw [if_neg hk, if_neg hk]
        exact ih

theorem jget_isSome_of_jhas {K V : Type} [DecidableEq K] {m : List (K × V)} {k : K}
    (h : Js.jhas m k = true) : (Js.jget m k).isSome = true := by
  simpa [Js.jhas] using h

theorem jget_none_of_not_jhas {K V : Type} [DecidableEq K] {m : List (K × V)} {k : K}
    (h : ¬ Js.jhas m k = true) : Js.jget m k = none := by
  unfold Js.jhas at h
  cases hj : Js.jget m k with
  | none => rfl
  | some v => rw [hj] at h; simp at h

theorem adjCountL_ensureAdj (adj : List (String × List GraphNeighbor)) (k n e : String) :
    adjCountL (ensureAdj adj k) n e = adjCountL adj n e := by
  unfold ensureAdj
  by_cases h : Js.jhas adj k = true
  · rw [if_pos h]
  · rw [if_neg h]
    unfold adjCountL
    by_cases hn : n = k
    · subst hn
      rw [jget_jset_self, jget_none_of_not_jhas h]
      simp
    · rw [jget_jset_ne _ _ _ _ hn]

theorem jget_ensureAdj_isSome (adj : List (String × List GraphNeighbor)) (k : String) :
    (Js.jget (ensureAdj adj k) k).isSome = true := by
  unfold ensureAdj
  by_cases h : Js.jhas adj k = true
  · rw [if_pos h]; exact jget_isSome_of_jhas h
  · rw [if_neg h, jget_jset_self]; rfl

theorem jget_ensureAdj_isSome_of_isSome (adj : List (String × List GraphNeighbor))
    (k n : String) (h : (Js.jget adj n).isSome = true) :
    (Js.jget (ensureAdj adj k) n).isSome = true := by
  unfold ensureAdj
  by_cases hh : Js.jhas adj k = true
  · rw [if_pos hh]; exact h
  · rw [if_neg hh]
    by_cases hn : n = k
    · subst hn; rw [jget_jset_self]; rfl
    · rw [jget_jset_ne _ _ _ _ hn]; exact h

theorem jget_pushNeighbor_isSome_of_isSome (adj : List (String × List GraphNeighbor))
    (k n : String) (nb : GraphNeighbor) (h : (Js.jget adj n).isSome = true) :
    (Js.jget (pushNeighbor adj k nb) n).isSome = true := by
  unfold pushNeighbor
  by_cases hn : n = k
  · subst hn
    rw [jget_jmodify_self]
    cases hj : Js.jget adj n with
    | none => rw [hj] at h; simp at h
    | some l => rfl
  · rw [jget_jmodify_ne _ _ _ _ hn]; exact h

theorem adjCountL_pushNeighbor_other (adj : List (String × List GraphNeighbor))
    (k n e : String) (nb : GraphNeighbor) (hne : ¬ nb.edgeId = e) :
    adjCountL (pushNeighbor adj k nb) n e = adjCountL adj n e := by
  unfold pushNeighbor adjCountL
  by_cases hn : n = k
  · subst hn
    rw [jget_jmodify_self]
    cases hj : Js.jget adj n with
    | none => simp
    | some l => simp [List.countP_append, List.countP_cons, hne]
  · rw [jget_jmodify_ne _ _ _ _ hn]

theorem adjCountL_pushNeighbor_ne (adj : List (String × List GraphNeighbor))
    (k n e : String) (nb : GraphNeighbor) (hn : n ≠ k) :
    adjCountL (pushNeighbor adj k nb) n e = adjCountL adj n e := by
  unfold pushNeighbor adjCountL
  rw [jget_jmodify_ne _ _ _ _ hn]

theorem adjCountL_pushNeighbor_self (adj : List (String × List GraphNeighbor))
    (k e : String) (nb : GraphNeighbor) (hsome : (Js.jget adj k).isSome = true)
    (hm : nb.edgeId = e) :
    adjCountL (pushNeighbor adj k nb) k e = adjCountL adj k e + 1 := by
  unfold pushNeighbor adjCountL
  rw [jget_jmodify_self]
  cases hj : Js.jget adj k with
  | none => rw [hj] at hsome; simp at hsome
  | some l => simp [List.countP_append, List.countP_cons, hm]

theorem step_adjacency (geo : Geo) (g : StreetGraph) (street : StreetSegment)
    (hlen : ¬ street.path.length < 2) :
    (buildStreetGraphStep geo g street).adjacency
      = pushNeighbor
          (pushNeighbor
            (ensureAdj (ensureAdj g.adjacency (nodeIdForStreetEndpoint street .start))
              (nodeIdForStreetEndpoint street .last))
            (nodeIdForStreetEndpoint street .start)
            ⟨street.id, nodeIdForStreetEndpoint street .last⟩)
          (nodeIdForStreetEndpoint street .last)
          ⟨street.id, nodeIdForStreetEndpoint street .start⟩ := by
  unfold buildStreetGraphStep
  rw [if_neg hlen]

theorem step_edges (geo : Geo) (g : StreetGraph) (street : StreetSegment)
    (hlen : ¬ street.path.length < 2) :
    (buildStreetGraphStep geo g street).edges
      = Js.jset g.edges street.id
          ⟨street.id, street.id, street.name, nodeIdForStreetEndpoint street .start,
            nodeIdForStreetEndpoint street .last, street.path,
            polylineDistanceKm geo street.path⟩ := by
  unfold buildStreetGraphStep
  rw [if_neg hlen]

theorem step_counts_other (geo : Geo) (g : StreetGraph) (street : StreetSegment)
    (n e : String) (hne : e ≠ street.id) :
    adjCount (buildStreetGraphStep geo g street) n e = adjCount g n e := by
  by_cases hlen : street.path.length < 2
  · unfold buildStreetGraphStep
    rw [if_pos hlen]
  · unfold adjCount
    rw [step_adjacency geo g street hlen]
    rw [adjCountL_pushNeighbor_other _ _ _ _ _ (fun h => hne (h.symm))]
    rw [adjCountL_pushNeighbor_other _ _ _ _ _ (fun h => hne (h.symm))]
    rw [adjCountL_ensureAdj, adjCountL_ensureAdj]

theorem step_counts_new (geo : Geo) (g : StreetGraph) (street : StreetSegment)
    (hlen : ¬ street.path.length < 2)
    (hfresh : ∀ n, adjCount g n street.id = 0) :
    (nodeIdForStreetEndpoint street .start ≠ nodeIdForStreetEndpoint street .last →
      adjCount (buildStreetGraphStep geo g street)
          (nodeIdForStreetEndpoint street .start) street.id = 1 ∧
        adjCount (buildStreetGraphStep geo g street)
          (nodeIdForStreetEndpoint street .last) street.id = 1) ∧
    (nodeIdForStreetEndpoint street .start = nodeIdForStreetEndpoint street .last →
      adjCount (buildStreetGraphStep geo g street)
        (nodeIdForStreetEndpoint street .start) street.id = 2) := by
  unfold adjCount
  rw [step_adjacency geo g street hlen]
  generalize nodeIdForStreetEndpoint street Endpoint.start = u
  generalize nodeIdForStreetEndpoint street Endpoint.last = v
  have hA2 : ∀ n, adjCountL (ensureAdj (ensureAdj g.adjacency u) v) n street.id = 0 := by
    intro n
    rw [adjCountL_ensureAdj, adjCountL_ensureAdj]
    exact hfresh n
  have hA2u : (Js.jget (ensureAdj (ensureAdj g.adjacency u) v) u).isSome = true :=
    jget_ensureAdj_isSome_of_isSome _ _ _ (jget_ensureAdj_isSome _ _)
  have hA2v : (Js.jget (ensureAdj (ensureAdj g.adjacency u) v) v).isSome = true :=
    jget_ensureAdj_isSome _ _
  constructor
  · intro hne
    constructor
    · rw [adjCountL_pushNeighbor_ne _ _ _ _ _ hne,
        adjCountL_pushNeighbor_self _ _ street.id _ hA2u rfl, hA2]
    · rw [adjCountL_pushNeighbor_self _ _ street.id _
        (jget_pushNeighbor_isSome_of_isSome _ _ _ _ hA2v) rfl,
        adjCountL_pushNeighbor_ne _ _ _ _ _ (fun h => hne h.symm), hA2]
  · intro heq
    subst heq
    rw [adjCountL_pushNeighbor_self _ _ street.id _
      (jget_pushNeighbor_isSome_of_isSome _ _ _ _ hA2v) rfl,
      adjCountL_pushNeighbor_self _ _ street.id _ hA2u rfl, hA2]

theorem step_preserves_fresh (geo : Geo) (g : StreetGraph) (street : StreetSegment)
    (sid : String) (hne : sid ≠ street.id) (hf : EdgeFresh g sid) :
    EdgeFresh (buildStreetGraphStep geo g street) sid := by
  by_cases hlen : street.path.length < 2
  · unfold buildStreetGraphStep
    rw [if_pos hlen]
    exact hf
  · constructor
    · rw [step_edges geo g street hlen, jget_jset_ne _ _ _ _ hne]
      exact hf.1
    · intro n
      rw [step_counts_other geo g street n sid hne]
      exact hf.2 n

theorem step_preserves_inv (geo : Geo) (g : StreetGraph) (street : StreetSegment)
    (hInv : AdjInv g) (hfresh : EdgeFresh g street.id) :
    AdjInv (buildStreetGraphStep geo g street) := by
  by_cases hlen : street.path.length < 2
  · unfold buildStreetGraphStep
    rw [if_pos hlen]
    exact hInv
  · intro eid e he
    rw [step_edges geo g street hlen] at he
    by_cases hid : eid = street.id
    · subst hid
      rw [jget_jset_self] at he
      injection he with he
      subst he
      exact step_counts_new geo g street hlen hfresh.2
    · rw [jget_jset_ne _ _ _ _ hid] at he
      have hold := hInv eid e he
      constructor
      · intro hne
        rw [step_counts_other geo g street _ _ hid, step_counts_other geo g street _ _ hid]
        exact hold.1 hne
      · intro heq
        rw [step_counts_other geo g street _ _ hid]
        exact hold.2 heq

theorem buildStreetGraph_fold_inv (geo : Geo) :
    ∀ (streets : List StreetSegment) (g : StreetGraph),
      AdjInv g → (∀ s ∈ streets, EdgeFresh g s.id) →
      (streets.map StreetSegment.id).Nodup →
      AdjInv (streets.foldl (buildStreetGraphStep geo) g) := by
  intro streets
  induction streets with
  | nil => intro g hInv _ _; exact hInv
  | cons s rest ih =>
    intro g hInv hfresh hnd
    simp only [List.foldl_cons]
    have hnd2 := hnd
    rw [List.map_cons, List.nodup_cons] at hnd2
    refine ih (buildStreetGraphStep geo g s)
      (step_preserves_inv geo g s hInv (hfresh s (List.mem_cons_self _ _))) ?_ hnd2.2
    intro s2 hs2
    refine step_preserves_fresh geo g s s2.id ?_ (hfresh s2 (List.mem_cons_of_mem _ hs2))
    intro heq
    exact hnd2.1 (heq ▸ List.mem_map_of_mem StreetSegment.id hs2)

/-- Claim C4 (amended): in the graph built from street segments with pairwise
distinct ids, every stored edge appears exactly once in the adjacency list of
each of its two endpoints when they are distinct, and exactly twice in the
adjacency list of its single endpoint when the edge is a self-loop (both path
endpoints mapping to the same node id); without distinct ids the edge map
entry is overwritten while stale adjacency entries remain. -/
theorem claim_C4_theorem (geo : Geo) (streets : List StreetSegment)
    (hids : (streets.map StreetSegment.id).Nodup) :
    ∀ eid e, Js.jget (buildStreetGraph geo streets).edges eid = some e →
      (e.fromId ≠ e.toId →
        adjCount (buildStreetGraph geo streets) e.fromId eid = 1 ∧
          adjCount (buildStreetGraph geo streets) e.toId eid = 1) ∧
      (e.fromId = e.toId →
        adjCount (buildStreetGraph geo streets) e.fromId eid = 2) := by
  refine buildStreetGraph_fold_inv geo streets ⟨[], [], []⟩ ?_ ?_ hids
  · intro eid e he
    exact absurd he (by simp [Js.jget])
  · intro s _
    constructor
    · rfl
    · intro n; rfl

/-- Claim C4 witness: the amended theorem applied at two ordinary streets
sharing endpoint n2; edge a occurs exactly once in the adjacency lists of n1
and of n2. -/
theorem claim_C4_witness :
    adjCount (buildStreetGraph zeroGeo c4WitnessStreets) "n1" "a" = 1 ∧
      adjCount (buildStreetGraph zeroGeo c4WitnessStreets) "n2" "a" = 1 :=
  (claim_C4_theorem zeroGeo c4WitnessStreets (by decide) "a" c4WitnessEdgeA
    (by with_unfolding_all decide)).1 (by decide)

/-- Claim C4 counterexample: a street whose two path endpoints quantize to the
same node id produces a self-loop edge that appears twice, not once, in the
adjacency list of its endpoint, refuting the claim as stated for every list of
street segments. -/
theorem claim_C4_counterexample :
    ((Js.jget (buildStreetGraph zeroGeo [c4LoopStreet]).edges "s").map
        (fun e => (e.fromId, e.toId))
      = some ("0.00000,0.00000", "0.00000,0.00000")) ∧
      adjCount (buildStreetGraph zeroGeo [c4LoopStreet]) "0.00000,0.00000" "s" = 2 := by
  with_unfolding_all decide

/-- Claim C9: buildEulerianRoute returns exactly the result of
buildEfficientCoverageRoute on every input - it is a thin alias for the
greedy planner (so its result never consults the Eulerization helpers). -/
theorem claim_C9_theorem (geo : Geo) (uuid : String) (streets : List StreetSegment)
    (home : LatLng) (targetKm : ℚ) (cityBounds : Option CityBounds) :
    buildEulerianRoute geo uuid streets home targetKm cityBounds =
      buildEfficientCoverageRoute geo uuid streets home targetKm cityBounds := rfl

/-- Claim C5 (amended): the planner is deterministic in every field except
the route id, which is fed from crypto.randomUUID(): for any two uuid oracle
values the two runs agree after stripping the id (and are null together). -/
theorem claim_C5_theorem (geo : Geo) (u1 u2 : String) (streets : List StreetSegment)
    (home : LatLng) (targetKm : ℚ) (cityBounds : Option CityBounds) :
    Option.map stripRouteId
        (buildEfficientCoverageRoute geo u1 streets home targetKm cityBounds) =
      Option.map stripRouteId
        (buildEfficientCoverageRoute geo u2 streets home targetKm cityBounds) := by
  unfold buildEfficientCoverageRoute
  cases buildEfficientCoverageRouteAux geo streets home targetKm cityBounds with
  | none => rfl
  | some p =>
    obtain ⟨st, graph⟩ := p
    dsimp only
    by_cases h : st.routePoints.length < 2 ∨ st.coveredStreetIds.length = 0
    · rw [if_pos h, if_pos h]
    · rw [if_neg h, if_neg h]
      rfl

/-- Claim C5 counterexample: two runs of the planner on the same fixed input
differ (the id field embeds the fresh uuid), so run-to-run equality of the
full SuggestedRoute record fails. -/
theorem claim_C5_counterexample :
    buildEfficientCoverageRoute l1Geo "a" planStreets planHome (8/10) none ≠
        buildEfficientCoverageRoute l1Geo "b" planStreets planHome (8/10) none ∧
      ((buildEfficientCoverageRoute l1Geo "a" planStreets planHome (8/10) none).map
          (fun r => r.id) = some "route-a") ∧
      ((buildEfficientCoverageRoute l1Geo "b" planStreets planHome (8/10) none).map
          (fun r => r.id) = some "route-b") := by
  with_unfolding_all decide

/-- Claim C7: the planner returns null on every input whose candidate
selection is empty, whose built graph has no edges or no nodes, or whose
candidates are all completed. -/
theorem claim_C7_theorem (geo : Geo) (uuid : String) (streets : List StreetSegment)
    (home : LatLng) (targetKm : ℚ) (cityBounds : Option CityBounds)
    (h : plannerCandidates geo streets home targetKm cityBounds = [] ∨
      (buildStreetGraph geo (plannerCandidates geo streets home targetKm cityBounds)).edges.length = 0 ∨
      (buildStreetGraph geo (plannerCandidates geo streets home targetKm cityBounds)).nodes.length = 0 ∨
      ∀ s ∈ plannerCandidates geo streets home targetKm cityBounds, s.completed = true) :
    buildEfficientCoverageRoute geo uuid streets home targetKm cityBounds = none := by
  unfold buildEfficientCoverageRoute buildEfficientCoverageRouteAux
  unfold plannerCandidates at h
  simp only
  revert h
  generalize ((match cityBounds with
    | some b => filterStreetsToCityBounds geo streets b
    | none => streets) : List StreetSegment) = inCity
  generalize selectCandidateStreets geo inCity home (max (8/10) targetKm) = cand
  intro h
  by_cases h1 : cand.length = 0
  · rw [if_pos h1]
  · rw [if_neg h1]
    have hne : cand ≠ [] := fun hh => h1 (by rw [hh]; rfl)
    by_cases h2 : (buildStreetGraph geo cand).edges.length = 0 ∨
        (buildStreetGraph geo cand).nodes.length = 0
    · rw [if_pos h2]
    · rw [if_neg h2]
      push_neg at h2
      have hall : ∀ s ∈ cand, s.completed = true := by
        rcases h with h | h | h | h
        · exact absurd h hne
        · exact absurd h h2.1
        · exact absurd h h2.2
        · exact h
      cases hfind : findNearestNodeId geo (buildStreetGraph geo cand).nodes home with
      | none => rfl
      | some startNodeId =>
        have hfilter : (cand.filter (fun s => ¬ s.completed)).length = 0 := by
          rw [List.length_eq_zero, List.filter_eq_nil_iff]
          intro s hs
          simp only [decide_not, Bool.not_eq_true', decide_eq_false_iff_not,
            Decidable.not_not]
          exact hall s hs
        dsimp only
        rw [if_pos hfilter]

/-- Claim C7 witness: on a dataset whose only candidate street is completed,
the planner returns null. -/
theorem claim_C7_witness :
    buildEfficientCoverageRoute l1Geo "w" compStreets planHome (8/10) none = none :=
  claim_C7_theorem l1Geo "w" compStreets planHome (8/10) none
    (Or.inr (Or.inr (Or.inr (by with_unfolding_all decide))))

/-- sadd never produces the empty list. -/
theorem sadd_ne_nil {K : Type} [DecidableEq K] (s : List K) (k : K) :
    Js.sadd s k ≠ [] := by
  unfold Js.sadd
  split
  · intro hs
    subst hs
    simp at *
  · exact fun hs => by simp at hs

/-- Preservation through a step list: any state predicate preserved by
applyTraversalStep is preserved by applySteps (which stops at the first
failing step). -/
theorem applySteps_pres (ctx : PlanCtx) (P : PState → Prop)
    (hP : ∀ s st st', applyTraversalStep ctx s st = some st' → P st → P st') :
    ∀ steps st, P st → P (applySteps ctx steps st).1 := by
  intro steps
  induction steps with
  | nil => intro st h; exact h
  | cons s rest ih =>
    intro st h
    simp only [applySteps]
    cases happ : applyTraversalStep ctx s st with
    | none => exact h
    | some st2 => exact ih st2 (hP s st st2 happ h)

/-- Preservation through the dead-end spur sweep loop. -/
theorem runDeadEndSpurSweeps_pres (ctx : PlanCtx) (P : PState → Prop)
    (hP : ∀ s st st', applyTraversalStep ctx s st = some st' → P st → P st') :
    ∀ fuel st, P st → P (runDeadEndSpurSweeps ctx fuel st) := by
  intro fuel
  induction fuel with
  | zero => intro st h; exact h
  | succ n ih =>
    intro st h
    simp only [runDeadEndSpurSweeps]
    split
    · exact h
    · split
      · exact h
      · split
        · exact h
        · split
          · exact applySteps_pres ctx P hP _ st h
          · split
            · exact applySteps_pres ctx P hP _ st h
            · exact ih _ (applySteps_pres ctx P hP _ st h)

/-- Preservation through the immediate branch sweep loop. -/
theorem runImmediateBranchSweep_pres (ctx : PlanCtx) (P : PState → Prop)
    (hP : ∀ s st st', applyTraversalStep ctx s st = some st' → P st → P st') :
    ∀ fuel st, P st → P (runImmediateBranchSweep ctx fuel st) := by
  intro fuel
  induction fuel with
  | zero => intro st h; exact h
  | succ n ih =>
    intro st h
    simp only [runImmediateBranchSweep]
    split
    · exact h
    · split
      · exact h
      · split
        · exact h
        next st2 happ =>
          have h2 : P st2 := hP _ st st2 happ h
          have h3 : P (runDeadEndSpurSweeps ctx 2 st2) :=
            runDeadEndSpurSweeps_pres ctx P hP 2 st2 h2
          split
          · exact h3
          · exact ih _ h3

/-- Preservation through the connector-step walk of the main loop. -/
theorem applyConnectorSteps_pres (ctx : PlanCtx) (P : PState → Prop)
    (hP : ∀ s st st', applyTraversalStep ctx s st = some st' → P st → P st') :
    ∀ steps st, P st → P (applyConnectorSteps ctx steps st).1 := by
  intro steps
  induction steps with
  | nil => intro st h; exact h
  | cons s rest ih =>
    intro st h
    simp only [applyConnectorSteps]
    split
    · exact h
    · split
      · exact h
      · split
        · exact h
        next st2 happ =>
          have h2 : P st2 := hP _ st st2 happ h
          have h4 : P (runImmediateBranchSweep ctx 2 (runDeadEndSpurSweeps ctx 3 st2)) :=
            runImmediateBranchSweep_pres ctx P hP 2 _
              (runDeadEndSpurSweeps_pres ctx P hP 3 st2 h2)
          split
          · exact h4
          · exact ih _ h4

/-- Preservation through the main planner loop: any state predicate preserved
by applyTraversalStep and insensitive to the Dijkstra cache is an invariant of
mainLoop. -/
theorem mainLoop_pres (ctx : PlanCtx) (P : PState → Prop)
    (hP : ∀ s st st', applyTraversalStep ctx s st = some st' → P st → P st')
    (hcache : ∀ st c, P st → P { st with dijkstraCache := c }) :
    ∀ fuel st, P st → P (mainLoop ctx fuel st) := by
  intro fuel
  induction fuel with
  | zero => intro st h; exact h
  | succ n ih =>
    intro st h
    simp only [mainLoop]
    split
    · exact h
    · have h2 : P (runImmediateBranchSweep ctx 6 (runDeadEndSpurSweeps ctx 5 st)) :=
        runImmediateBranchSweep_pres ctx P hP 6 _
          (runDeadEndSpurSweeps_pres ctx P hP 5 st h)
      split
      · exact h2
      · split
        next cache2 hfind =>
          have h3 : P _ := hcache _ cache2 h2
          split
          · exact h3
          · split
            · exact h3
            · split
              · exact h3
              next st4 happ =>
                exact ih st4 (hP _ _ st4 happ h3)
        next move cache2 hfind =>
          have h3 : P _ := hcache _ cache2 h2
          have h4 : P (applyConnectorSteps ctx move.connectorSteps
              { runImmediateBranchSweep ctx 6 (runDeadEndSpurSweeps ctx 5 st) with
                dijkstraCache := cache2 }).1 :=
            applyConnectorSteps_pres ctx P hP move.connectorSteps _ h3
          split
          · exact h4
          · split
            · exact h4
            · split
              · exact h4
              · split
                · exact h4
                next st5 happ =>
                  have h5 : P st5 := hP _ _ st5 happ h4
                  have h7 : P (runImmediateBranchSweep ctx 2
                      (runDeadEndSpurSweeps ctx 3 st5)) :=
                    runImmediateBranchSweep_pres ctx P hP 2 _
                      (runDeadEndSpurSweeps_pres ctx P hP 3 st5 h5)
                  split
                  · exact h7
                  · exact ih _ h7

/-- applyTraversalStep always leaves a nonempty covered street-name set (both
the id and the name of the traversed edge are added together). -/
theorem applyTraversalStep_names (ctx : PlanCtx) (s : RouteTraversalStep)
    (st st' : PState) (h : applyTraversalStep ctx s st = some st') :
    st'.coveredStreetIds ≠ [] ∧ st'.coveredStreetNames ≠ [] := by
  unfold applyTraversalStep at h
  cases happ : appendRouteStep ctx.geo ctx.graph s st.routePoints with
  | none => rw [happ] at h; cases h
  | some q =>
    obtain ⟨dKm, edge, pts, exact_⟩ := q
    rw [happ] at h
    cases h
    exact ⟨sadd_ne_nil _ _, sadd_ne_nil _ _⟩

/-- In the state a planner run ends in, covered street names are nonempty
whenever covered street ids are. -/
theorem aux_nondegen (geo : Geo) (streets : List StreetSegment) (home : LatLng)
    (targetKm : ℚ) (cityBounds : Option CityBounds) (st : PState) (g : StreetGraph)
    (h : buildEfficientCoverageRouteAux geo streets home targetKm cityBounds =
      some (st, g)) :
    st.coveredStreetIds = [] ∨ st.coveredStreetNames ≠ [] := by
  unfold buildEfficientCoverageRouteAux at h
  simp only at h
  split at h
  · cases h
  · split at h
    · cases h
    · split at h
      · cases h
      next startNodeId hfind =>
        split at h
        · cases h
        · rw [Option.some_inj, Prod.mk.injEq] at h
          obtain ⟨h1, _⟩ := h
          subst h1
          refine mainLoop_pres _ (fun s => s.coveredStreetIds = [] ∨ s.coveredStreetNames ≠ []) ?_ ?_ _ _ ?_
          · intro s st0 st1 happ _
            exact Or.inr (applyTraversalStep_names _ s st0 st1 happ).2
          · intro st0 c hp
            exact hp
          · exact Or.inl rfl

/-- Claim C10: a non-null SuggestedRoute always has at least 2 points, at
least one covered street id and at least one covered street name. -/
theorem claim_C10_theorem (geo : Geo) (uuid : String) (streets : List StreetSegment)
    (home : LatLng) (targetKm : ℚ) (cityBounds : Option CityBounds)
    (route : SuggestedRoute)
    (h : buildEfficientCoverageRoute geo uuid streets home targetKm cityBounds =
      some route) :
    2 ≤ route.points.length ∧ route.streetIds ≠ [] ∧ route.streetNames ≠ [] := by
  unfold buildEfficientCoverageRoute at h
  cases haux : buildEfficientCoverageRouteAux geo streets home targetKm cityBounds with
  | none => rw [haux] at h; cases h
  | some p =>
    obtain ⟨st, g⟩ := p
    rw [haux] at h
    dsimp only at h
    split at h
    · cases h
    next hguard =>
      push_neg at hguard
      obtain ⟨hlen, hids⟩ := hguard
      cases h
      dsimp only
      refine ⟨hlen, ?_, ?_⟩
      · intro hnil
        exact hids (by rw [hnil]; rfl)
      · rcases aux_nondegen geo streets home targetKm cityBounds st g haux with h1 | h1
        · exact absurd (by rw [h1]; rfl) hids
        · exact h1

/-- Claim C10 witness: the concrete single-street run returns a route with 3
points, one street id and one street name. -/
theorem claim_C10_witness :
    2 ≤ planRoute.points.length ∧ planRoute.streetIds ≠ [] ∧
      planRoute.streetNames ≠ [] :=
  claim_C10_theorem l1Geo "u" planStreets planHome (8/10) none planRoute
    (by with_unfolding_all rfl)

/-- Splitting a polyline sum at an interior point. -/
theorem polyline_append_cons (geo : Geo) :
    ∀ (xs : List LatLng) (a : LatLng) (ys : List LatLng),
      polylineDistanceKm geo (xs ++ a :: ys) =
        polylineDistanceKm geo (xs ++ [a]) + polylineDistanceKm geo (a :: ys) := by
  intro xs
  induction xs with
  | nil =>
    intro a ys
    simp [polylineDistanceKm]
  | cons x xs ih =>
    intro a ys
    cases xs with
    | nil =>
      cases ys with
      | nil => simp [polylineDistanceKm]
      | cons b ys' => simp [polylineDistanceKm]
    | cons y xs' =>
      have := ih a ys
      simp only [List.cons_append, List.append_eq, polylineDistanceKm] at *
      rw [this]
      ring

/-- Appending one point to a nonempty polyline adds the last hop. -/
theorem polyline_concat (geo : Geo) :
    ∀ (xs : List LatLng), xs ≠ [] → ∀ (a d : LatLng),
      polylineDistanceKm geo (xs ++ [a]) =
        polylineDistanceKm geo xs + geo.hav (xs.getLastD d) a := by
  intro xs
  induction xs with
  | nil => intro h; exact absurd rfl h
  | cons x xs ih =>
    intro _ a d
    cases xs with
    | nil => simp [polylineDistanceKm]
    | cons y xs' =>
      have := ih (by simp) a d
      simp only [List.cons_append, List.append_eq, polylineDistanceKm,
        List.getLastD_cons] at *
      rw [this]
      ring

/-- With a symmetric hav, reversing a polyline preserves its length. -/
theorem polyline_reverse (geo : Geo) (hsymm : ∀ a b, geo.hav a b = geo.hav b a) :
    ∀ (l : List LatLng),
      polylineDistanceKm geo l.reverse = polylineDistanceKm geo l := by
  intro l
  induction l with
  | nil => rfl
  | cons a l ih =>
    cases l with
    | nil => rfl
    | cons b l' =>
      rw [List.reverse_cons, polyline_concat geo _ (by simp) a ⟨0, 0⟩]
      rw [ih]
      have hlast : (b :: l').reverse.getLastD (⟨0, 0⟩ : LatLng) = b := by
        rw [List.getLastD_eq_getLast?, List.getLast?_reverse]
        rfl
      rw [hlast]
      show _ = geo.hav a b + polylineDistanceKm geo (b :: l')
      rw [hsymm b a]
      ring

/-- Every entry of a jset result is an old entry or the written pair. -/
theorem mem_jset {K V : Type} [DecidableEq K] :
    ∀ (m : List (K × V)) (k : K) (v : V) (q : K × V),
      q ∈ Js.jset m k v → q ∈ m ∨ q = (k, v) := by
  intro m k v
  induction m with
  | nil =>
    intro q hq
    simp only [Js.jset, List.mem_singleton] at hq
    exact Or.inr hq
  | cons p m ih =>
    intro q hq
    obtain ⟨pk, pv⟩ := p
    simp only [Js.jset] at hq
    by_cases hk : pk = k
    · subst hk
      rw [if_pos rfl] at hq
      rcases List.mem_cons.mp hq with h | h
      · exact Or.inr h
      · exact Or.inl (List.mem_cons_of_mem _ h)
    · rw [if_neg hk] at hq
      rcases List.mem_cons.mp hq with h | h
      · exact Or.inl (h ▸ List.mem_cons_self _ _)
      · rcases ih q h with h2 | h2
        · exact Or.inl (List.mem_cons_of_mem _ h2)
        · exact Or.inr h2

/-- A successful jget lookup is a member. -/
theorem jget_mem {K V : Type} [DecidableEq K] :
    ∀ (m : List (K × V)) (k : K) (v : V), Js.jget m k = some v → (k, v) ∈ m := by
  intro m k v
  induction m with
  | nil => intro h; cases h
  | cons p m ih =>
    intro h
    obtain ⟨pk, pv⟩ := p
    simp only [Js.jget] at h
    by_cases hk : pk = k
    · rw [if_pos hk] at h
      cases h
      subst hk
      exact List.mem_cons_self _ _
    · rw [if_neg hk] at h
      exact List.mem_cons_of_mem _ (ih h)

/-- Every edge stored by buildStreetGraph is the record built from one input
street (same ids, endpoints, path, and polyline distance). -/
theorem buildStreetGraph_edges_from (geo : Geo) (streets : List StreetSegment) :
    ∀ p ∈ (buildStreetGraph geo streets).edges, ∃ s ∈ streets,
      p.2 = ⟨s.id, s.id, s.name, nodeIdForStreetEndpoint s .start,
        nodeIdForStreetEndpoint s .last, s.path, polylineDistanceKm geo s.path⟩ := by
  have main : ∀ (ss : List StreetSegment) (init : StreetGraph)
      (C : String × GraphEdge → Prop),
      (∀ p ∈ init.edges, C p) →
      (∀ s ∈ ss, C (s.id, ⟨s.id, s.id, s.name, nodeIdForStreetEndpoint s .start,
        nodeIdForStreetEndpoint s .last, s.path, polylineDistanceKm geo s.path⟩)) →
      ∀ p ∈ (ss.foldl (buildStreetGraphStep geo) init).edges, C p := by
    intro ss
    induction ss with
    | nil => intro init C hinit _ p hp; exact hinit p hp
    | cons s ss ih =>
      intro init C hinit hnew p hp
      rw [List.foldl_cons] at hp
      refine ih (buildStreetGraphStep geo init s) C ?_
        (fun t ht => hnew t (List.mem_cons_of_mem _ ht)) p hp
      intro q hq
      by_cases hlen : s.path.length < 2
      · unfold buildStreetGraphStep at hq
        rw [if_pos hlen] at hq
        exact hinit q hq
      · rw [step_edges geo init s hlen] at hq
        rcases mem_jset _ _ _ q hq with h | h
        · exact hinit q h
        · rw [h]
          exact hnew s (List.mem_cons_self _ _)
  intro p hp
  exact main streets ⟨[], [], []⟩
    (fun q => ∃ s ∈ streets, q.2 = ⟨s.id, s.id, s.name,
      nodeIdForStreetEndpoint s .start, nodeIdForStreetEndpoint s .last, s.path,
      polylineDistanceKm geo s.path⟩)
    (fun q hq => by cases hq) (fun s hs => ⟨s, hs, rfl⟩) p hp

/-- Reattaching the defaulted last element of a nonempty list. -/
theorem dropLast_append_getLastD {α : Type} :
    ∀ (l : List α), l ≠ [] → ∀ d, l.dropLast ++ [l.getLastD d] = l := by
  intro l
  induction l with
  | nil => intro h; exact absurd rfl h
  | cons x t ih =>
    intro _ d
    cases t with
    | nil => rfl
    | cons y t' =>
      have := ih (by simp) d
      simp only [List.dropLast_cons₂, List.getLastD_cons, List.cons_append]
      rw [List.getLastD_cons] at this
      rw [this]

/-- Reattaching the defaulted head of a nonempty list. -/
theorem headD_cons_tail {α : Type} :
    ∀ (l : List α), l ≠ [] → ∀ d, l.headD d :: l.tail = l := by
  intro l hl d
  cases l with
  | nil => exact absurd rfl hl
  | cons x t => rfl

/-- The polyline length of an edge path in either orientation is the stored
edge distance, for graphs whose stored distances are the polyline lengths. -/
theorem oriented_polyline (geo : Geo) (hsymm : ∀ a b, geo.hav a b = geo.hav b a)
    (e : GraphEdge) (he : e.distanceKm = polylineDistanceKm geo e.path)
    (c : Prop) [Decidable c] :
    polylineDistanceKm geo (if c then e.path else e.path.reverse) = e.distanceKm := by
  split
  · exact he.symm
  · rw [polyline_reverse geo hsymm]
    exact he.symm

/-- applyTraversalStep preserves the exact-join accounting: while joinsExact
stays true, distanceKm is exactly the polyline length of routePoints. -/
theorem applyTraversalStep_exact (ctx : PlanCtx)
    (hzero : ∀ x, ctx.geo.hav x x = 0)
    (hsymm : ∀ a b, ctx.geo.hav a b = ctx.geo.hav b a)
    (hQ : ∀ eid e, Js.jget ctx.graph.edges eid = some e →
      e.distanceKm = polylineDistanceKm ctx.geo e.path)
    (s : RouteTraversalStep) (st st' : PState)
    (h : applyTraversalStep ctx s st = some st')
    (hR : st.joinsExact = true →
      st.distanceKm = polylineDistanceKm ctx.geo st.routePoints) :
    st'.joinsExact = true →
      st'.distanceKm = polylineDistanceKm ctx.geo st'.routePoints := by
  unfold applyTraversalStep at h
  cases happ : appendRouteStep ctx.geo ctx.graph s st.routePoints with
  | none => rw [happ] at h; cases h
  | some q =>
    obtain ⟨dKm, edge, pts, ex⟩ := q
    rw [happ] at h
    cases h
    intro hex'
    simp only [Bool.and_eq_true] at hex'
    obtain ⟨hjoins, hex⟩ := hex'
    have hdist := hR hjoins
    unfold appendRouteStep at happ
    cases hedge : Js.jget ctx.graph.edges s.edgeId with
    | none => rw [hedge] at happ; cases happ
    | some edge0 =>
      rw [hedge] at happ
      dsimp only at happ
      have he0 : edge0.distanceKm = polylineDistanceKm ctx.geo edge0.path :=
        hQ s.edgeId edge0 hedge
      have hoP0 := oriented_polyline ctx.geo hsymm edge0 he0
        (edge0.fromId = s.fromId ∧ edge0.toId = s.toId)
      revert happ hoP0
      generalize (if edge0.fromId = s.fromId ∧ edge0.toId = s.toId then
        edge0.path else edge0.path.reverse) = oP
      intro happ hoP
      split at happ
      · cases happ
      next holen2 =>
        rw [Option.some_inj, Prod.mk.injEq, Prod.mk.injEq, Prod.mk.injEq] at happ
        obtain ⟨h1, h2, h3, h4⟩ := happ
        subst h1
        subst h2
        subst h4
        have hoPne : oP ≠ [] := by
          intro hnil
          rw [hnil] at holen2
          simp at holen2
        have hempty : st.routePoints.length = 0 →
            st.distanceKm + edge0.distanceKm = polylineDistanceKm ctx.geo
              (st.routePoints ++ [oP.headD ⟨0, 0⟩] ++ oP.tail) := by
          intro hlen
          have hrp : st.routePoints = [] := List.length_eq_zero.mp hlen
          rw [hrp] at hdist ⊢
          rw [hdist]
          simp only [polylineDistanceKm, List.nil_append]
          rw [List.singleton_append, headD_cons_tail oP hoPne ⟨0, 0⟩, hoP]
          simp [polylineDistanceKm]
        rcases of_decide_eq_true hex with hlen | hlast
        · rw [if_pos hlen] at h3
          subst h3
          dsimp only
          exact hempty hlen
        · by_cases hlen : st.routePoints.length = 0
          · rw [if_pos hlen] at h3
            subst h3
            dsimp only
            exact hempty hlen
          · rw [if_neg hlen] at h3
            have hne : st.routePoints ≠ [] := by
              intro hnil
              exact hlen (by rw [hnil]; rfl)
            have hnogap : ¬ (ctx.geo.hav (st.routePoints.getLastD ⟨0, 0⟩)
                (oP.headD ⟨0, 0⟩) > 18/1000) := by
              rw [hlast, hzero]
              norm_num
            rw [if_neg hnogap] at h3
            subst h3
            dsimp only
            have hsplit : st.routePoints ++ oP.tail =
                st.routePoints.dropLast ++
                  (st.routePoints.getLastD ⟨0, 0⟩ :: oP.tail) := by
              rw [show st.routePoints.getLastD ⟨0, 0⟩ :: oP.tail =
                [st.routePoints.getLastD ⟨0, 0⟩] ++ oP.tail from rfl]
              rw [← List.append_assoc, dropLast_append_getLastD _ hne]
            rw [hsplit, polyline_append_cons, dropLast_append_getLastD _ hne,
              ← hdist, hlast, headD_cons_tail oP hoPne ⟨0, 0⟩, hoP]

/-- When the ghost joinsExact flag survives a whole planner run (every edge
polyline was appended matching the current route end exactly), the final
distanceKm is exactly the polyline length of the final routePoints. -/
theorem aux_exact (geo : Geo) (streets : List StreetSegment) (home : LatLng)
    (targetKm : ℚ) (cityBounds : Option CityBounds) (st : PState) (g : StreetGraph)
    (hzero : ∀ x, geo.hav x x = 0) (hsymm : ∀ a b, geo.hav a b = geo.hav b a)
    (h : buildEfficientCoverageRouteAux geo streets home targetKm cityBounds =
      some (st, g)) :
    st.joinsExact = true →
      st.distanceKm = polylineDistanceKm geo st.routePoints := by
  unfold buildEfficientCoverageRouteAux at h
  simp only at h
  split at h
  · cases h
  · split at h
    · cases h
    · split at h
      · cases h
      next startNodeId hfind =>
        split at h
        · cases h
        · rw [Option.some_inj, Prod.mk.injEq] at h
          obtain ⟨h1, _⟩ := h
          subst h1
          refine mainLoop_pres _ (fun s => s.joinsExact = true →
            s.distanceKm = polylineDistanceKm geo s.routePoints) ?_ ?_ _ _ ?_
          · intro s st0 st1 happ hp
            refine applyTraversalStep_exact _ ?_ ?_ ?_ s st0 st1 happ hp
            · exact hzero
            · exact hsymm
            · intro eid e hje
              obtain ⟨s', _, heq⟩ :=
                buildStreetGraph_edges_from geo _ (eid, e) (jget_mem _ _ _ hje)
              dsimp only at heq
              rw [heq]
          · intro st0 c hp
            exact hp
          · intro _
            rfl

/-- Claim C3 (amended): whenever the run's ghost joinsExact flag is true (all
polyline joins were exact) and hav vanishes on the diagonal and is symmetric,
the returned route's distanceKm equals polylineDistanceKm of its points
exactly (the 1% slack of the original claim is not needed; without the
exact-join condition the equality fails, see the counterexample). -/
theorem claim_C3_theorem (geo : Geo) (uuid : String) (streets : List StreetSegment)
    (home : LatLng) (targetKm : ℚ) (cityBounds : Option CityBounds)
    (hzero : ∀ x, geo.hav x x = 0) (hsymm : ∀ a b, geo.hav a b = geo.hav b a)
    (st : PState) (g : StreetGraph)
    (haux : buildEfficientCoverageRouteAux geo streets home targetKm cityBounds =
      some (st, g))
    (hexact : st.joinsExact = true) (route : SuggestedRoute)
    (hroute : buildEfficientCoverageRoute geo uuid streets home targetKm cityBounds =
      some route) :
    route.distanceKm = polylineDistanceKm geo route.points := by
  have hmain := aux_exact geo streets home targetKm cityBounds st g hzero hsymm
    haux hexact
  unfold buildEfficientCoverageRoute at hroute
  rw [haux] at hroute
  dsimp only at hroute
  split at hroute
  · cases hroute
  · cases hroute
    dsimp only
    exact hmain

/-- Claim C3 witness: in the concrete single-street run every join is exact
and the returned distance (10) equals the polyline length of the returned
points. -/
theorem claim_C3_witness :
    planRoute.distanceKm = polylineDistanceKm l1Geo planRoute.points :=
  claim_C3_theorem l1Geo "u" planStreets planHome (8/10) none
    (fun x => by simp [l1Geo])
    (fun a b => by simp only [l1Geo]; rw [abs_sub_comm a.lat b.lat, abs_sub_comm a.lon b.lon])
    planAuxPair.1 planAuxPair.2 (by with_unfolding_all rfl)
    (by with_unfolding_all decide) planRoute (by with_unfolding_all rfl)

/-- Claim C3 counterexample: two streets share the endpoint node id J but
disagree about its coordinates, so appendRouteStep inserts 2 km polyline
jumps that distanceKm never counts: the returned route reports 4 km while its
points measure 8 km, far outside 1%. -/
theorem claim_C3_counterexample :
    ((buildEfficientCoverageRoute l1Geo "v" gapStreets planHome (8/10) none).map
        (fun r => (r.distanceKm, polylineDistanceKm l1Geo r.points)) =
      some (4, 8)) ∧
      ¬ (|(4 : ℚ) - 8| ≤ 8 / 100) := by
  with_unfolding_all decide

/-- The distance applyTraversalStep adds is exactly the stored distance of
the traversed edge. -/
theorem applyTraversalStep_dist_eq (ctx : PlanCtx) (s : RouteTraversalStep)
    (st st' : PState) (h : applyTraversalStep ctx s st = some st') :
    ∃ e, Js.jget ctx.graph.edges s.edgeId = some e ∧
      st'.distanceKm = st.distanceKm + e.distanceKm := by
  unfold applyTraversalStep at h
  cases happ : appendRouteStep ctx.geo ctx.graph s st.routePoints with
  | none => rw [happ] at h; cases h
  | some q =>
    obtain ⟨dKm, edge, pts, ex⟩ := q
    rw [happ] at h
    cases h
    unfold appendRouteStep at happ
    cases hedge : Js.jget ctx.graph.edges s.edgeId with
    | none => rw [hedge] at happ; cases happ
    | some edge0 =>
      rw [hedge] at happ
      dsimp only at happ
      revert happ
      generalize (if edge0.fromId = s.fromId ∧ edge0.toId = s.toId then
        edge0.path else edge0.path.reverse) = oP
      intro happ
      split at happ
      · cases happ
      · rw [Option.some_inj, Prod.mk.injEq, Prod.mk.injEq, Prod.mk.injEq] at happ
        obtain ⟨h1, _, _, _⟩ := happ
        exact ⟨edge0, rfl, by dsimp only; rw [h1]⟩

/-- The forward dead-end chain grows by at most one step per unit of fuel. -/
theorem fcg_len (graph : StreetGraph) (cb : List (String × Bool)) (rws : List String) :
    ∀ fuel n e acc,
      (forwardChainGo graph cb rws fuel n e acc).length ≤ acc.length + fuel := by
  intro fuel
  induction fuel with
  | zero => intro n e acc; simp [forwardChainGo]
  | succ f ih =>
    intro n e acc
    rw [forwardChainGo]
    split
    · omega
    · split
      · omega
      · split
        · omega
        · dsimp only
          split
          · split
            · simp only [List.length_append, List.length_cons, List.length_nil]
              omega
            · split
              · simp only [List.length_append, List.length_cons, List.length_nil]
                omega
              · calc (forwardChainGo graph cb rws f _ _ (acc ++ [_])).length
                    ≤ (acc ++ [_]).length + f := ih _ _ _
                  _ ≤ acc.length + (f + 1) := by
                      simp only [List.length_append, List.length_cons, List.length_nil]
                      omega
          · simp only [List.length_append, List.length_cons, List.length_nil]
            omega

/-- A dead-end forward chain has at most 12 steps (maxDepth). -/
theorem chain_len (graph : StreetGraph) (cb : List (String × Bool)) (rws : List String)
    (anchor eid : String) :
    (buildDeadEndForwardChainFromNode graph cb rws anchor eid).length ≤ 12 := by
  unfold buildDeadEndForwardChainFromNode
  dsimp only
  split
  · simp
  · split
    · exact le_trans (fcg_len graph cb rws 12 anchor eid []) (by simp)
    · simp

/-- A best dead-end spur has at most 24 steps (out-and-back over a chain of
at most 12). -/
theorem spur_len (graph : StreetGraph) (node : String) (t c hm : ℚ)
    (cb : List (String × Bool)) (rws cov covN : List String) :
    ∀ sp, findBestDeadEndSpurAtNode graph node t c hm cb rws cov covN = some sp →
      sp.steps.length ≤ 24 := by
  unfold findBestDeadEndSpurAtNode
  have main : ∀ (l : List GraphNeighbor) (acc : Option SpurPlan),
      (∀ sp, acc = some sp → sp.steps.length ≤ 24) →
      ∀ sp, l.foldl (fun best neighbor =>
        let forward := buildDeadEndForwardChainFromNode graph cb rws node neighbor.edgeId
        if forward.length = 0 then best
        else
          let info := forward.foldl
            (fun (acc : ℚ × List String × List String) step =>
              match Js.jget graph.edges step.edgeId with
              | none => acc
              | some edge =>
                (acc.1 + edge.distanceKm, Js.sadd acc.2.1 edge.streetId,
                  Js.sadd (Js.sadd acc.2.2 step.fromId) step.toId))
            (0, [], [])
          let oneWayDistanceKm := info.1
          let totalDistanceKm := oneWayDistanceKm * 2
          let nextDistanceKm := c + totalDistanceKm
          if nextDistanceKm > hm ∧ c ≥ t * (5/10) then best
          else
            let newStreetGain :=
              (info.2.1.filter (fun sid => ¬ sid ∈ cov)).length
            let newNodeGain := (info.2.2.filter (fun nid => ¬ nid ∈ covN)).length
            let branchLengthBonus := min (14/10) (oneWayDistanceKm * (18/10))
            let budgetFit := 1 - min (15/10)
              (|t - nextDistanceKm| / max (85/100) (t * (55/100)))
            let score :=
              ((newStreetGain : ℚ) * (46/10) + (newNodeGain : ℚ) * (25/10)
                  + branchLengthBonus) / (totalDistanceKm + 7/100)
                + budgetFit * (11/10)
            let candidate : SpurPlan :=
              ⟨forward ++ (forward.reverse).map
                  (fun stp => ⟨stp.edgeId, stp.toId, stp.fromId⟩),
                totalDistanceKm, score⟩
            match best with
            | none => some candidate
            | some b => if candidate.score > b.score then some candidate else some b) acc
        = some sp → sp.steps.length ≤ 24 := by
    intro l
    induction l with
    | nil => intro acc hacc sp hsp; exact hacc sp hsp
    | cons nb l ih =>
      intro acc hacc sp hsp
      rw [List.foldl_cons] at hsp
      refine ih _ ?_ sp hsp
      intro sp2 hsp2
      dsimp only at hsp2
      split at hsp2
      · exact hacc sp2 hsp2
      next hfwd =>
        have hlen : (buildDeadEndForwardChainFromNode graph cb rws node
            nb.edgeId).length ≤ 12 := chain_len graph cb rws node nb.edgeId
        split at hsp2
        · exact hacc sp2 hsp2
        · split at hsp2
          · rw [Option.some_inj] at hsp2
            subst hsp2
            simp only [List.length_append, List.length_map, List.length_reverse]
            omega
          · split at hsp2
            · rw [Option.some_inj] at hsp2
              subst hsp2
              simp only [List.length_append, List.length_map, List.length_reverse]
              omega
            · exact hacc sp2 hsp2
  intro sp hsp
  exact main _ none (fun _ h => by cases h) sp hsp

/-- applyTraversalStep adds at most the uniform edge bound L. -/
theorem applyTraversalStep_dist_le (ctx : PlanCtx) (L : ℚ)
    (hE : ∀ eid e, Js.jget ctx.graph.edges eid = some e → e.distanceKm ≤ L)
    (s : RouteTraversalStep) (st st' : PState)
    (h : applyTraversalStep ctx s st = some st') :
    st'.distanceKm ≤ st.distanceKm + L := by
  obtain ⟨e, he, heq⟩ := applyTraversalStep_dist_eq ctx s st st' h
  rw [heq]
  have := hE s.edgeId e he
  linarith

/-- applySteps adds at most one edge bound per step. -/
theorem applySteps_dist (ctx : PlanCtx) (L : ℚ) (hL0 : 0 ≤ L)
    (hE : ∀ eid e, Js.jget ctx.graph.edges eid = some e → e.distanceKm ≤ L) :
    ∀ (steps : List RouteTraversalStep) (st : PState),
      (applySteps ctx steps st).1.distanceKm ≤
        st.distanceKm + (steps.length : ℚ) * L := by
  intro steps
  induction steps with
  | nil =>
    intro st
    simp [applySteps]
  | cons s rest ih =>
    intro st
    simp only [applySteps]
    cases happ : applyTraversalStep ctx s st with
    | none =>
      have : (0 : ℚ) ≤ ((s :: rest).length : ℚ) * L := by
        apply mul_nonneg _ hL0
        exact_mod_cast Nat.zero_le _
      dsimp only
      linarith
    | some st2 =>
      have h1 := applyTraversalStep_dist_le ctx L hE s st st2 happ
      have h2 := ih st2
      have hcast : ((s :: rest).length : ℚ) = (rest.length : ℚ) + 1 := by
        push_cast [List.length_cons]
        ring
      rw [hcast]
      dsimp only
      nlinarith [h1, h2]

/-- The spur sweep loop keeps distanceKm at most hardMax + 24 L. -/
theorem runDeadEndSpurSweeps_dist (ctx : PlanCtx) (L : ℚ) (hL0 : 0 ≤ L)
    (hE : ∀ eid e, Js.jget ctx.graph.edges eid = some e → e.distanceKm ≤ L) :
    ∀ fuel st, st.distanceKm ≤ ctx.hardMaxKm + 24 * L →
      (runDeadEndSpurSweeps ctx fuel st).distanceKm ≤ ctx.hardMaxKm + 24 * L := by
  intro fuel
  induction fuel with
  | zero => intro st h; exact h
  | succ n ih =>
    intro st h
    simp only [runDeadEndSpurSweeps]
    split
    · exact h
    next hlt =>
      rw [not_not] at hlt
      split
      · exact h
      next spur hsp =>
        split
        · exact h
        · have hsteps : (spur.steps.length : ℚ) ≤ 24 := by
            exact_mod_cast spur_len _ _ _ _ _ _ _ _ _ spur hsp
          have happlied : (applySteps ctx spur.steps st).1.distanceKm ≤
              ctx.hardMaxKm + 24 * L := by
            have h1 := applySteps_dist ctx L hL0 hE spur.steps st
            have h2 : (spur.steps.length : ℚ) * L ≤ 24 * L :=
              mul_le_mul_of_nonneg_right hsteps hL0
            linarith
          split
          · exact happlied
          · split
            · exact happlied
            · exact ih _ happlied

/-- The immediate-branch sweep loop keeps distanceKm at most hardMax + 24 L. -/
theorem runImmediateBranchSweep_dist (ctx : PlanCtx) (L : ℚ) (hL0 : 0 ≤ L)
    (hE : ∀ eid e, Js.jget ctx.graph.edges eid = some e → e.distanceKm ≤ L) :
    ∀ fuel st, st.distanceKm ≤ ctx.hardMaxKm + 24 * L →
      (runImmediateBranchSweep ctx fuel st).distanceKm ≤ ctx.hardMaxKm + 24 * L := by
  intro fuel
  induction fuel with
  | zero => intro st h; exact h
  | succ n ih =>
    intro st h
    simp only [runImmediateBranchSweep]
    split
    · exact h
    next hlt =>
      rw [not_not] at hlt
      split
      · exact h
      · split
        · exact h
        next st2 happ =>
          have h2 : st2.distanceKm ≤ ctx.hardMaxKm + 24 * L := by
            have := applyTraversalStep_dist_le ctx L hE _ st st2 happ
            linarith
          have h3 := runDeadEndSpurSweeps_dist ctx L hL0 hE 2 st2 h2
          split
          · exact h3
          · exact ih _ h3

/-- The connector walk keeps distanceKm at most hardMax + 24 L (its guard
only lets an edge through when the result stays under hardMax or the current
distance is still under 0.55 target). -/
theorem applyConnectorSteps_dist (ctx : PlanCtx) (L : ℚ) (hL0 : 0 ≤ L)
    (hE : ∀ eid e, Js.jget ctx.graph.edges eid = some e → e.distanceKm ≤ L)
    (hT : ctx.normalizedTargetKm * (55/100) ≤ ctx.hardMaxKm) :
    ∀ steps st, st.distanceKm ≤ ctx.hardMaxKm + 24 * L →
      (applyConnectorSteps ctx steps st).1.distanceKm ≤ ctx.hardMaxKm + 24 * L := by
  intro steps
  induction steps with
  | nil => intro st h; exact h
  | cons cstep rest ih =>
    intro st h
    simp only [applyConnectorSteps]
    split
    · exact h
    next connectorEdge hce =>
      split
      · exact h
      next hguard =>
        push_neg at hguard
        split
        · exact h
        next st2 happ =>
          obtain ⟨e, he, heq⟩ := applyTraversalStep_dist_eq ctx cstep st st2 happ
          rw [hce] at he
          rw [Option.some_inj] at he
          subst he
          have hbound : st2.distanceKm ≤ ctx.hardMaxKm + 24 * L := by
            by_cases hcase : st.distanceKm + connectorEdge.distanceKm > ctx.hardMaxKm
            · have hlow := hguard hcase
              have heL := hE cstep.edgeId connectorEdge hce
              rw [heq]
              nlinarith
            · push_neg at hcase
              rw [heq]
              nlinarith
          have h4 := runImmediateBranchSweep_dist ctx L hL0 hE 2 _
            (runDeadEndSpurSweeps_dist ctx L hL0 hE 3 st2 hbound)
          split
          · exact h4
          · exact ih _ h4

/-- The main planner loop keeps distanceKm at most hardMax + 24 L. -/
theorem mainLoop_dist (ctx : PlanCtx) (L : ℚ) (hL0 : 0 ≤ L)
    (hE : ∀ eid e, Js.jget ctx.graph.edges eid = some e → e.distanceKm ≤ L)
    (hT : ctx.normalizedTargetKm * (55/100) ≤ ctx.hardMaxKm) :
    ∀ fuel st, st.distanceKm ≤ ctx.hardMaxKm + 24 * L →
      (mainLoop ctx fuel st).distanceKm ≤ ctx.hardMaxKm + 24 * L := by
  intro fuel
  induction fuel with
  | zero => intro st h; exact h
  | succ n ih =>
    intro st h
    simp only [mainLoop]
    split
    · exact h
    · have h2 := runImmediateBranchSweep_dist ctx L hL0 hE 6 _
        (runDeadEndSpurSweeps_dist ctx L hL0 hE 5 st h)
      split
      · exact h2
      next hst2 =>
        push_neg at hst2
        split
        next cache2 hfind =>
          have h3 : ({ runImmediateBranchSweep ctx 6 (runDeadEndSpurSweeps ctx 5 st) with
              dijkstraCache := cache2 } : PState).distanceKm ≤
              ctx.hardMaxKm + 24 * L := h2
          split
          · exact h3
          · split
            · exact h3
            · split
              · exact h3
              next st4 happ =>
                refine ih st4 ?_
                have := applyTraversalStep_dist_le ctx L hE _ _ st4 happ
                dsimp only at this
                linarith
        next move cache2 hfind =>
          have h3 : ({ runImmediateBranchSweep ctx 6 (runDeadEndSpurSweeps ctx 5 st) with
              dijkstraCache := cache2 } : PState).distanceKm ≤
              ctx.hardMaxKm + 24 * L := h2
          have h4 := applyConnectorSteps_dist ctx L hL0 hE hT move.connectorSteps _ h3
          split
          · exact h4
          · split
            · exact h4
            next targetEdge hte =>
              split
              · exact h4
              next hguard =>
                push_neg at hguard
                split
                · exact h4
                next st5 happ =>
                  obtain ⟨e, he, heq⟩ := applyTraversalStep_dist_eq ctx _ _ st5 happ
                  rw [hte] at he
                  rw [Option.some_inj] at he
                  subst he
                  have hb5 : st5.distanceKm ≤ ctx.hardMaxKm + 24 * L := by
                    by_cases hcase : (applyConnectorSteps ctx move.connectorSteps
                        ({ runImmediateBranchSweep ctx 6 (runDeadEndSpurSweeps ctx 5 st) with
                          dijkstraCache := cache2 } : PState)).1.distanceKm +
                        targetEdge.distanceKm > ctx.hardMaxKm
                    · have hlow := hguard hcase
                      have heL := hE _ targetEdge hte
                      rw [heq]
                      nlinarith
                    · push_neg at hcase
                      rw [heq]
                      nlinarith
                  have h7 := runImmediateBranchSweep_dist ctx L hL0 hE 2 _
                    (runDeadEndSpurSweeps_dist ctx L hL0 hE 3 st5 hb5)
                  split
                  · exact h7
                  · exact ih _ h7

/-- Candidate selection only returns input streets. -/
theorem selectCandidateStreets_subset (geo : Geo) (ss : List StreetSegment)
    (home : LatLng) (t : ℚ) :
    ∀ s ∈ selectCandidateStreets geo ss home t, s ∈ ss := by
  intro s hs
  unfold selectCandidateStreets at hs
  dsimp only at hs
  have hscored : ∀ p, p ∈ Js.jsSortBy
      (fun (a b : StreetSegment × ℚ) => a.2 ≤ b.2)
      ((ss.filter (fun s => decide (s.path.length ≥ 2))).map (fun s =>
        (s, min (geo.hav home (s.path.headD ⟨0, 0⟩))
          (geo.hav home (s.path.getLastD ⟨0, 0⟩))))) → p.1 ∈ ss := by
    intro p hp
    have hp2 := (jsSortBy_perm _ _).mem_iff.mp hp
    obtain ⟨s0, hs0, heq⟩ := List.mem_map.mp hp2
    rw [← heq]
    exact List.mem_of_mem_filter hs0
  split at hs
  · cases hs
  · split at hs
    · obtain ⟨p, hp, heq⟩ := List.mem_map.mp hs
      rw [← heq]
      exact hscored p (List.mem_of_mem_filter (List.mem_of_mem_take hp))
    · obtain ⟨p, hp, heq⟩ := List.mem_map.mp hs
      rw [← heq]
      exact hscored p (List.mem_of_mem_take hp)

/-- The street list a planner run builds its graph from is a subset of the
input streets. -/
theorem plannerCandidates_subset (geo : Geo) (streets : List StreetSegment)
    (home : LatLng) (targetKm : ℚ) (cityBounds : Option CityBounds) :
    ∀ s ∈ plannerCandidates geo streets home targetKm cityBounds, s ∈ streets := by
  intro s hs
  unfold plannerCandidates at hs
  have := selectCandidateStreets_subset geo _ home (max (8/10) targetKm) s hs
  cases cityBounds with
  | none => exact this
  | some b => exact List.mem_of_mem_filter this

/-- The final state of a planner run keeps distanceKm at most
hardMax + 24 L whenever L bounds the polyline length of every input
street. -/
theorem aux_dist (geo : Geo) (streets : List StreetSegment) (home : LatLng)
    (targetKm : ℚ) (cityBounds : Option CityBounds) (st : PState) (g : StreetGraph)
    (L : ℚ) (hL0 : 0 ≤ L)
    (hstreets : ∀ s ∈ streets, polylineDistanceKm geo s.path ≤ L)
    (h : buildEfficientCoverageRouteAux geo streets home targetKm cityBounds =
      some (st, g)) :
    st.distanceKm ≤
      max (12/10) (max (8/10) targetKm * (11/10) + 35/100) + 24 * L := by
  unfold buildEfficientCoverageRouteAux at h
  simp only at h
  split at h
  · cases h
  · split at h
    · cases h
    · split at h
      · cases h
      next startNodeId hfind =>
        split at h
        · cases h
        · rw [Option.some_inj, Prod.mk.injEq] at h
          obtain ⟨h1, _⟩ := h
          subst h1
          have hcand : ∀ s ∈ selectCandidateStreets geo
              (match cityBounds with
               | some b => filterStreetsToCityBounds geo streets b
               | none => streets) home (max (8/10) targetKm), s ∈ streets :=
            fun s hs => plannerCandidates_subset geo streets home targetKm
              cityBounds s hs
          refine mainLoop_dist _ L hL0 ?_ ?_ _ _ ?_
          · intro eid e hje
            obtain ⟨s', hs', heq⟩ :=
              buildStreetGraph_edges_from geo _ (eid, e) (jget_mem _ _ _ hje)
            dsimp only at heq
            rw [heq]
            exact hstreets s' (hcand s' hs')
          · dsimp only
            have hT0 : (0 : ℚ) ≤ max (8/10) targetKm :=
              le_trans (by norm_num) (le_max_left _ _)
            refine le_trans ?_ (le_max_right (12/10) _)
            nlinarith
          · dsimp only
            have h1 : (12/10 : ℚ) ≤ max (12/10)
                (max (8/10) targetKm * (11/10) + 35/100) := le_max_left _ _
            nlinarith

/-- Claim C1 (amended): the returned distanceKm is bounded by
hardMaxKm + 24 L for any uniform bound L on the polyline length of the input
street segments; the bare ceiling distanceKm <= hardMaxKm of the original
claim is false (see the counterexample): the guards let a dead-end spur of up
to 24 edges, or one final edge, be appended while the running distance is
still below fractions of the target. -/
theorem claim_C1_theorem (geo : Geo) (uuid : String) (streets : List StreetSegment)
    (home : LatLng) (targetKm : ℚ) (cityBounds : Option CityBounds)
    (L : ℚ) (hL0 : 0 ≤ L)
    (hstreets : ∀ s ∈ streets, polylineDistanceKm geo s.path ≤ L)
    (route : SuggestedRoute)
    (hroute : buildEfficientCoverageRoute geo uuid streets home targetKm cityBounds =
      some route) :
    route.distanceKm ≤
      max (12/10) (max (8/10) targetKm * (11/10) + 35/100) + 24 * L := by
  unfold buildEfficientCoverageRoute at hroute
  cases haux : buildEfficientCoverageRouteAux geo streets home targetKm cityBounds with
  | none => rw [haux] at hroute; cases hroute
  | some p =>
    obtain ⟨st, g⟩ := p
    have hb := aux_dist geo streets home targetKm cityBounds st g L hL0 hstreets haux
    rw [haux] at hroute
    dsimp only at hroute
    split at hroute
    · cases hroute
    · cases hroute
      exact hb

/-- Claim C1 witness: the amended bound applied to the concrete single-street
run (L = 5): the returned 10 km distance is within hardMax + 120. -/
theorem claim_C1_witness :
    planRoute.distanceKm ≤
      max (12/10) (max (8/10) (8/10) * (11/10) + 35/100) + 24 * 5 :=
  claim_C1_theorem l1Geo "u" planStreets planHome (8/10) none 5 (by norm_num)
    (by with_unfolding_all decide) planRoute (by with_unfolding_all rfl)

/-- Claim C1 counterexample: the first dead-end spur sweep of the two-street
run walks 4 km out-and-back although hardMaxKm is only 1.23 km, so the hard
ceiling of the original claim is violated. -/
theorem claim_C1_counterexample :
    ((buildEfficientCoverageRoute l1Geo "c" gapStreets planHome (8/10) none).map
        (fun r => r.distanceKm) = some 4) ∧
      ¬ ((4 : ℚ) ≤ max (12/10) (max (8/10) (8/10) * (11/10) + 35/100)) := by
  with_unfolding_all decide

/-- hget through getElem?. -/
theorem hget_eq (d : List HeapEntry) (i : ℕ) : hget d i = (d[i]?).getD ⟨"", 0⟩ := by
  rw [hget, List.getD_eq_getElem?_getD]

/-- The length of a swap. -/
theorem hswap_length (d : List HeapEntry) (i j : ℕ) :
    (hswap d i j).length = d.length := by
  simp [hswap]

/-- Reading an untouched slot of a set. -/
theorem hget_set_ne (d : List HeapEntry) (i j : ℕ) (x : HeapEntry) (h : i ≠ j) :
    hget (d.set i x) j = hget d j := by
  rw [hget_eq, hget_eq, List.getElem?_set_ne h]

/-- Reading a written slot of a set. -/
theorem hget_set_self (d : List HeapEntry) (i : ℕ) (hi : i < d.length) (x : HeapEntry) :
    hget (d.set i x) i = x := by
  rw [hget_eq, List.getElem?_set_self hi]
  rfl

/-- Reading the swapped slots. -/
theorem hget_hswap_fst (d : List HeapEntry) (i j : ℕ) (hi : i < d.length)
    (hj : j < d.length) (hij : i ≠ j) : hget (hswap d i j) i = hget d j := by
  rw [hswap, hget_set_ne _ _ _ _ (Ne.symm hij), hget_set_self _ _ hi]

theorem hget_hswap_snd (d : List HeapEntry) (i j : ℕ) (_hj : j < (d.set i (hget d j)).length) :
    hget (hswap d i j) j = hget d i := by
  rw [hswap, hget_set_self _ _ _hj]

theorem hget_hswap_other (d : List HeapEntry) (i j k : ℕ) (hki : k ≠ i) (hkj : k ≠ j) :
    hget (hswap d i j) k = hget d k := by
  rw [hswap, hget_set_ne _ _ _ _ (Ne.symm hkj), hget_set_ne _ _ _ _ (Ne.symm hki)]

/-- Counting through a set, in cancellation-free form. -/
theorem count_set (d : List HeapEntry) (i : ℕ) (hi : i < d.length) (x a : HeapEntry) :
    (d.set i x).count a + (if hget d i = a then 1 else 0) =
      d.count a + (if x = a then 1 else 0) := by
  have hgi : hget d i = d[i] := by
    rw [hget_eq, List.getElem?_eq_getElem hi]
    rfl
  rw [hgi, List.set_eq_take_append_cons_drop, if_pos hi]
  conv_rhs => rw [← List.take_append_drop i d, List.drop_eq_getElem_cons hi]
  simp only [List.count_append, List.count_cons]
  by_cases h1 : d[i] = a <;> by_cases h2 : x = a <;>
    simp [h1, h2, beq_iff_eq] <;> omega

/-- A swap of two in-bounds slots is a permutation. -/
theorem hswap_perm (d : List HeapEntry) (i j : ℕ) (hi : i < d.length)
    (hj : j < d.length) : (hswap d i j).Perm d := by
  rw [List.perm_iff_count]
  intro a
  have hj2 : j < (d.set i (hget d j)).length := by simpa using hj
  have h1 := count_set d i hi (hget d j) a
  have h2 := count_set (d.set i (hget d j)) j hj2 (hget d i) a
  rw [hswap] at *
  by_cases hij : i = j
  · subst hij
    rw [hget_set_self _ _ hi] at h2
    by_cases ha : hget d i = a <;> simp only [ha, if_pos, if_neg] at * <;> omega
  · rw [hget_set_ne _ _ _ _ hij] at h2
    by_cases ha : hget d i = a <;> by_cases hb : hget d j = a <;>
      simp only [ha, hb, if_pos, if_neg] at * <;> omega

/-- bubbleUp permutes the array. -/
theorem bubbleUpF_perm : ∀ (fuel : ℕ) (d : List HeapEntry) (j : ℕ), j < d.length →
    (bubbleUpF fuel d j).Perm d := by
  intro fuel
  induction fuel with
  | zero => intro d j _; exact List.Perm.refl _
  | succ f ih =>
    intro d j hj
    rw [bubbleUpF]
    split
    · exact List.Perm.refl _
    next hj0 =>
      dsimp only
      split
      · exact List.Perm.refl _
      · have hpar : (j - 1) / 2 < d.length := by
          have : (j - 1) / 2 ≤ j - 1 := Nat.div_le_self _ _
          omega
        have hlen : (j - 1) / 2 < (hswap d j ((j - 1) / 2)).length := by
          rw [hswap_length]; exact hpar
        exact (ih (hswap d j ((j - 1) / 2)) _ hlen).trans
          (hswap_perm d j ((j - 1) / 2) hj hpar)

/-- bubbleDown permutes the array. -/
theorem bubbleDownF_perm : ∀ (fuel : ℕ) (d : List HeapEntry) (j : ℕ),
    (bubbleDownF fuel d j).Perm d := by
  intro fuel
  induction fuel with
  | zero => intro d j; exact List.Perm.refl _
  | succ f ih =>
    intro d j
    simp only [bubbleDownF]
    generalize hg1 : (if j * 2 + 1 < d.length ∧
      (hget d (j * 2 + 1)).distance - (hget d j).distance < 0 then j * 2 + 1
      else j) = s1
    generalize hg2 : (if j * 2 + 1 + 1 < d.length ∧
      (hget d (j * 2 + 1 + 1)).distance - (hget d s1).distance < 0 then j * 2 + 1 + 1
      else s1) = s2
    have hs1 : s1 < d.length ∨ s1 = j := by
      rw [← hg1]
      split
      · next h => exact Or.inl h.1
      · exact Or.inr rfl
    have hs2 : s2 < d.length ∨ s2 = s1 := by
      rw [← hg2]
      split
      · next h => exact Or.inl h.1
      · exact Or.inr rfl
    have hj2 : ¬ j < d.length → s2 = j := by
      intro h
      rw [← hg2, if_neg, ← hg1, if_neg]
      · intro hc
        exact h (by omega)
      · intro hc
        exact h (by omega)
    split
    · exact List.Perm.refl _
    next hne =>
      have hj : j < d.length := by
        by_contra h
        exact hne (hj2 h)
      have hs2len : s2 < d.length := by
        rcases hs2 with h | h
        · exact h
        · rcases hs1 with h1 | h1
          · rw [h]; exact h1
          · exact absurd (h.trans h1) hne
      exact (ih _ _).trans (hswap_perm d j s2 hj hs2len)

/-- Pushing is a permutation with the new element consed. -/
theorem heapPush_perm (d : List HeapEntry) (x : HeapEntry) :
    (heapPush d x).Perm (x :: d) := by
  unfold heapPush
  refine (bubbleUpF_perm _ _ _ ?_).trans (List.perm_append_singleton x d)
  simp

/-- Popping returns the root, and the remaining heap is a permutation of the
tail. -/
theorem heapPop_perm (top : HeapEntry) (t : List HeapEntry) :
    (heapPop (top :: t)).1 = some top ∧ ((heapPop (top :: t)).2).Perm t := by
  cases t with
  | nil => exact ⟨rfl, List.Perm.refl _⟩
  | cons y t' =>
    constructor
    · rfl
    · show (bubbleDownF _ (((top :: y :: t').dropLast).set 0
        ((top :: y :: t').getLastD ⟨"", 0⟩)) 0).Perm (y :: t')
      refine (bubbleDownF_perm _ _ _).trans ?_
      rw [List.dropLast_cons₂, List.set_cons_zero, List.getLastD_cons]
      refine (List.perm_append_singleton _ _).symm.trans ?_
      rw [dropLast_append_getLastD (y :: t') (by simp) top]

/-- One bubbleUp swap moves the defect to the parent. -/
theorem heapUpAt_swap (d : List HeapEntry) (j : ℕ) (hj0 : 0 < j)
    (hj : j < d.length) (hlt : (hget d j).distance < (hget d ((j - 1) / 2)).distance)
    (h : HeapUpAt d j) : HeapUpAt (hswap d j ((j - 1) / 2)) ((j - 1) / 2) := by
  obtain ⟨h1, h2⟩ := h
  set par := (j - 1) / 2 with hpar
  have hparj : par < j := by omega
  have hparlen : par < d.length := lt_trans hparj hj
  have hne : j ≠ par := by omega
  have hchild : j = 2 * par + 1 ∨ j = 2 * par + 2 := by omega
  have hej : hget (hswap d j par) j = hget d par := hget_hswap_fst d j par hj hparlen hne
  have hep : hget (hswap d j par) par = hget d j :=
    hget_hswap_snd d j par (by simpa using hparlen)
  have heo : ∀ k, k ≠ j → k ≠ par → hget (hswap d j par) k = hget d k :=
    fun k hk1 hk2 => hget_hswap_other d j par k hk1 hk2
  constructor
  · intro i hi0 hilen hipar
    rw [hswap_length] at hilen
    by_cases hij : i = j
    · subst hij
      rw [hej, hep]
      exact le_of_lt hlt
    · by_cases hpi : (i - 1) / 2 = par
      · rw [hpi, hep]
        have hx := h1 i hi0 hilen hij
        rw [hpi] at hx
        have hin : i ≠ par := hipar
        rw [heo i hij hin]
        exact le_of_lt (lt_of_lt_of_le hlt hx)
      · by_cases hpj : (i - 1) / 2 = j
        · rw [hpj, hej]
          have hcij : i = 2 * j + 1 ∨ i = 2 * j + 2 := by omega
          have hx := h2 hj0 i hcij hilen
          have hin : i ≠ par := by omega
          rw [heo i hij hin]
          exact hx
        · rw [heo _ hpj hpi, heo i hij (by omega)]
          exact h1 i hi0 hilen hij
  · intro hp0 c hc hclen
    rw [hswap_length] at hclen
    have hgp : (par - 1) / 2 ≠ j := by omega
    have hgp2 : (par - 1) / 2 ≠ par := by omega
    rw [heo _ hgp hgp2]
    by_cases hcj : c = j
    · subst hcj
      rw [hej]
      exact h1 par hp0 hparlen (by omega)
    · have hcp : c ≠ par := by omega
      rw [heo c hcj hcp]
      have hx1 := h1 par hp0 hparlen (by omega)
      have hx2 := h1 c (by omega) hclen hcj
      have hcpar : (c - 1) / 2 = par := by omega
      rw [hcpar] at hx2
      exact le_trans hx1 hx2

/-- bubbleUp restores the heap invariant. -/
theorem bubbleUp_heap : ∀ (fuel : ℕ) (d : List HeapEntry) (j : ℕ), j + 1 ≤ fuel →
    j < d.length → HeapUpAt d j → IsHeapL (bubbleUpF fuel d j) := by
  intro fuel
  induction fuel with
  | zero => intro d j hf; omega
  | succ f ih =>
    intro d j hf hj h
    rw [bubbleUpF]
    split
    next hj0 =>
      subst hj0
      intro i hi0 hilen
      exact h.1 i hi0 hilen (by omega)
    next hj0 =>
      dsimp only
      split
      next hge =>
        intro i hi0 hilen
        by_cases hij : i = j
        · subst hij
          linarith [hge]
        · exact h.1 i hi0 hilen hij
      next hge =>
        push_neg at hge
        have hlt : (hget d j).distance < (hget d ((j - 1) / 2)).distance := by
          linarith [hge]
        refine ih _ _ ?_ ?_ (heapUpAt_swap d j (by omega) hj hlt h)
        · omega
        · rw [hswap_length]
          have : (j - 1) / 2 < j := by omega
          omega

/-- bubbleDown restores the heap invariant. -/
theorem bubbleDown_heap : ∀ (fuel : ℕ) (d : List HeapEntry) (j : ℕ),
    d.length ≤ fuel + j → HeapDownAt d j → IsHeapL (bubbleDownF fuel d j) := by
  intro fuel
  induction fuel with
  | zero =>
    intro d j hf h
    simp only [bubbleDownF]
    intro i hi0 hilen
    refine h.1 i hi0 hilen ?_
    have hd : (i - 1) / 2 ≤ i - 1 := Nat.div_le_self _ _
    omega
  | succ f ih =>
    intro d j hf h
    simp only [bubbleDownF]
    generalize hg1 : (if j * 2 + 1 < d.length ∧
      (hget d (j * 2 + 1)).distance - (hget d j).distance < 0 then j * 2 + 1
      else j) = s1
    generalize hg2 : (if j * 2 + 1 + 1 < d.length ∧
      (hget d (j * 2 + 1 + 1)).distance - (hget d s1).distance < 0 then j * 2 + 1 + 1
      else s1) = s2
    have hs1 : (s1 = j * 2 + 1 ∧ j * 2 + 1 < d.length ∧
        (hget d (j * 2 + 1)).distance < (hget d j).distance) ∨
        (s1 = j ∧ (j * 2 + 1 < d.length →
          (hget d j).distance ≤ (hget d (j * 2 + 1)).distance)) := by
      rw [← hg1]
      split
      · next hc => exact Or.inl ⟨rfl, hc.1, by linarith [hc.2]⟩
      · next hc =>
        push_neg at hc
        exact Or.inr ⟨rfl, fun hlen => by linarith [hc hlen]⟩
    have hs2 : (s2 = j * 2 + 1 + 1 ∧ j * 2 + 1 + 1 < d.length ∧
        (hget d (j * 2 + 1 + 1)).distance < (hget d s1).distance) ∨
        (s2 = s1 ∧ (j * 2 + 1 + 1 < d.length →
          (hget d s1).distance ≤ (hget d (j * 2 + 1 + 1)).distance)) := by
      rw [← hg2]
      split
      · next hc => exact Or.inl ⟨rfl, hc.1, by linarith [hc.2]⟩
      · next hc =>
        push_neg at hc
        exact Or.inr ⟨rfl, fun hlen => by linarith [hc hlen]⟩
    have hmain : ∀ c, (c = j * 2 + 1 ∨ c = j * 2 + 1 + 1) → c < d.length →
        (hget d s2).distance ≤ (hget d c).distance := by
      intro c hc hclen
      rcases hs1 with ⟨e1, l1, lt1⟩ | ⟨e1, ge1⟩
      · rcases hs2 with ⟨e2, l2, lt2⟩ | ⟨e2, ge2⟩
        · subst e2
          rcases hc with hc | hc <;> subst hc
          · rw [e1] at lt2
            linarith
          · linarith
        · subst e2
          subst e1
          rcases hc with hc | hc <;> subst hc
          · linarith
          · exact ge2 hclen
      · rcases hs2 with ⟨e2, l2, lt2⟩ | ⟨e2, ge2⟩
        · subst e2
          rcases hc with hc | hc <;> subst hc
          · have := ge1 hclen
            rw [e1] at lt2
            linarith
          · linarith
        · subst e2
          subst e1
          rcases hc with hc | hc <;> subst hc
          · exact ge1 hclen
          · exact ge2 hclen
    have hs2j : (hget d s2).distance ≤ (hget d j).distance := by
      rcases hs1 with ⟨e1, l1, lt1⟩ | ⟨e1, ge1⟩
      · rcases hs2 with ⟨e2, l2, lt2⟩ | ⟨e2, ge2⟩
        · subst e2
          rw [e1] at lt2
          linarith
        · subst e2
          subst e1
          linarith
      · rcases hs2 with ⟨e2, l2, lt2⟩ | ⟨e2, ge2⟩
        · subst e2
          rw [e1] at lt2
          linarith
        · subst e2
          subst e1
          linarith
    split
    next heq =>
      subst heq
      intro i hi0 hilen
      by_cases hpi : (i - 1) / 2 = s2
      · have hci : i = s2 * 2 + 1 ∨ i = s2 * 2 + 1 + 1 := by omega
        have := hmain i (by omega) hilen
        rw [hpi]
        exact this
      · exact h.1 i hi0 hilen hpi
    next hne =>
      have hs2cases : s2 = j * 2 + 1 ∨ s2 = j * 2 + 1 + 1 := by
        rcases hs2 with ⟨e2, _, _⟩ | ⟨e2, _⟩
        · omega
        · rcases hs1 with ⟨e1, _, _⟩ | ⟨e1, _⟩
          · omega
          · exact absurd (by omega : s2 = j) hne
      have hs2len : s2 < d.length := by
        rcases hs2 with ⟨e2, l2, _⟩ | ⟨e2, _⟩
        · omega
        · rcases hs1 with ⟨e1, l1, _⟩ | ⟨e1, _⟩
          · omega
          · exact absurd (by omega : s2 = j) hne
      have hj : j < d.length := by omega
      have hjs2 : j < s2 := by omega
      have hej : hget (hswap d j s2) j = hget d s2 :=
        hget_hswap_fst d j s2 hj hs2len (by omega)
      have hes : hget (hswap d j s2) s2 = hget d j :=
        hget_hswap_snd d j s2 (by simpa using hs2len)
      have heo : ∀ k, k ≠ j → k ≠ s2 → hget (hswap d j s2) k = hget d k :=
        fun k h1 h2 => hget_hswap_other d j s2 k h1 h2
      refine ih (hswap d j s2) s2 ?_ ⟨?_, ?_⟩
      · rw [hswap_length]
        omega
      · intro i hi0 hilen hpis2
        rw [hswap_length] at hilen
        by_cases hij : i = j
        · subst hij
          have hp2 : (i - 1) / 2 ≠ i := by omega
          have hp3 : (i - 1) / 2 ≠ s2 := by
            have : (i - 1) / 2 ≤ i - 1 := Nat.div_le_self _ _
            omega
          rw [heo _ hp2 hp3, hej]
          exact h.2 hi0 s2 (by omega) hs2len
        · by_cases his : i = s2
          · subst his
            rw [show (i - 1) / 2 = j from by omega, hej, hes]
            exact hs2j
          · by_cases hpij : (i - 1) / 2 = j
            · rw [hpij, hej, heo i hij his]
              exact hmain i (by omega) hilen
            · rw [heo _ hpij hpis2, heo i hij his]
              exact h.1 i hi0 hilen hpij
      · intro hs20 c hc hclen
        rw [hswap_length] at hclen
        rw [show (s2 - 1) / 2 = j from by omega, hej]
        have hcj : c ≠ j := by omega
        have hcs : c ≠ s2 := by omega
        rw [heo c hcj hcs]
        have := h.1 c (by omega) hclen (by omega)
        rw [show (c - 1) / 2 = s2 from by omega] at this
        exact this

/-- Reading a slot of an append inside the prefix. -/
theorem hget_append (d e : List HeapEntry) (k : ℕ) (hk : k < d.length) :
    hget (d ++ e) k = hget d k := by
  rw [hget_eq, hget_eq, List.getElem?_append_left hk]

/-- Pushing preserves the heap invariant. -/
theorem heapPush_heap (d : List HeapEntry) (x : HeapEntry) (h : IsHeapL d) :
    IsHeapL (heapPush d x) := by
  unfold heapPush
  refine bubbleUp_heap (d.length + 1) (d ++ [x]) d.length (by omega)
    (by simp) ⟨?_, ?_⟩
  · intro i hi0 hilen hine
    rw [List.length_append, List.length_singleton] at hilen
    have hi : i < d.length := by omega
    have hp : (i - 1) / 2 < d.length := by
      have : (i - 1) / 2 ≤ i - 1 := Nat.div_le_self _ _
      omega
    rw [hget_append _ _ _ hi, hget_append _ _ _ hp]
    exact h i hi0 hi
  · intro h0 c hc hclen
    rw [List.length_append, List.length_singleton] at hclen
    omega

/-- In a heap the root is minimal. -/
theorem isHeap_root_min (d : List HeapEntry) (h : IsHeapL d) :
    ∀ i, i < d.length → (hget d 0).distance ≤ (hget d i).distance := by
  intro i
  induction i using Nat.strong_induction_on with
  | _ i ih =>
    intro hi
    cases Nat.eq_zero_or_pos i with
    | inl h0 => rw [h0]
    | inr h0 =>
      have hp : (i - 1) / 2 < i := by omega
      exact le_trans (ih _ hp (lt_trans hp hi)) (h i h0 hi)

/-- Popping a heap returns a minimal element and preserves the invariant. -/
theorem heapPop_heap (top : HeapEntry) (t : List HeapEntry)
    (h : IsHeapL (top :: t)) :
    (∀ e ∈ top :: t, top.distance ≤ e.distance) ∧
      IsHeapL ((heapPop (top :: t)).2) := by
  constructor
  · intro e he
    obtain ⟨i, hi, heq⟩ := List.getElem_of_mem he
    have hg : hget (top :: t) i = e := by
      rw [hget_eq, List.getElem?_eq_getElem hi, heq]
      rfl
    have := isHeap_root_min _ h i hi
    rw [hg] at this
    exact this
  · cases t with
    | nil => intro i hi0 hilen; simp [heapPop] at hilen
    | cons y t' =>
      show IsHeapL (bubbleDownF _ (((top :: y :: t').dropLast).set 0
        ((top :: y :: t').getLastD ⟨"", 0⟩)) 0)
      have hrest : ((top :: y :: t').dropLast).length = t'.length + 1 := by
        simp
      refine bubbleDown_heap _ _ 0 (by simp [hrest]) ⟨?_, ?_⟩
      · intro i hi0 hilen hpi
        rw [List.length_set, hrest] at hilen
        have hp0 : 0 < (i - 1) / 2 := by omega
        have hplt : (i - 1) / 2 ≤ i - 1 := Nat.div_le_self _ _
        have hi2 : i < (top :: y :: t').length - 1 := by simp; omega
        have hp2 : (i - 1) / 2 < (top :: y :: t').length - 1 := by simp; omega
        have hd1 : ∀ k, k ≠ 0 → k < (top :: y :: t').length - 1 →
            hget (((top :: y :: t').dropLast).set 0
              ((top :: y :: t').getLastD ⟨"", 0⟩)) k = hget (top :: y :: t') k := by
          intro k hk0 hk
          rw [hget_set_ne _ _ _ _ (fun hh => hk0 hh.symm), hget_eq, hget_eq,
            List.dropLast_eq_take, List.getElem?_take_of_lt (by simpa using hk)]
        rw [hd1 i (by omega) hi2, hd1 _ (by omega) hp2]
        exact h i hi0 (by simp at hi2 ⊢; omega)
      · intro h0
        omega

/-- Keys of a jset result are old keys or the written key. -/
theorem mem_keys_jset {K V : Type} [DecidableEq K] :
    ∀ (m : List (K × V)) (k x : K) (v : V),
      x ∈ (Js.jset m k v).map Prod.fst → x ∈ m.map Prod.fst ∨ x = k := by
  intro m k x v
  induction m with
  | nil =>
    intro h
    simp only [Js.jset, List.map_cons, List.map_nil, List.mem_singleton] at h
    exact Or.inr h
  | cons p m ih =>
    obtain ⟨a, b⟩ := p
    intro h
    simp only [Js.jset] at h
    by_cases hk : a = k
    · rw [if_pos hk] at h
      simp only [List.map_cons, List.mem_cons] at h ⊢
      rcases h with h | h
      · exact Or.inl (Or.inl h)
      · exact Or.inl (Or.inr h)
    · rw [if_neg hk] at h
      simp only [List.map_cons, List.mem_cons] at h ⊢
      rcases h with h | h
      · exact Or.inl (Or.inl h)
      · rcases ih h with h2 | h2
        · exact Or.inl (Or.inr h2)
        · exact Or.inr h2

/-- jset preserves nodup keys. -/
theorem jset_keys_nodup {K V : Type} [DecidableEq K] :
    ∀ (m : List (K × V)) (k : K) (v : V),
      (m.map Prod.fst).Nodup → ((Js.jset m k v).map Prod.fst).Nodup := by
  intro m k v
  induction m with
  | nil => intro _; simp [Js.jset]
  | cons p m ih =>
    obtain ⟨a, b⟩ := p
    intro h
    simp only [List.map_cons, List.nodup_cons] at h
    obtain ⟨ha, hm⟩ := h
    simp only [Js.jset]
    by_cases hk : a = k
    · rw [if_pos hk]
      simp only [List.map_cons, List.nodup_cons]
      exact ⟨ha, hm⟩
    · rw [if_neg hk]
      simp only [List.map_cons, List.nodup_cons]
      refine ⟨?_, ih hm⟩
      intro hmem
      rcases mem_keys_jset m k a v hmem with h2 | h2
      · exact ha h2
      · exact hk h2

/-- A key is present iff its lookup succeeds. -/
theorem mem_keys_iff_jget {K V : Type} [DecidableEq K] :
    ∀ (m : List (K × V)) (k : K),
      k ∈ m.map Prod.fst ↔ (Js.jget m k).isSome = true := by
  intro m k
  induction m with
  | nil => simp [Js.jget]
  | cons p m ih =>
    obtain ⟨a, b⟩ := p
    simp only [List.map_cons, List.mem_cons, Js.jget]
    by_cases hk : a = k
    · rw [if_pos hk]
      simp [hk]
    · rw [if_neg hk]
      constructor
      · intro h
        rcases h with h | h
        · exact absurd h.symm hk
        · exact ih.mp h
      · intro h
        exact Or.inr (ih.mpr h)

/-- A successful relaxation preserves the relaxation invariant, decreases no
distance, and sets the target's distance to d plus the edge weight. -/
theorem relaxStep_inv (graph : StreetGraph) (s : String) (hadj : AdjSound graph)
    (hw : ∀ eid e, Js.jget graph.edges eid = some e → 0 ≤ e.distanceKm)
    (u : String) (d : ℚ) (hd0 : 0 ≤ d) (i : ℕ) (st : DState)
    (nb : GraphNeighbor) (edge : GraphEdge)
    (hedge : Js.jget graph.edges nb.edgeId = some edge)
    (hadjsome : Js.jget graph.adjacency u ≠ none)
    (hmem : nb ∈ (Js.jget graph.adjacency u).getD [])
    (hidx : i < ((Js.jget graph.adjacency u).getD []).length)
    (hpre : RelaxPre graph s u d i st)
    (hsucc : (((d + edge.distanceKm : ℚ) : NumInf)) <
      (Js.jget st.dist nb.neighbor).getD ⊤) :
    RelaxPre graph s u d (i + 1)
      { st with
        dist := Js.jset st.dist nb.neighbor (((d + edge.distanceKm : ℚ) : NumInf))
        prev := Js.jset st.prev nb.neighbor ⟨u, nb.edgeId⟩
        heap := heapPush st.heap ⟨nb.neighbor, d + edge.distanceKm⟩
        usedRelax := st.usedRelax ++ [(u, i)]
        seq := Js.jset st.seq nb.neighbor st.ctr
        ctr := st.ctr + 1 } ∧
    (∀ y, (Js.jget (Js.jset st.dist nb.neighbor
        (((d + edge.distanceKm : ℚ) : NumInf))) y).getD ⊤ ≤
      (Js.jget st.dist y).getD ⊤) := by
  obtain ⟨hcore, hpend, hdu, hlp, hnoent, hjlt⟩ := hpre
  set v := nb.neighbor with hv
  set w := edge.distanceKm with hwdef
  set nd := d + w with hnd
  have hw0 : 0 ≤ w := hw nb.edgeId edge hedge
  have f1 : u ≠ v := by
    intro h
    rw [← h, hdu] at hsucc
    simp only [Option.getD_some] at hsucc
    rw [WithTop.coe_lt_coe] at hsucc
    linarith
  have f9 : s ≠ v := by
    intro h
    rw [← h, hcore.distS] at hsucc
    simp only [Option.getD_some] at hsucc
    rw [WithTop.coe_lt_coe] at hsucc
    have : (0 : ℚ) ≤ nd := by positivity
    linarith
  have f2 : ∀ j, (v, j) ∉ st.usedRelax := by
    intro j hj
    obtain ⟨dv, hdv, hdvle, _⟩ := hcore.used (v, j) hj
    rw [hdv] at hsucc
    simp only [Option.getD_some] at hsucc
    rw [WithTop.coe_lt_coe] at hsucc
    rw [hlp] at hdvle
    linarith
  have f4self : Js.jget (Js.jset st.dist v ((nd : ℚ) : NumInf)) v =
      some ((nd : ℚ) : NumInf) := jget_jset_self _ _ _
  have f4ne : ∀ y, y ≠ v → Js.jget (Js.jset st.dist v ((nd : ℚ) : NumInf)) y =
      Js.jget st.dist y := fun y hy => jget_jset_ne _ v y _ hy
  have f5 : ∀ y, (Js.jget (Js.jset st.dist v ((nd : ℚ) : NumInf)) y).getD ⊤ ≤
      (Js.jget st.dist y).getD ⊤ := by
    intro y
    by_cases hy : y = v
    · subst hy
      rw [f4self]
      exact le_of_lt hsucc
    · rw [f4ne y hy]
  have f6 : ∀ e : HeapEntry, e ∈ heapPush st.heap ⟨v, nd⟩ ↔
      e = ⟨v, nd⟩ ∨ e ∈ st.heap := by
    intro e
    rw [(heapPush_perm st.heap ⟨v, nd⟩).mem_iff, List.mem_cons]
  have f8 : st.heap.count (⟨v, nd⟩ : HeapEntry) = 0 := by
    rw [List.count_eq_zero]
    intro hmem2
    have := hcore.heapDist _ hmem2
    exact absurd (lt_of_le_of_lt this hsucc) (lt_irrefl _)
  have f7 : ∀ a : HeapEntry, (heapPush st.heap ⟨v, nd⟩).count a =
      st.heap.count a + (if a = ⟨v, nd⟩ then 1 else 0) := by
    intro a
    rw [(heapPush_perm st.heap ⟨v, nd⟩).count_eq, List.count_cons]
    simp only [beq_iff_eq]
    congr 1
    by_cases h : a = (⟨v, nd⟩ : HeapEntry)
    · simp [h]
    · rw [if_neg h, if_neg (fun hh => h hh.symm)]
  have hseqv : Js.jget (Js.jset st.seq v st.ctr) v = some st.ctr :=
    jget_jset_self _ _ _
  have hseqne : ∀ y, y ≠ v → Js.jget (Js.jset st.seq v st.ctr) y =
      Js.jget st.seq y := fun y hy => jget_jset_ne _ v y _ hy
  have hseqult : (Js.jget (Js.jset st.seq v st.ctr) u).getD 0 < st.ctr := by
    rw [hseqne u f1]
    cases hq : Js.jget st.seq u with
    | none => simpa using hcore.ctrPos
    | some q =>
      simp only [Option.getD_some]
      exact hcore.seqBound (u, q) (jget_mem _ _ _ hq)
  refine ⟨⟨⟨?_, ?_, ?_, ?_, ?_, ?_, ?_, ?_, ?_, ?_, ?_, ?_, ?_, ?_, ?_, ?_, ?_⟩,
    ?_, ?_, ?_, ?_, ?_⟩, ?_⟩
  · exact heapPush_heap _ _ hcore.heapOrd
  · intro e he
    rcases (f6 e).mp he with he2 | he2
    · subst he2
      dsimp only
      rw [f4self]
      exact le_refl _
    · exact le_trans (f5 e.nodeId) (hcore.heapDist e he2)
  · intro e he
    rcases (f6 e).mp he with he2 | he2
    · subst he2
      show st.lastPopped ≤ nd
      rw [hlp]
      linarith
    · exact hcore.heapLast e he2
  · intro x dx hdx
    dsimp only at hdx ⊢
    by_cases hx : x = v
    · subst hx
      rw [f4self, Option.some_inj] at hdx
      have hdxnd : nd = dx := by exact_mod_cast hdx
      subst hdxnd
      rw [f7, f8]
      simp
    · rw [f4ne x hx] at hdx
      rw [f7]
      have := hcore.upToDate x dx hdx
      have hne2 : (⟨x, dx⟩ : HeapEntry) ≠ ⟨v, nd⟩ := by
        intro hq
        cases hq
        exact hx rfl
      rw [if_neg hne2]
      omega
  · intro p hp
    dsimp only at hp ⊢
    rcases List.mem_append.mp hp with hp2 | hp2
    · obtain ⟨dp, hdp, hdple, hnp⟩ := hcore.used p hp2
      have hpv : p.1 ≠ v := by
        intro h
        exact f2 p.2 (h ▸ hp2)
      refine ⟨dp, by rw [f4ne _ hpv]; exact hdp, hdple, ?_⟩
      intro hin
      rcases (f6 _).mp hin with h2 | h2
      · rw [HeapEntry.mk.injEq] at h2
        exact hpv h2.1
      · exact hnp h2
    · rw [List.mem_singleton] at hp2
      subst hp2
      refine ⟨d, by rw [f4ne _ f1]; exact hdu, le_of_eq hlp.symm, ?_⟩
      intro hin
      rcases (f6 _).mp hin with h2 | h2
      · rw [HeapEntry.mk.injEq] at h2
        exact f1 h2.1
      · exact hnoent h2
  · dsimp only
    rw [List.nodup_append]
    refine ⟨hcore.usedNodup, List.nodup_singleton _, ?_⟩
    intro p hp hp2
    rw [List.mem_singleton] at hp2
    subst hp2
    exact absurd (hjlt i hp) (lt_irrefl i)
  · intro p hp
    dsimp only at hp
    rcases List.mem_append.mp hp with hp2 | hp2
    · exact hcore.usedIdx p hp2
    · rw [List.mem_singleton] at hp2
      subst hp2
      exact hidx
  · dsimp only
    rw [(heapPush_perm st.heap ⟨v, nd⟩).length_eq, List.length_cons,
      List.length_append, List.length_singleton]
    have := hcore.conserve
    omega
  · intro t pe hpe
    dsimp only at hpe ⊢
    by_cases ht : t = v
    · subst ht
      rw [jget_jset_self, Option.some_inj] at hpe
      subst hpe
      dsimp only
      obtain ⟨l, hl⟩ := Option.ne_none_iff_exists'.mp hadjsome
      refine ⟨nb, hmem, rfl, rfl, edge, hedge, ?_, d, nd, ?_, ?_, ?_, ?_⟩
      · obtain ⟨e2, he2, hc2⟩ := hadj u l hl nb (by rw [hl] at hmem; exact hmem)
        rw [hedge] at he2
        cases he2
        exact hc2
      · rw [f4ne _ f1]
        exact hdu
      · exact f4self
      · rw [hnd]
      · by_cases hw0' : 0 < w
        · exact Or.inl (by
            rw [f4ne _ f1, hdu, f4self]
            simp only [Option.getD_some]
            rw [WithTop.coe_lt_coe]
            linarith)
        · refine Or.inr ⟨?_, ?_⟩
          · rw [f4ne _ f1, hdu, f4self]
            have : w = 0 := le_antisymm (not_lt.mp hw0') hw0
            rw [hnd, this, add_zero]
          · rw [hseqv]
            simpa using hseqult
    · rw [jget_jset_ne _ _ _ _ ht] at hpe
      obtain ⟨nb2, hnb2mem, hnb2e, hnb2n, e2, he2, hc2, du, dt, hdu2, hdt2, hle2, hkey2⟩ :=
        hcore.prevSound t pe hpe
      by_cases hx : pe.nodeId = v
      · refine ⟨nb2, hnb2mem, hnb2e, hnb2n, e2, he2, hc2, nd, dt, ?_, ?_, ?_, ?_⟩
        · rw [hx]
          exact f4self
        · rw [f4ne _ ht]
          exact hdt2
        · have hlt : nd < du := by
            rw [← hx, hdu2] at hsucc
            simp only [Option.getD_some] at hsucc
            exact_mod_cast hsucc
          have hw2 : 0 ≤ e2.distanceKm := hw pe.edgeId e2 he2
          linarith
        · refine Or.inl ?_
          rw [hx, f4self, f4ne _ ht, hdt2]
          simp only [Option.getD_some]
          rw [WithTop.coe_lt_coe]
          have hlt : nd < du := by
            rw [← hx, hdu2] at hsucc
            simp only [Option.getD_some] at hsucc
            exact_mod_cast hsucc
          have hw2 : 0 ≤ e2.distanceKm := hw pe.edgeId e2 he2
          linarith
      · refine ⟨nb2, hnb2mem, hnb2e, hnb2n, e2, he2, hc2, du, dt, ?_, ?_, hle2, ?_⟩
        · rw [f4ne _ hx]
          exact hdu2
        · rw [f4ne _ ht]
          exact hdt2
        · unfold keyLt at hkey2 ⊢
          rw [f4ne _ hx, f4ne _ ht, hseqne _ hx, hseqne _ ht]
          exact hkey2
  · intro t hts dt hdt
    dsimp only at hdt ⊢
    by_cases ht : t = v
    · subst ht
      rw [jget_jset_self]
      simp
    · rw [f4ne _ ht] at hdt
      rw [jget_jset_ne _ _ _ _ ht]
      exact hcore.prevAll t hts dt hdt
  · intro p hp
    dsimp only at hp ⊢
    rcases mem_jset _ _ _ p hp with h2 | h2
    · have := hcore.seqBound p h2
      omega
    · subst h2
      omega
  · dsimp only
    have := hcore.ctrPos
    omega
  · exact jset_keys_nodup _ _ _ hcore.distKeys
  · exact jset_keys_nodup _ _ _ hcore.prevKeys
  · dsimp only
    rw [f4ne _ f9]
    exact hcore.distS
  · intro x dx hdx
    dsimp only at hdx
    by_cases hx : x = v
    · subst hx
      rw [f4self, Option.some_inj] at hdx
      have hnddx : nd = dx := by exact_mod_cast hdx
      rw [← hnddx, hnd]
      positivity
    · rw [f4ne _ hx] at hdx
      exact hcore.distNonneg x dx hdx
  · exact hcore.lastNonneg
  · intro x hxu dx hdx
    dsimp only at hdx ⊢
    by_cases hx : x = v
    · subst hx
      rw [f4self, Option.some_inj] at hdx
      have hdxnd : nd = dx := by exact_mod_cast hdx
      subst hdxnd
      exact Or.inl ((f6 _).mpr (Or.inl rfl))
    · rw [f4ne _ hx] at hdx
      rcases hpend x hxu dx hdx with h2 | ⟨h2a, h2b⟩
      · exact Or.inl ((f6 _).mpr (Or.inr h2))
      · refine Or.inr ⟨h2a, ?_⟩
        intro nb3 hnb3 e3 he3
        exact le_trans (f5 nb3.neighbor) (h2b nb3 hnb3 e3 he3)
  · dsimp only
    rw [f4ne _ f1]
    exact hdu
  · exact hlp
  · dsimp only
    intro hin
    rcases (f6 _).mp hin with h2 | h2
    · rw [HeapEntry.mk.injEq] at h2
      exact f1 h2.1
    · exact hnoent h2
  · intro j hj
    dsimp only at hj
    rcases List.mem_append.mp hj with h2 | h2
    · exact Nat.lt_succ_of_lt (hjlt j h2)
    · rw [List.mem_singleton, Prod.mk.injEq] at h2
      omega
  · exact f5

/-- Running the relaxation pass over the remaining adjacency entries
reestablishes the full pending invariant for the popped node. -/
theorem relaxList_master (graph : StreetGraph) (s : String) (hadj : AdjSound graph)
    (hw : ∀ eid e, Js.jget graph.edges eid = some e → 0 ≤ e.distanceKm)
    (u : String) (d : ℚ) (hd0 : 0 ≤ d) :
    ∀ (rest : List GraphNeighbor) (i : ℕ) (st : DState) (done : List GraphNeighbor),
      (Js.jget graph.adjacency u).getD [] = done ++ rest →
      done.length = i →
      RelaxPre graph s u d i st →
      (∀ nb ∈ done, ∀ e, Js.jget graph.edges nb.edgeId = some e →
        (Js.jget st.dist nb.neighbor).getD ⊤ ≤ ((d + e.distanceKm : ℚ) : NumInf)) →
      DCore graph s (relaxList graph u d i rest st) ∧
        (∀ x, x ≠ u → DPending graph (relaxList graph u d i rest st) x) ∧
        Js.jget (relaxList graph u d i rest st).dist u = some ((d : ℚ) : NumInf) ∧
        (relaxList graph u d i rest st).lastPopped = d ∧
        dDone graph (relaxList graph u d i rest st).dist u d ∧
        (relaxList graph u d i rest st).popCount = st.popCount := by
  intro rest
  induction rest with
  | nil =>
    intro i st done hsplit hlen hpre hdone
    obtain ⟨hcore, hpend, hdu, hlp, hnoent, hjlt⟩ := hpre
    refine ⟨hcore, hpend, hdu, hlp, ?_, rfl⟩
    intro nb hnb e he
    rw [hsplit, List.append_nil] at hnb
    exact hdone nb hnb e he
  | cons nb rest' ih =>
    intro i st done hsplit hlen hpre hdone
    simp only [relaxList]
    have hadjne : Js.jget graph.adjacency u ≠ none := by
      intro hn
      rw [hn] at hsplit
      exact absurd hsplit.symm (by simp)
    have hmem : nb ∈ (Js.jget graph.adjacency u).getD [] := by
      rw [hsplit]
      exact List.mem_append.mpr (Or.inr (List.mem_cons_self _ _))
    have hidx : i < ((Js.jget graph.adjacency u).getD []).length := by
      rw [hsplit, List.length_append, List.length_cons]
      omega
    have hsplit' : (Js.jget graph.adjacency u).getD [] = (done ++ [nb]) ++ rest' := by
      rw [hsplit, List.append_assoc, List.singleton_append]
    have hlen' : (done ++ [nb]).length = i + 1 := by
      rw [List.length_append, List.length_singleton]
      omega
    cases hedge : Js.jget graph.edges nb.edgeId with
    | none =>
      obtain ⟨hcore, hpend, hdu, hlp, hnoent, hjlt⟩ := hpre
      refine ih (i + 1) st (done ++ [nb]) hsplit' hlen'
        ⟨hcore, hpend, hdu, hlp, hnoent, fun j hj => Nat.lt_succ_of_lt (hjlt j hj)⟩ ?_
      intro nb2 hnb2 e he
      rcases List.mem_append.mp hnb2 with h2 | h2
      · exact hdone nb2 h2 e he
      · rw [List.mem_singleton] at h2
        subst h2
        rw [hedge] at he
        cases he
    | some edge =>
      dsimp only
      split
      next hsucc =>
        obtain ⟨hpre', hf5⟩ := relaxStep_inv graph s hadj hw u d hd0 i st nb edge
          hedge hadjne hmem hidx hpre hsucc
        have hres := ih (i + 1) _ (done ++ [nb]) hsplit' hlen' hpre' ?_
        · exact ⟨hres.1, hres.2.1, hres.2.2.1, hres.2.2.2.1, hres.2.2.2.2.1,
            hres.2.2.2.2.2⟩
        · intro nb2 hnb2 e he
          rcases List.mem_append.mp hnb2 with h2 | h2
          · exact le_trans (hf5 nb2.neighbor) (hdone nb2 h2 e he)
          · rw [List.mem_singleton] at h2
            subst h2
            rw [hedge] at he
            cases he
            dsimp only
            rw [jget_jset_self]
            exact le_refl _
      next hfail =>
        obtain ⟨hcore, hpend, hdu, hlp, hnoent, hjlt⟩ := hpre
        refine ih (i + 1) st (done ++ [nb]) hsplit' hlen'
          ⟨hcore, hpend, hdu, hlp, hnoent, fun j hj => Nat.lt_succ_of_lt (hjlt j hj)⟩ ?_
        intro nb2 hnb2 e he
        rcases List.mem_append.mp hnb2 with h2 | h2
        · exact hdone nb2 h2 e he
        · rw [List.mem_singleton] at h2
          subst h2
          rw [hedge] at he
          cases he
          exact not_lt.mp hfail

/-- One Dijkstra iteration on a nonempty heap preserves the invariant and
pops exactly once. -/
theorem dstep_inv (graph : StreetGraph) (s : String) (hadj : AdjSound graph)
    (hw : ∀ eid e, Js.jget graph.edges eid = some e → 0 ≤ e.distanceKm)
    (st : DState) (hinv : DInv graph s st) (hne : st.heap ≠ []) :
    DInv graph s (dstep graph st) ∧ (dstep graph st).popCount = st.popCount + 1 := by
  obtain ⟨hcore, hpend⟩ := hinv
  cases hheap : st.heap with
  | nil => exact absurd hheap hne
  | cons top t =>
    have hpop := heapPop_perm top t
    have hord := heapPop_heap top t (by rw [← hheap]; exact hcore.heapOrd)
    have hpeq : heapPop (top :: t) = (some top, (heapPop (top :: t)).2) := by
      rw [← hpop.1]
    have hmemtop : top ∈ st.heap := by rw [hheap]; exact List.mem_cons_self _ _
    have hlastle : st.lastPopped ≤ top.distance := hcore.heapLast top hmemtop
    have hmemrest : ∀ e, e ∈ (heapPop (top :: t)).2 → e ∈ st.heap := by
      intro e he
      rw [hheap]
      exact List.mem_cons_of_mem _ (hpop.2.mem_iff.mp he)
    have hrestlen : (heapPop (top :: t)).2.length = t.length := hpop.2.length_eq
    have hcore1 : DCore graph s { st with
        heap := (heapPop (top :: t)).2
        lastPopped := top.distance
        popCount := st.popCount + 1 } := by
      refine ⟨hord.2, ?_, ?_, ?_, ?_, hcore.usedNodup, hcore.usedIdx, ?_,
        hcore.prevSound, hcore.prevAll, hcore.seqBound, hcore.ctrPos,
        hcore.distKeys, hcore.prevKeys, hcore.distS, hcore.distNonneg, ?_⟩
      · intro e he
        exact hcore.heapDist e (hmemrest e he)
      · intro e he
        exact hord.1 e (List.mem_cons_of_mem _ (hpop.2.mem_iff.mp he))
      · intro x dx hdx
        dsimp only at hdx ⊢
        calc (heapPop (top :: t)).2.count ⟨x, dx⟩ = t.count ⟨x, dx⟩ :=
              hpop.2.count_eq _
          _ ≤ st.heap.count ⟨x, dx⟩ := by
              rw [hheap, List.count_cons]
              omega
          _ ≤ 1 := hcore.upToDate x dx hdx
      · intro p hp
        obtain ⟨dp, hdp, hdple, hnp⟩ := hcore.used p hp
        refine ⟨dp, hdp, le_trans hdple hlastle, ?_⟩
        intro hin
        exact hnp (hmemrest _ hin)
      · dsimp only
        rw [hrestlen]
        have := hcore.conserve
        rw [hheap, List.length_cons] at this
        omega
      · exact le_trans hcore.lastNonneg hlastle
    unfold dstep
    rw [hheap, hpeq]
    dsimp only
    split
    next hstale =>
      constructor
      · refine ⟨hcore1, ?_⟩
        intro x dx hdx
        dsimp only at hdx ⊢
        rcases hpend x dx hdx with h2 | ⟨h2a, h2b⟩
        · rw [hheap] at h2
          rcases List.mem_cons.mp h2 with h3 | h3
          · exfalso
            have hxn : top.nodeId = x := by rw [← h3]
            have hxd : top.distance = dx := by rw [← h3]
            rw [hxn, hdx] at hstale
            simp only [Option.getD_some] at hstale
            rw [hxd] at hstale
            exact lt_irrefl _ hstale
          · exact Or.inl (hpop.2.mem_iff.mpr h3)
        · exact Or.inr ⟨le_trans h2a hlastle, h2b⟩
      · rfl
    next hstale =>
      have hgetd : (Js.jget st.dist top.nodeId).getD ⊤ = ((top.distance : ℚ) : NumInf) := by
        have h1 := hcore.heapDist top hmemtop
        have h2 := not_lt.mp hstale
        exact le_antisymm h1 h2
      have hdu : Js.jget st.dist top.nodeId = some ((top.distance : ℚ) : NumInf) := by
        cases hq : Js.jget st.dist top.nodeId with
        | none =>
          rw [hq] at hgetd
          simp only [Option.getD_none] at hgetd
          exact absurd hgetd (by simp)
        | some x =>
          rw [hq] at hgetd
          simp only [Option.getD_some] at hgetd
          rw [hgetd]
      have hnotop : top ∉ (heapPop (top :: t)).2 := by
        intro hin
        have hcnt := hcore.upToDate top.nodeId top.distance hdu
        have htop_eta : (⟨top.nodeId, top.distance⟩ : HeapEntry) = top := rfl
        rw [htop_eta, hheap, List.count_cons] at hcnt
        simp only [beq_self_eq_true, if_true] at hcnt
        have hge : 1 ≤ t.count top := by
          rw [← hpop.2.count_eq]
          exact List.count_pos_iff.mpr hin
        omega
      have hnojlt : ∀ j, (top.nodeId, j) ∈ st.usedRelax → j < 0 := by
        intro j hj
        exfalso
        obtain ⟨dj, hdj, _, hnp⟩ := hcore.used (top.nodeId, j) hj
        rw [hdu, Option.some_inj] at hdj
        have hdjeq : top.distance = dj := by exact_mod_cast hdj
        subst hdjeq
        exact hnp hmemtop
      have hpre : RelaxPre graph s top.nodeId top.distance 0 { st with
          heap := (heapPop (top :: t)).2
          lastPopped := top.distance
          popCount := st.popCount + 1 } := by
        refine ⟨hcore1, ?_, hdu, rfl, hnotop, hnojlt⟩
        intro x hxu dx hdx
        dsimp only at hdx ⊢
        rcases hpend x dx hdx with h2 | ⟨h2a, h2b⟩
        · rw [hheap] at h2
          rcases List.mem_cons.mp h2 with h3 | h3
          · exfalso
            apply hxu
            rw [← h3]
          · exact Or.inl (hpop.2.mem_iff.mpr h3)
        · exact Or.inr ⟨le_trans h2a hlastle, h2b⟩
      have hmaster := relaxList_master graph s hadj hw top.nodeId top.distance
        (hcore.distNonneg _ _ hdu) ((Js.jget graph.adjacency top.nodeId).getD [])
        0 _ [] rfl rfl hpre (by intro nb hnb; cases hnb)
      refine ⟨⟨hmaster.1, ?_⟩, ?_⟩
      · intro x
        by_cases hxu : x = top.nodeId
        · subst hxu
          intro dx hdx
          rw [hmaster.2.2.1, Option.some_inj] at hdx
          have hdxeq : top.distance = dx := by exact_mod_cast hdx
          subst hdxeq
          exact Or.inr ⟨le_of_eq hmaster.2.2.2.1.symm, hmaster.2.2.2.2.1⟩
        · exact hmaster.2.1 x hxu
      · rw [hmaster.2.2.2.2.2]

/-- The initial all-Infinity distance map holds no finite values. -/
theorem init_top (nodes : List (String × GraphNode)) :
    ∀ u, Js.jget (nodes.foldl (fun m p => Js.jset m p.1 (⊤ : NumInf)) []) u = none ∨
      Js.jget (nodes.foldl (fun m p => Js.jset m p.1 (⊤ : NumInf)) []) u = some ⊤ := by
  have main : ∀ (ns : List (String × GraphNode)) (m : List (String × NumInf)),
      (∀ u, Js.jget m u = none ∨ Js.jget m u = some ⊤) →
      ∀ u, Js.jget (ns.foldl (fun m p => Js.jset m p.1 (⊤ : NumInf)) m) u = none ∨
        Js.jget (ns.foldl (fun m p => Js.jset m p.1 (⊤ : NumInf)) m) u = some ⊤ := by
    intro ns
    induction ns with
    | nil => intro m hm u; exact hm u
    | cons p ns ih =>
      intro m hm u
      rw [List.foldl_cons]
      refine ih _ ?_ u
      intro x
      by_cases hx : x = p.1
      · subst hx
        exact Or.inr (jget_jset_self _ _ _)
      · rw [jget_jset_ne _ _ _ _ hx]
        exact hm x
  exact main nodes [] (fun u => Or.inl rfl)

/-- The initial distance keys are nodup. -/
theorem init_keys (nodes : List (String × GraphNode)) :
    ((nodes.foldl (fun m p => Js.jset m p.1 (⊤ : NumInf)) []).map Prod.fst).Nodup := by
  have main : ∀ (ns : List (String × GraphNode)) (m : List (String × NumInf)),
      (m.map Prod.fst).Nodup →
      ((ns.foldl (fun m p => Js.jset m p.1 (⊤ : NumInf)) m).map Prod.fst).Nodup := by
    intro ns
    induction ns with
    | nil => intro m hm; exact hm
    | cons p ns ih =>
      intro m hm
      rw [List.foldl_cons]
      exact ih _ (jset_keys_nodup _ _ _ hm)
  exact main nodes [] (by simp)

/-- The initial Dijkstra state satisfies the invariant. -/
theorem dinit_inv (graph : StreetGraph) (s : String) :
    DInv graph s (dinit graph s) := by
  have hdist : ∀ u (d : ℚ), Js.jget (dinit graph s).dist u = some ((d : ℚ) : NumInf) →
      u = s ∧ d = 0 := by
    intro u d hd
    unfold dinit at hd
    dsimp only at hd
    by_cases hu : u = s
    · subst hu
      rw [jget_jset_self, Option.some_inj] at hd
      refine ⟨rfl, ?_⟩
      exact_mod_cast hd.symm
    · rw [jget_jset_ne _ _ _ _ hu] at hd
      rcases init_top graph.nodes u with h2 | h2
      · rw [h2] at hd; cases hd
      · rw [h2, Option.some_inj] at hd
        exact absurd hd.symm (by simp)
  have hheap : (dinit graph s).heap = [⟨s, 0⟩] := rfl
  refine ⟨⟨?_, ?_, ?_, ?_, ?_, ?_, ?_, ?_, ?_, ?_, ?_, ?_, ?_, ?_, ?_, ?_, ?_⟩, ?_⟩
  · rw [hheap]
    intro i hi0 hilen
    simp only [List.length_singleton] at hilen
    omega
  · intro e he
    rw [hheap, List.mem_singleton] at he
    subst he
    show (Js.jget (dinit graph s).dist s).getD ⊤ ≤ _
    unfold dinit
    dsimp only
    rw [jget_jset_self]
    exact le_refl _
  · intro e he
    rw [hheap, List.mem_singleton] at he
    subst he
    show (dinit graph s).lastPopped ≤ (0 : ℚ)
    exact le_refl _
  · intro u d hd
    obtain ⟨hu, hd0⟩ := hdist u d hd
    subst hu
    subst hd0
    rw [hheap]
    simp [List.count_singleton]
  · intro p hp
    cases hp
  · exact List.nodup_nil
  · intro p hp
    cases hp
  · rfl
  · intro t pe hpe
    cases hpe
  · intro t hts d hd
    obtain ⟨hu, _⟩ := hdist t d hd
    exact absurd hu hts
  · intro p hp
    cases hp
  · exact le_refl _
  · exact jset_keys_nodup _ _ _ (init_keys graph.nodes)
  · exact List.nodup_nil
  · exact jget_jset_self _ _ _
  · intro u d hd
    obtain ⟨_, hd0⟩ := hdist u d hd
    exact le_of_eq hd0.symm
  · exact le_refl _
  · intro x d hd
    obtain ⟨hu, hd0⟩ := hdist x d hd
    subst hu
    subst hd0
    exact Or.inl (by rw [hheap]; exact List.mem_singleton.mpr rfl)

/-- The number of distinct valid (node, adjacency index) pairs is at most the
total adjacency size. -/
theorem used_bound : ∀ (adj : List (String × List GraphNeighbor)) (l : List (String × ℕ)),
    l.Nodup → (∀ p ∈ l, p.2 < ((Js.jget adj p.1).getD []).length) →
    l.length ≤ (adj.map (fun p => p.2.length)).sum := by
  intro adj
  induction adj with
  | nil =>
    intro l hn hv
    cases l with
    | nil => simp
    | cons p l =>
      have := hv p (List.mem_cons_self _ _)
      simp [Js.jget] at this
  | cons q adj' ih =>
    obtain ⟨k, a⟩ := q
    intro l hn hv
    have hsplitlen : ∀ (m : List (String × ℕ)), (m.filter (fun p => p.1 = k)).length +
        (m.filter (fun p => ¬ p.1 = k)).length = m.length := by
      intro m
      induction m with
      | nil => rfl
      | cons q m ihm =>
        by_cases hq : q.1 = k
        · rw [List.filter_cons_of_pos (by simpa using hq),
            List.filter_cons_of_neg (by simpa using hq)]
          simp only [List.length_cons]
          omega
        · rw [List.filter_cons_of_neg (by simpa using hq),
            List.filter_cons_of_pos (by simpa using hq)]
          simp only [List.length_cons]
          omega
    have h1 : (l.filter (fun p => p.1 = k)).length ≤ a.length := by
      have hmap : ((l.filter (fun p => p.1 = k)).map Prod.snd).Nodup := by
        refine (List.Nodup.filter _ hn).map_on ?_
        intro x hx y hy hxy
        have hx1 : x.1 = k := by
          have := List.of_mem_filter hx
          simpa using this
        have hy1 : y.1 = k := by
          have := List.of_mem_filter hy
          simpa using this
        exact Prod.ext (hx1.trans hy1.symm) hxy
      have hsub : ((l.filter (fun p => p.1 = k)).map Prod.snd) ⊆
          List.range a.length := by
        intro i hi
        obtain ⟨p, hp, hpi⟩ := List.mem_map.mp hi
        rw [List.mem_range, ← hpi]
        have hval := hv p (List.mem_of_mem_filter hp)
        have hp1 : p.1 = k := by
          have := List.of_mem_filter hp
          simpa using this
        rw [hp1] at hval
        simp only [Js.jget, if_pos rfl, Option.getD_some] at hval
        exact hval
      calc (l.filter (fun p => p.1 = k)).length
          = ((l.filter (fun p => p.1 = k)).map Prod.snd).length := by
            rw [List.length_map]
        _ ≤ (List.range a.length).length :=
            (List.subperm_of_subset hmap hsub).length_le
        _ = a.length := List.length_range _
    have h2 : (l.filter (fun p => ¬ p.1 = k)).length ≤
        (adj'.map (fun p => p.2.length)).sum := by
      refine ih _ (List.Nodup.filter _ hn) ?_
      intro p hp
      have hval := hv p (List.mem_of_mem_filter hp)
      have hp1 : ¬ p.1 = k := by
        have := List.of_mem_filter hp
        simpa using this
      have hne : ¬ k = p.1 := fun h => hp1 h.symm
      simp only [Js.jget, if_neg hne] at hval
      exact hval
    have hsl := hsplitlen l
    simp only [List.map_cons, List.sum_cons]
    omega

/-- Total adjacency size as a foldl (the fuel formula of the source). -/
theorem foldl_adj_sum : ∀ (l : List (String × List GraphNeighbor)) (n : ℕ),
    l.foldl (fun acc p => acc + p.2.length) n =
      n + (l.map (fun p => p.2.length)).sum := by
  intro l
  induction l with
  | nil => intro n; simp
  | cons p l ih =>
    intro n
    rw [List.foldl_cons, ih, List.map_cons, List.sum_cons]
    omega

/-- With enough fuel the Dijkstra loop drains the heap while preserving the
invariant. -/
theorem dloop_drain (graph : StreetGraph) (s : String) (hadj : AdjSound graph)
    (hw : ∀ eid e, Js.jget graph.edges eid = some e → 0 ≤ e.distanceKm) :
    ∀ (fuel : ℕ) (st : DState), DInv graph s st →
      2 + (graph.adjacency.map (fun p => p.2.length)).sum ≤ fuel + st.popCount →
      DInv graph s (dloop graph fuel st) ∧ (dloop graph fuel st).heap = [] := by
  intro fuel
  induction fuel with
  | zero =>
    intro st hinv hf
    exfalso
    have hb := used_bound graph.adjacency st.usedRelax hinv.1.usedNodup
      hinv.1.usedIdx
    have hc := hinv.1.conserve
    omega
  | succ f ih =>
    intro st hinv hf
    rw [dloop]
    split
    next hempty =>
      exact ⟨hinv, List.length_eq_zero.mp hempty⟩
    next hempty =>
      have hne : st.heap ≠ [] := by
        intro h
        exact hempty (by rw [h]; rfl)
      obtain ⟨hinv2, hpc⟩ := dstep_inv graph s hadj hw st hinv hne
      refine ih (dstep graph st) hinv2 ?_
      omega

/-- The Dijkstra run ends with the invariant holding and the heap drained. -/
theorem runDijkstra_state (graph : StreetGraph) (s : String) (hadj : AdjSound graph)
    (hw : ∀ eid e, Js.jget graph.edges eid = some e → 0 ≤ e.distanceKm) :
    DInv graph s (dloop graph (dijkstraFuel graph) (dinit graph s)) ∧
      (dloop graph (dijkstraFuel graph) (dinit graph s)).heap = [] := by
  refine dloop_drain graph s hadj hw (dijkstraFuel graph) (dinit graph s)
    (dinit_inv graph s) ?_
  have hpc : (dinit graph s).popCount = 0 := rfl
  rw [hpc]
  unfold dijkstraFuel
  rw [foldl_adj_sum]
  omega

/-- The ghost order is transitive. -/
theorem keyLt_trans (dist : List (String × NumInf)) (seq : List (String × ℕ))
    (x y z : String) (h1 : keyLt dist seq x y) (h2 : keyLt dist seq y z) :
    keyLt dist seq x z := by
  rcases h1 with h1 | ⟨h1e, h1s⟩ <;> rcases h2 with h2 | ⟨h2e, h2s⟩
  · exact Or.inl (lt_trans h1 h2)
  · exact Or.inl (by rw [← h2e]; exact h1)
  · exact Or.inl (by rw [h1e]; exact h2)
  · exact Or.inr ⟨h1e.trans h2e, lt_trans h1s h2s⟩

/-- The ghost order is irreflexive. -/
theorem keyLt_irrefl (dist : List (String × NumInf)) (seq : List (String × ℕ))
    (x : String) : ¬ keyLt dist seq x x := by
  intro h
  rcases h with h | ⟨_, h⟩
  · exact lt_irrefl _ h
  · exact lt_irrefl _ h

/-- A pointwise-weaker filter retains at most as many elements. -/
theorem filter_length_mono {α : Type} (p q : α → Bool) :
    ∀ (l : List α), (∀ x ∈ l, p x = true → q x = true) →
      (l.filter p).length ≤ (l.filter q).length := by
  intro l
  induction l with
  | nil => intro _; exact le_refl 0
  | cons b l ih =>
    intro h
    have hrest := ih (fun x hx => h x (List.mem_cons_of_mem _ hx))
    rw [List.filter_cons, List.filter_cons]
    by_cases hb : p b = true
    · rw [if_pos hb, if_pos (h b (List.mem_cons_self _ _) hb)]
      simpa using hrest
    · rw [if_neg hb]
      by_cases hqb : q b = true
      · rw [if_pos hqb]
        simp only [List.length_cons]
        omega
      · rw [if_neg hqb]
        exact hrest

/-- A pointwise-weaker filter misses strictly fewer elements when some member
passes only the weaker predicate. -/
theorem filter_length_strict {α : Type} (p q : α → Bool) (a : α) :
    ∀ (l : List α), (∀ x ∈ l, p x = true → q x = true) → a ∈ l →
      p a = false → q a = true →
      (l.filter p).length < (l.filter q).length := by
  intro l
  induction l with
  | nil => intro _ ha; intro _ _; cases ha
  | cons b l ih =>
    intro hmono hmem hpa hqa
    have hrestmono : ∀ x ∈ l, p x = true → q x = true :=
      fun x hx => hmono x (List.mem_cons_of_mem _ hx)
    rw [List.filter_cons, List.filter_cons]
    rcases List.mem_cons.mp hmem with hba | hal
    · subst hba
      rw [if_neg (by simp [hpa]), if_pos hqa]
      simp only [List.length_cons]
      have := filter_length_mono p q l hrestmono
      omega
    · by_cases hpb : p b = true
      · rw [if_pos hpb, if_pos (hmono b (List.mem_cons_self _ _) hpb)]
        simp only [List.length_cons]
        have := ih hrestmono hal hpa hqa
        omega
      · rw [if_neg hpb]
        by_cases hqb : q b = true
        · rw [if_pos hqb]
          simp only [List.length_cons]
          have := ih hrestmono hal hpa hqa
          omega
        · rw [if_neg hqb]
          exact ih hrestmono hal hpa hqa

/-- A filter rejecting some member of the list is strictly shorter than the
list. -/
theorem filter_length_lt {α : Type} (p : α → Bool) (a : α) (l : List α)
    (ha : a ∈ l) (hpa : p a = false) : (l.filter p).length < l.length := by
  have hsub : List.Sublist (l.filter p) l := List.filter_sublist l
  have hle := hsub.length_le
  rcases Nat.lt_or_ge (l.filter p).length l.length with h | h
  · exact h
  · exfalso
    have heq : l.filter p = l := hsub.eq_of_length (le_antisymm hle h)
    have hmem : a ∈ l.filter p := by rw [heq]; exact ha
    have hfp := List.of_mem_filter hmem
    rw [hpa] at hfp
    cases hfp

/-- In the drained final state, every finite node other than the start has a
prev edge realizing its distance exactly, pointing strictly down the ghost
order. -/
theorem final_prev (graph : StreetGraph) (s : String) (F : DState)
    (hc : DCore graph s F) (hp : ∀ x, DPending graph F x) (hheap : F.heap = [])
    (t : String) (hts : t ≠ s) (dt : ℚ)
    (hdt : Js.jget F.dist t = some ((dt : ℚ) : NumInf)) :
    ∃ pe, Js.jget F.prev t = some pe ∧
      ∃ e, Js.jget graph.edges pe.edgeId = some e ∧
        ((e.fromId = pe.nodeId ∧ e.toId = t) ∨ (e.toId = pe.nodeId ∧ e.fromId = t)) ∧
        ∃ du : ℚ, Js.jget F.dist pe.nodeId = some ((du : ℚ) : NumInf) ∧
          du + e.distanceKm = dt ∧ keyLt F.dist F.seq pe.nodeId t := by
  have hne := hc.prevAll t hts dt hdt
  cases hpe : Js.jget F.prev t with
  | none => exact absurd hpe hne
  | some pe =>
    obtain ⟨nb, hnb, hnbe, hnbn, e, he, hor, du, dt', hdu, hdt', hle, hklt⟩ :=
      hc.prevSound t pe hpe
    have hsome : ((dt : ℚ) : NumInf) = ((dt' : ℚ) : NumInf) :=
      Option.some.inj (hdt.symm.trans hdt')
    have hdteq : dt' = dt := by exact_mod_cast hsome.symm
    rw [hdteq] at hle
    rcases hp pe.nodeId du hdu with hmem | ⟨_, hdone⟩
    · rw [hheap] at hmem
      cases hmem
    · have hbd := hdone nb hnb e (by rw [hnbe]; exact he)
      rw [hnbn, hdt] at hbd
      simp only [Option.getD_some] at hbd
      have hge : dt ≤ du + e.distanceKm := by exact_mod_cast hbd
      exact ⟨pe, rfl, e, he, hor, du, hdu, le_antisymm hle hge, hklt⟩

/-- Unfolding equation for the walk checker on a cons. -/
theorem isPathB_cons_eq (graph : StreetGraph) (s t f : String) (rest : List String) :
    isPathB graph s t (f :: rest) =
      match Js.jget graph.edges f with
      | none => false
      | some e =>
        (e.fromId == s && isPathB graph e.toId t rest) ||
          (e.toId == s && isPathB graph e.fromId t rest) := rfl

/-- A walk extends by one incident stored edge. -/
theorem isPathB_append (graph : StreetGraph) :
    ∀ (L : List String) (s u t eid : String) (e : GraphEdge),
      isPathB graph s u L = true → Js.jget graph.edges eid = some e →
      ((e.fromId = u ∧ e.toId = t) ∨ (e.toId = u ∧ e.fromId = t)) →
      isPathB graph s t (L ++ [eid]) = true := by
  intro L
  induction L with
  | nil =>
    intro s u t eid e hpath he hor
    have hsu : s = u := by simpa [isPathB] using hpath
    subst hsu
    rw [List.nil_append, isPathB_cons_eq, he]
    rcases hor with ⟨h1, h2⟩ | ⟨h1, h2⟩
    · simp [isPathB, h1, h2]
    · simp [isPathB, h1, h2]
  | cons f L ih =>
    intro s u t eid e hpath he hor
    rw [isPathB_cons_eq] at hpath
    cases hef : Js.jget graph.edges f with
    | none =>
      rw [hef] at hpath
      simp at hpath
    | some e2 =>
      rw [hef] at hpath
      dsimp only at hpath
      simp only [Bool.or_eq_true, Bool.and_eq_true, beq_iff_eq] at hpath
      rw [List.cons_append, isPathB_cons_eq, hef]
      dsimp only
      simp only [Bool.or_eq_true, Bool.and_eq_true, beq_iff_eq]
      rcases hpath with ⟨h1, h2⟩ | ⟨h1, h2⟩
      · exact Or.inl ⟨h1, ih _ _ _ _ _ h2 he hor⟩
      · exact Or.inr ⟨h1, ih _ _ _ _ _ h2 he hor⟩

theorem pathWeight_nil (graph : StreetGraph) : pathWeight graph [] = 0 := rfl

/-- The weight of a walk extended by one stored edge. -/
theorem pathWeight_append_edge (graph : StreetGraph) (L : List String) (eid : String)
    (e : GraphEdge) (he : Js.jget graph.edges eid = some e) :
    pathWeight graph (L ++ [eid]) = pathWeight graph L + e.distanceKm := by
  unfold pathWeight
  rw [List.map_append, List.sum_append]
  simp [he]

/-- In the drained final state every finite node reconstructs: the prev chain
reaches the start within countBelow steps, its edges sum to the node's
distance and form a walk from the start. -/
theorem reconstruct_chain (graph : StreetGraph) (s : String) (F : DState)
    (hc : DCore graph s F) (hp : ∀ x, DPending graph F x) (hheap : F.heap = []) :
    ∀ (n : ℕ) (t : String), countBelow F t ≤ n → t ≠ s → ∀ dt : ℚ,
      Js.jget F.dist t = some ((dt : ℚ) : NumInf) →
      ∃ es : List String,
        (∀ fuel acc, countBelow F t + 2 ≤ fuel →
          reconstructGo F.prev s fuel t acc = (acc ++ es).reverse) ∧
        pathWeight graph es.reverse = dt ∧ isPathB graph s t es.reverse = true := by
  intro n
  induction n using Nat.strong_induction_on with
  | _ n ih =>
    intro t hcb hts dt hdt
    obtain ⟨pe, hpe, e, he, hor, du, hdu, hsum, hklt⟩ :=
      final_prev graph s F hc hp hheap t hts dt hdt
    by_cases hus : pe.nodeId = s
    · refine ⟨[pe.edgeId], ?_, ?_, ?_⟩
      · intro fuel acc hf
        obtain ⟨f1, rfl⟩ : ∃ f1, fuel = f1 + 1 + 1 := ⟨fuel - 2, by omega⟩
        simp only [reconstructGo]
        rw [if_neg hts, hpe]
        dsimp only
        rw [hus]
        simp only [reconstructGo]
        simp
      · rw [List.reverse_singleton]
        have hw1 := pathWeight_append_edge graph [] pe.edgeId e he
        rw [List.nil_append] at hw1
        rw [hw1, pathWeight_nil]
        have hdu0 : du = 0 := by
          have h0 := hc.distS
          rw [hus] at hdu
          have h2 := Option.some.inj (hdu.symm.trans h0)
          exact_mod_cast h2
        rw [hdu0] at hsum
        rw [← hsum, zero_add]
      · rw [List.reverse_singleton]
        rw [hus] at hor
        exact isPathB_append graph [] s s t pe.edgeId e (by simp [isPathB]) he hor
    · have hmemu : pe.nodeId ∈ F.prev.map Prod.fst := by
        have hne2 := hc.prevAll pe.nodeId hus du hdu
        rw [mem_keys_iff_jget]
        cases hju : Js.jget F.prev pe.nodeId with
        | none => exact absurd hju hne2
        | some q => rfl
      have hlt : countBelow F pe.nodeId < countBelow F t := by
        unfold countBelow
        refine filter_length_strict _ _ pe.nodeId (F.prev.map Prod.fst) ?_ hmemu ?_ ?_
        · intro x hx hxu
          have hxu2 := of_decide_eq_true hxu
          exact decide_eq_true (keyLt_trans _ _ _ _ _ hxu2 hklt)
        · exact decide_eq_false (keyLt_irrefl _ _ _)
        · exact decide_eq_true hklt
      obtain ⟨es1, hgo1, hwt1, hpath1⟩ := ih (countBelow F pe.nodeId)
        (lt_of_lt_of_le hlt hcb) pe.nodeId (le_refl _) hus du hdu
      refine ⟨pe.edgeId :: es1, ?_, ?_, ?_⟩
      · intro fuel acc hf
        obtain ⟨f1, rfl⟩ : ∃ f1, fuel = f1 + 1 := ⟨fuel - 1, by omega⟩
        simp only [reconstructGo]
        rw [if_neg hts, hpe]
        dsimp only
        have hg := hgo1 f1 (acc ++ [pe.edgeId]) (by omega)
        rw [hg, List.append_assoc]
        rfl
      · rw [List.reverse_cons]
        rw [pathWeight_append_edge graph es1.reverse pe.edgeId e he, hwt1]
        exact hsum
      · rw [List.reverse_cons]
        exact isPathB_append graph es1.reverse s pe.nodeId t pe.edgeId e hpath1 he hor

/-- Correctness of runDijkstra together with reconstructPathEdges: every
finite distance is realized exactly by the reconstructed edge list, and that
list is a walk from the start to the node. -/
theorem runDijkstra_correct (graph : StreetGraph) (s : String) (hadj : AdjSound graph)
    (hw : ∀ eid e, Js.jget graph.edges eid = some e → 0 ≤ e.distanceKm)
    (t : String) (dt : ℚ)
    (hdt : Js.jget (runDijkstra graph s).dist t = some ((dt : ℚ) : NumInf)) :
    pathWeight graph (reconstructPathEdges (runDijkstra graph s) s t) = dt ∧
      isPathB graph s t (reconstructPathEdges (runDijkstra graph s) s t) = true := by
  obtain ⟨⟨hc, hp⟩, hheap⟩ := runDijkstra_state graph s hadj hw
  have hdist : (runDijkstra graph s).dist =
      (dloop graph (dijkstraFuel graph) (dinit graph s)).dist := rfl
  have hprev : (runDijkstra graph s).prev =
      (dloop graph (dijkstraFuel graph) (dinit graph s)).prev := rfl
  rw [hdist] at hdt
  by_cases hts : t = s
  · subst hts
    have h0 := hc.distS
    have hdt0 : dt = 0 := by
      have h2 := Option.some.inj (hdt.symm.trans h0)
      exact_mod_cast h2
    subst hdt0
    unfold reconstructPathEdges
    rw [if_pos rfl]
    exact ⟨rfl, by simp [isPathB]⟩
  · obtain ⟨es, hgo, hwt, hpath⟩ := reconstruct_chain graph s
      (dloop graph (dijkstraFuel graph) (dinit graph s)) hc hp hheap
      (countBelow (dloop graph (dijkstraFuel graph) (dinit graph s)) t) t
      (le_refl _) hts dt hdt
    have hmt : t ∈ (dloop graph (dijkstraFuel graph) (dinit graph s)).prev.map
        Prod.fst := by
      have hne := hc.prevAll t hts dt hdt
      rw [mem_keys_iff_jget]
      cases hju : Js.jget (dloop graph (dijkstraFuel graph) (dinit graph s)).prev t with
      | none => exact absurd hju hne
      | some q => rfl
    have hcblt : countBelow (dloop graph (dijkstraFuel graph) (dinit graph s)) t <
        (dloop graph (dijkstraFuel graph) (dinit graph s)).prev.length := by
      have hx := filter_length_lt
        (fun x => decide (keyLt (dloop graph (dijkstraFuel graph) (dinit graph s)).dist
          (dloop graph (dijkstraFuel graph) (dinit graph s)).seq x t)) t
        ((dloop graph (dijkstraFuel graph) (dinit graph s)).prev.map Prod.fst) hmt
        (decide_eq_false (keyLt_irrefl _ _ _))
      rw [List.length_map] at hx
      exact hx
    unfold reconstructPathEdges
    rw [if_neg (fun h => hts h.symm)]
    rw [hprev]
    have hg := hgo ((dloop graph (dijkstraFuel graph) (dinit graph s)).prev.length + 1)
      [] (by omega)
    rw [hg, List.nil_append]
    exact ⟨hwt, hpath⟩

/-- Polyline length is nonnegative when the haversine is. -/
theorem polyline_nonneg (geo : Geo) (hnn : ∀ a b, 0 ≤ geo.hav a b) :
    ∀ (l : List LatLng), 0 ≤ polylineDistanceKm geo l := by
  intro l
  induction l with
  | nil => exact le_refl 0
  | cons a l ih =>
    cases l with
    | nil => exact le_refl 0
    | cons b rest =>
      rw [polylineDistanceKm]
      exact add_nonneg (hnn a b) ih

/-- Every stored edge weight of a built graph is nonnegative. -/
theorem buildStreetGraph_weights (geo : Geo) (hnn : ∀ a b, 0 ≤ geo.hav a b)
    (streets : List StreetSegment) :
    ∀ eid e, Js.jget (buildStreetGraph geo streets).edges eid = some e →
      0 ≤ e.distanceKm := by
  have main : ∀ (ss : List StreetSegment) (g : StreetGraph),
      (∀ eid e, Js.jget g.edges eid = some e → 0 ≤ e.distanceKm) →
      ∀ eid e, Js.jget (ss.foldl (buildStreetGraphStep geo) g).edges eid = some e →
        0 ≤ e.distanceKm := by
    intro ss
    induction ss with
    | nil => intro g hg; exact hg
    | cons st ss ihp =>
      intro g hg
      rw [List.foldl_cons]
      refine ihp _ ?_
      intro eid e he
      by_cases hlen : st.path.length < 2
      · unfold buildStreetGraphStep at he
        rw [if_pos hlen] at he
        exact hg eid e he
      · rw [step_edges geo g st hlen] at he
        by_cases hid : eid = st.id
        · subst hid
          rw [jget_jset_self] at he
          injection he with he2
          rw [← he2]
          exact polyline_nonneg geo hnn st.path
        · rw [jget_jset_ne _ _ _ _ hid] at he
          exact hg eid e he
  intro eid e he
  refine main streets ⟨[], [], []⟩ ?_ eid e he
  intro eid2 e2 h2
  simp [Js.jget] at h2

/-- Registering an adjacency key adds no neighbor entries. -/
theorem mem_adj_ensure (adj : List (String × List GraphNeighbor)) (k u : String)
    (nb : GraphNeighbor) (h : nb ∈ (Js.jget (ensureAdj adj k) u).getD []) :
    nb ∈ (Js.jget adj u).getD [] := by
  unfold ensureAdj at h
  by_cases hh : Js.jhas adj k = true
  · rw [if_pos hh] at h
    exact h
  · rw [if_neg hh] at h
    by_cases hu : u = k
    · subst hu
      rw [jget_jset_self] at h
      simp at h
    · rw [jget_jset_ne _ _ _ _ hu] at h
      exact h

/-- A pushed neighbor entry is the only new entry of the adjacency map. -/
theorem mem_adj_push (adj : List (String × List GraphNeighbor)) (k u : String)
    (nb nb2 : GraphNeighbor) (h : nb ∈ (Js.jget (pushNeighbor adj k nb2) u).getD []) :
    nb ∈ (Js.jget adj u).getD [] ∨ (u = k ∧ nb = nb2) := by
  unfold pushNeighbor at h
  by_cases hu : u = k
  · subst hu
    rw [jget_jmodify_self] at h
    cases hj : Js.jget adj u with
    | none =>
      rw [hj] at h
      simp at h
    | some l =>
      rw [hj] at h
      simp only [Option.map_some', Option.getD_some] at h
      rcases List.mem_append.mp h with h2 | h2
      · left
        simpa using h2
      · right
        exact ⟨rfl, by simpa using h2⟩
  · rw [jget_jmodify_ne _ _ _ _ hu] at h
    exact Or.inl h

/-- With pairwise-distinct street ids, every adjacency entry of the built
graph references a stored edge incident to its node pair. -/
theorem buildStreetGraph_adj_sound (geo : Geo) (streets : List StreetSegment)
    (hids : (streets.map StreetSegment.id).Nodup) :
    AdjSound (buildStreetGraph geo streets) := by
  have main : ∀ (ss : List StreetSegment) (g : StreetGraph) (ids : List String),
      (ss.map StreetSegment.id).Nodup →
      (∀ st ∈ ss, st.id ∉ ids) →
      AdjSound g →
      (∀ u, ∀ nb ∈ (Js.jget g.adjacency u).getD [], nb.edgeId ∈ ids) →
      AdjSound (ss.foldl (buildStreetGraphStep geo) g) := by
    intro ss
    induction ss with
    | nil =>
      intro g ids _ _ hs _
      exact hs
    | cons st ss ihp =>
      intro g ids hnd hdisj hsound hrefs
      rw [List.map_cons, List.nodup_cons] at hnd
      rw [List.foldl_cons]
      by_cases hlen : st.path.length < 2
      · have hstep : buildStreetGraphStep geo g st = g := by
          unfold buildStreetGraphStep
          rw [if_pos hlen]
        rw [hstep]
        refine ihp g ids hnd.2 ?_ hsound hrefs
        intro s2 hs2
        exact hdisj s2 (List.mem_cons_of_mem _ hs2)
      · have hfresh : st.id ∉ ids := hdisj st (List.mem_cons_self _ _)
        have hmem_decomp : ∀ u, ∀ nb ∈
            (Js.jget (buildStreetGraphStep geo g st).adjacency u).getD [],
            nb ∈ (Js.jget g.adjacency u).getD [] ∨
              (u = nodeIdForStreetEndpoint st .last ∧
                nb = ⟨st.id, nodeIdForStreetEndpoint st .start⟩) ∨
              (u = nodeIdForStreetEndpoint st .start ∧
                nb = ⟨st.id, nodeIdForStreetEndpoint st .last⟩) := by
          intro u nb hnb
          rw [step_adjacency geo g st hlen] at hnb
          rcases mem_adj_push _ _ _ _ _ hnb with h2 | h2
          · rcases mem_adj_push _ _ _ _ _ h2 with h3 | h3
            · exact Or.inl (mem_adj_ensure _ _ _ _ (mem_adj_ensure _ _ _ _ h3))
            · exact Or.inr (Or.inr h3)
          · exact Or.inr (Or.inl h2)
        have hedges : (buildStreetGraphStep geo g st).edges =
            Js.jset g.edges st.id
              ⟨st.id, st.id, st.name, nodeIdForStreetEndpoint st .start,
                nodeIdForStreetEndpoint st .last, st.path,
                polylineDistanceKm geo st.path⟩ := step_edges geo g st hlen
        refine ihp (buildStreetGraphStep geo g st) (st.id :: ids) hnd.2 ?_ ?_ ?_
        · intro s2 hs2 hmem
          rcases List.mem_cons.mp hmem with h | h
          · exact hnd.1 (h ▸ List.mem_map_of_mem StreetSegment.id hs2)
          · exact hdisj s2 (List.mem_cons_of_mem _ hs2) h
        · intro u l hul nb hnb
          have hnb2 : nb ∈
              (Js.jget (buildStreetGraphStep geo g st).adjacency u).getD [] := by
            rw [hul]
            exact hnb
          rcases hmem_decomp u nb hnb2 with hold | ⟨hu, hnbv⟩ | ⟨hu, hnbv⟩
          · have hid_old : nb.edgeId ∈ ids := hrefs u nb hold
            have hid_ne : nb.edgeId ≠ st.id := fun h => hfresh (h ▸ hid_old)
            have hg2 : nb ∈ (Js.jget g.adjacency u).getD [] := hold
            cases hj : Js.jget g.adjacency u with
            | none =>
              rw [hj] at hg2
              simp at hg2
            | some l0 =>
              rw [hj] at hg2
              simp only [Option.getD_some] at hg2
              obtain ⟨e, he, hor⟩ := hsound u l0 hj nb hg2
              refine ⟨e, ?_, hor⟩
              rw [hedges, jget_jset_ne _ _ _ _ hid_ne]
              exact he
          · subst hu
            subst hnbv
            refine ⟨⟨st.id, st.id, st.name, nodeIdForStreetEndpoint st .start,
              nodeIdForStreetEndpoint st .last, st.path,
              polylineDistanceKm geo st.path⟩, ?_, ?_⟩
            · rw [hedges]
              exact jget_jset_self _ _ _
            · exact Or.inr ⟨rfl, rfl⟩
          · subst hu
            subst hnbv
            refine ⟨⟨st.id, st.id, st.name, nodeIdForStreetEndpoint st .start,
              nodeIdForStreetEndpoint st .last, st.path,
              polylineDistanceKm geo st.path⟩, ?_, ?_⟩
            · rw [hedges]
              exact jget_jset_self _ _ _
            · exact Or.inl ⟨rfl, rfl⟩
        · intro u nb hnb
          rcases hmem_decomp u nb hnb with hold | ⟨_, hnbv⟩ | ⟨_, hnbv⟩
          · exact List.mem_cons_of_mem _ (hrefs u nb hold)
          · subst hnbv
            exact List.mem_cons_self _ _
          · subst hnbv
            exact List.mem_cons_self _ _
  refine main streets ⟨[], [], []⟩ [] hids (fun st _ h => (List.not_mem_nil _ h)) ?_ ?_
  · intro u l hul
    simp [Js.jget] at hul
  · intro u nb hnb
    simp [Js.jget] at hnb

/-- Claim C2 (amended): for every graph built by buildStreetGraph from street
segments with pairwise-distinct ids, every source node s and every node t
with dist[t] finite in runDijkstra(graph, s), dist[t] equals the sum of
distanceKm over the edges returned by reconstructPathEdges(s, t), and those
edges form a walk from s to t through the stored edges; without distinct ids
the Map.set of the edge record overwrites an edge that stale adjacency
entries keep referencing, and the reconstructed edges need not connect s to
t. -/
theorem claim_C2_theorem (geo : Geo) (streets : List StreetSegment) (s t : String)
    (dt : ℚ) (hids : (streets.map StreetSegment.id).Nodup)
    (hnn : ∀ a b, 0 ≤ geo.hav a b)
    (hdt : Js.jget (runDijkstra (buildStreetGraph geo streets) s).dist t =
      some ((dt : ℚ) : NumInf)) :
    pathWeight (buildStreetGraph geo streets)
        (reconstructPathEdges (runDijkstra (buildStreetGraph geo streets) s) s t) =
        dt ∧
      isPathB (buildStreetGraph geo streets) s t
        (reconstructPathEdges (runDijkstra (buildStreetGraph geo streets) s) s t) =
        true :=
  runDijkstra_correct (buildStreetGraph geo streets) s
    (buildStreetGraph_adj_sound geo streets hids)
    (buildStreetGraph_weights geo hnn streets) t dt hdt

/-- The Dijkstra contract evaluated on the concrete two-street chain: the
finite distance 3 of n3 is realized by the reconstructed edges, which form a
walk from n1 to n3. -/
theorem claim_C2_witness :
    ((c2Streets.map StreetSegment.id).Nodup ∧
      Js.jget (runDijkstra c2Graph "n1").dist "n3" = some ((3 : ℚ) : NumInf)) ∧
    pathWeight c2Graph
        (reconstructPathEdges (runDijkstra c2Graph "n1") "n1" "n3") = 3 ∧
      isPathB c2Graph "n1" "n3"
        (reconstructPathEdges (runDijkstra c2Graph "n1") "n1" "n3") = true :=
  ⟨⟨by decide, by with_unfolding_all decide⟩,
    claim_C2_theorem l1Geo c2Streets "n1" "n3" 3 (by decide)
      (fun a b => add_nonneg (abs_nonneg _) (abs_nonneg _))
      (by with_unfolding_all decide)⟩

/-- Claim C2 as stated fails without distinct street ids: in the
duplicated-id graph, n2 ends with the finite distance 1, yet the
reconstructed edge list is not a walk from n1 to n2 because the stored edge
x connects n3 and n4. -/
theorem claim_C2_counterexample :
    Js.jget (runDijkstra c2DupGraph "n1").dist "n2" = some ((1 : ℚ) : NumInf) ∧
      isPathB c2DupGraph "n1" "n2"
        (reconstructPathEdges (runDijkstra c2DupGraph "n1") "n1" "n2") = false := by
  with_unfolding_all decide
